import Mathlib

set_option autoImplicit false
set_option linter.unusedVariables false
set_option linter.unusedSectionVars false
set_option linter.unnecessarySeqFocus false
set_option linter.unnecessarySimpa false

/-!
Verification of the three priority-queue implementations of the repository
(`src/main.rs`): the array-backed binary min-heap `BinaryHeap`, the
`BinomialHeap` of rank-indexed binomial trees, and the
`RandomizedMeldableHeap`.  The Rust code is shallowly embedded: vectors
become lists, in-place mutation becomes explicit state passing, the
process-wide random source of the meldable heap becomes an explicit stream
of coin flips (`Nat → Bool`), and a panicking array access becomes an
`Option` result.
-/

universe u v w

/-- An entry stored at every heap node: an ordering key and an opaque payload
(struct `HeapEntry` in the source). -/
structure HeapEntry (K : Type u) (D : Type v) where
  key : K
  data : D
deriving DecidableEq

section BinaryHeapDefs

variable {K : Type u} {D : Type v} {α : Type w}

/-- Model of `Vec::swap`: exchange the elements at positions `i` and `j`.
The fallback branch (identity) is never reached by the source, which only
swaps in-bounds indices. -/
def listSwap (l : List α) (i j : Nat) : List α :=
  match l[i]?, l[j]? with
  | some a, some b => (l.set i b).set j a
  | _, _ => l

/-- Model of the array-backed binary min-heap (struct `BinaryHeap` in the
source): `storage` is the `Vec` of entries. -/
structure BinaryHeap (K : Type u) (D : Type v) where
  storage : List (HeapEntry K D)
deriving DecidableEq

variable [LinearOrder K]

/-- The upward sift loop shared by `BinaryHeap::insert` and
`BinaryHeap::decrease_key`: starting from `i`, repeatedly swap the current
element with its parent `(i-1)/2` while its key is strictly smaller than the
parent's key; return the final list together with the final resting index.
The catch-all branch is never reached when `i` is in bounds. -/
def siftUp (l : List (HeapEntry K D)) (i : Nat) : List (HeapEntry K D) × Nat :=
  if hi : i = 0 then (l, 0)
  else
    match l[i]?, l[(i - 1) / 2]? with
    | some ei, some ep =>
      if ei.key < ep.key then siftUp (listSwap l i ((i - 1) / 2)) ((i - 1) / 2)
      else (l, i)
    | _, _ => (l, i)
termination_by i
decreasing_by omega

/-- Model of `BinaryHeap::insert`: push the entry at the end of the storage
vector and sift it upward; the returned `Nat` is the `EntryRef` (the final
index) returned by the source. -/
def BinaryHeap.insert (h : BinaryHeap K D) (entry : HeapEntry K D) :
    BinaryHeap K D × Nat :=
  let st := h.storage ++ [entry]
  let r := siftUp st (st.length - 1)
  (⟨r.1⟩, r.2)

/-- Model of the child-selection scan inside `BinaryHeap::delete_min`:
`childs.iter().enumerate().min_by_key(|a| &a.1.key)` over the slice
`storage[child_index ..= max_child_index]` of one or two children.  Rust's
`min_by_key` keeps the first element among equally minimal ones, so the
second child is selected only when its key is strictly smaller. -/
def minChildIndex (l : List (HeapEntry K D)) (childIndex maxChildIndex : Nat) : Nat :=
  if maxChildIndex = childIndex then childIndex
  else
    match l[childIndex]?, l[maxChildIndex]? with
    | some c1, some c2 => if c2.key < c1.key then maxChildIndex else childIndex
    | _, _ => childIndex

/-- The index (`max_index` in the source) that `delete_min`'s sift-down loop
compares and possibly swaps with the current index `i`. -/
def swapTarget (l : List (HeapEntry K D)) (i : Nat) : Nat :=
  minChildIndex l (2 * i + 1) (if 2 * i + 1 + 1 < l.length then 2 * i + 1 + 1 else 2 * i + 1)

/-- The downward sift loop of `BinaryHeap::delete_min`: while the current
node has a child and the minimum-keyed child's key is strictly smaller than
the current node's key, swap them and continue.  The catch-all branch is
never reached when `i` is in bounds. -/
def siftDown (l : List (HeapEntry K D)) (i : Nat) : List (HeapEntry K D) :=
  if hc : 2 * i + 1 < l.length then
    match l[i]?, l[swapTarget l i]? with
    | some ei, some em =>
      if em.key < ei.key then siftDown (listSwap l i (swapTarget l i)) (swapTarget l i)
      else l
    | _, _ => l
  else l
termination_by l.length - i
decreasing_by
  have hlsw : (listSwap l i (swapTarget l i)).length = l.length := by
    unfold listSwap
    split <;> simp
  have hcases : ∀ c mc : Nat, minChildIndex l c mc = c ∨ minChildIndex l c mc = mc := by
    intro c mc
    unfold minChildIndex
    split
    · exact Or.inl rfl
    · split
      · split
        · exact Or.inr rfl
        · exact Or.inl rfl
      · exact Or.inl rfl
  have h1 : i < swapTarget l i := by
    unfold swapTarget
    rcases hcases (2 * i + 1)
        (if 2 * i + 1 + 1 < l.length then 2 * i + 1 + 1 else 2 * i + 1) with h | h <;> rw [h]
    · omega
    · split <;> omega
  have h2 : swapTarget l i < l.length := by
    unfold swapTarget
    rcases hcases (2 * i + 1)
        (if 2 * i + 1 + 1 < l.length then 2 * i + 1 + 1 else 2 * i + 1) with h | h <;> rw [h]
    · omega
    · split <;> omega
  rw [hlsw]
  omega

/-- Model of `BinaryHeap::delete_min`: the pair is (new heap state, returned
`Option` entry).  With at most one element the vector is popped; otherwise
the root is swapped with the last element, popped, and the new root is
sifted down. -/
def BinaryHeap.deleteMin (h : BinaryHeap K D) :
    BinaryHeap K D × Option (HeapEntry K D) :=
  match h.storage with
  | [] => (⟨[]⟩, none)
  | [e] => (⟨[]⟩, some e)
  | e0 :: e1 :: rest =>
    let st := e0 :: e1 :: rest
    let swapped := listSwap st 0 (st.length - 1)
    (⟨siftDown swapped.dropLast 0⟩, swapped.getLast?)

/-- Model of `BinaryHeap::decrease_key`: the very first statement of the
source performs an unchecked write `self.storage[reference].key = new_key`,
so an out-of-bounds reference faults (modelled as `none`) before any
mutation; otherwise the key is overwritten and the entry is sifted upward
exactly as in `insert`. -/
def BinaryHeap.decreaseKey (h : BinaryHeap K D) (reference : Nat) (newKey : K) :
    Option (BinaryHeap K D) :=
  match h.storage[reference]? with
  | none => none
  | some e => some ⟨(siftUp (h.storage.set reference ⟨newKey, e.data⟩) reference).1⟩

/-- The multiset of entries currently stored in a binary heap. -/
def BinaryHeap.entries (h : BinaryHeap K D) : Multiset (HeapEntry K D) :=
  ↑h.storage

/-- Comparison of two optional entries by key, vacuously true when either is
absent; used to state the heap-order invariant. -/
def pairLE : Option (HeapEntry K D) → Option (HeapEntry K D) → Prop
  | some ep, some ei => ep.key ≤ ei.key
  | some _, none => True
  | none, some _ => True
  | none, none => True

instance pairLE.decidable (a b : Option (HeapEntry K D)) : Decidable (pairLE a b) :=
  match a, b with
  | some ep, some ei => inferInstanceAs (Decidable (ep.key ≤ ei.key))
  | some _, none => isTrue True.intro
  | none, some _ => isTrue True.intro
  | none, none => isTrue True.intro

/-- The binary min-heap order invariant of the spec: for every non-root
index `i`, the key at the parent index `(i-1)/2` is at most the key at `i`. -/
def heapInv (l : List (HeapEntry K D)) : Prop :=
  ∀ i, i < l.length → i ≠ 0 → pairLE l[(i - 1) / 2]? l[i]?

instance heapInv.decidable (l : List (HeapEntry K D)) : Decidable (heapInv l) :=
  Nat.decidableBallLT l.length fun i _ => i ≠ 0 → pairLE l[(i - 1) / 2]? l[i]?

end BinaryHeapDefs

section BinomialHeapDefs

variable {K : Type u} {D : Type v}

/-- Model of struct `BinomialTree`: a root entry together with the list of
child trees (`childs` in the source, ordered by increasing rank). -/
inductive BinomialTree (K : Type u) (D : Type v) : Type (max u v) where
  | mk (root : HeapEntry K D) (childs : List (BinomialTree K D))

/-- Root entry of a binomial tree. -/
def BinomialTree.root : BinomialTree K D → HeapEntry K D
  | .mk r _ => r

/-- Child list of a binomial tree. -/
def BinomialTree.childs : BinomialTree K D → List (BinomialTree K D)
  | .mk _ cs => cs

/-- The multiset of entries stored in a binomial tree. -/
def BinomialTree.entries : BinomialTree K D → Multiset (HeapEntry K D)
  | .mk r cs => r ::ₘ (cs.attach.map fun c => BinomialTree.entries c.1).sum
decreasing_by
  simp only [BinomialTree.mk.sizeOf_spec]
  have := List.sizeOf_lt_of_mem c.2
  omega

variable [LinearOrder K]

/-- Model of `BinomialTree::merge`: link two trees; the tree with the larger
root key becomes the last child of the other (on equal keys the receiver
keeps the root, since the source swaps only on a strict `>`). -/
def BinomialTree.merge (t1 t2 : BinomialTree K D) : BinomialTree K D :=
  if t1.root.key > t2.root.key then .mk t2.root (t2.childs ++ [t1])
  else .mk t1.root (t1.childs ++ [t2])

/-- Heap order of a binomial tree: every node's key is at most the keys of
all of its children's roots, recursively. -/
inductive TreeHeapOrd : BinomialTree K D → Prop where
  | mk (root : HeapEntry K D) (childs : List (BinomialTree K D))
      (hord : ∀ c ∈ childs, TreeHeapOrd c)
      (hkey : ∀ c ∈ childs, root.key ≤ c.root.key) :
      TreeHeapOrd (.mk root childs)

/-- Structural binomial-tree invariant: a tree of rank `r` has exactly `r`
children of ranks `0, 1, …, r-1` in that order. -/
inductive TreeValid : Nat → BinomialTree K D → Prop where
  | mk (root : HeapEntry K D) (childs : List (BinomialTree K D))
      (h : ∀ i (hi : i < childs.length), TreeValid i childs[i]) :
      TreeValid childs.length (.mk root childs)

/-- Model of struct `BinomialHeap`: the sparse rank-indexed vector of
optional binomial trees. -/
structure BinomialHeap (K : Type u) (D : Type v) where
  ranks : List (Option (BinomialTree K D))

/-- The carry-propagation loop at the tail of `BinomialHeap::merge`
(`while let Some(carry) = carry_tree.take()`), operating on the suffix of
`self.ranks` that starts at `next_rank`. -/
def carryLoop : List (Option (BinomialTree K D)) → Option (BinomialTree K D) →
    List (Option (BinomialTree K D))
  | ranks, none => ranks
  | [], some c => [some c]
  | none :: rest, some c => some c :: rest
  | some t :: rest, some c => none :: carryLoop rest (some (t.merge c))

/-- The main loop of `BinomialHeap::merge`: walk the ranks of `other` (the
shorter sequence, the caller swaps first); at each rank collect whichever of
own tree, other's tree and carried tree are present, in that order, combine
the first two by `BinomialTree::merge` into the new carry when at least two
are present, and store the third (or the single one, or nothing) in the
slot.  The `([], _ :: _)` branch is unreachable because the caller ensures
the first sequence is at least as long. -/
def mergeRanks : List (Option (BinomialTree K D)) → List (Option (BinomialTree K D)) →
    Option (BinomialTree K D) → List (Option (BinomialTree K D))
  | selfRanks, [], carry => carryLoop selfRanks carry
  | [], _ :: _, _ => []
  | s :: ss, o :: os, carry =>
    match s.toList ++ o.toList ++ carry.toList with
    | [] => none :: mergeRanks ss os none
    | [t] => some t :: mergeRanks ss os none
    | [t1, t2] => none :: mergeRanks ss os (some (t1.merge t2))
    | t1 :: t2 :: t3 :: _ => some t3 :: mergeRanks ss os (some (t1.merge t2))

/-- Model of `BinomialHeap::merge`: merge the shorter rank sequence into the
longer one (the source swaps `self` and `other` when `other` is longer). -/
def BinomialHeap.merge (self other : BinomialHeap K D) : BinomialHeap K D :=
  if other.ranks.length > self.ranks.length then ⟨mergeRanks other.ranks self.ranks none⟩
  else ⟨mergeRanks self.ranks other.ranks none⟩

/-- Model of `BinomialHeap::insert`: merge a singleton heap holding the
entry as a rank-0 tree. -/
def BinomialHeap.insert (h : BinomialHeap K D) (entry : HeapEntry K D) : BinomialHeap K D :=
  h.merge ⟨[some (.mk entry [])]⟩

/-- Model of the occupied-rank scan in `BinomialHeap::delete_min`:
`ranks.iter().enumerate().filter_map(…).min_by_key(|v| &v.1.root.key)`,
which keeps the first minimal root key on ties.  Returns the winning rank
and its root key. -/
def selectMin : List (Option (BinomialTree K D)) → Nat → Option (Nat × K) → Option (Nat × K)
  | [], _, best => best
  | none :: rest, idx, best => selectMin rest (idx + 1) best
  | some t :: rest, idx, best =>
    let best2 : Option (Nat × K) :=
      match best with
      | none => some (idx, t.root.key)
      | some (j, k) => if t.root.key < k then some (idx, t.root.key) else some (j, k)
    selectMin rest (idx + 1) best2

/-- Model of `BinomialHeap::delete_min`: find the occupied rank with the
(first) minimal root key; if none, the heap is empty.  Otherwise remove that
tree, reinterpret its child list as a rank-indexed heap and merge it back,
returning the detached root.  The inner catch-all is unreachable: the rank
returned by the scan is occupied. -/
def BinomialHeap.deleteMin (h : BinomialHeap K D) :
    BinomialHeap K D × Option (HeapEntry K D) :=
  match selectMin h.ranks 0 none with
  | none => (h, none)
  | some (minRank, _) =>
    match h.ranks[minRank]? with
    | some (some t) =>
      (BinomialHeap.merge ⟨h.ranks.set minRank none⟩ ⟨t.childs.map some⟩, some t.root)
    | _ => (h, none)

/-- Entries stored in one optional slot of the rank vector. -/
def optEntries : Option (BinomialTree K D) → Multiset (HeapEntry K D)
  | none => 0
  | some t => t.entries

/-- The multiset of entries stored in a rank vector. -/
def ranksEntries (l : List (Option (BinomialTree K D))) : Multiset (HeapEntry K D) :=
  (l.map optEntries).sum

/-- The multiset of entries stored in a binomial heap. -/
def BinomialHeap.entries (h : BinomialHeap K D) : Multiset (HeapEntry K D) :=
  ranksEntries h.ranks

/-- Heap order for every tree present in the rank vector. -/
def ranksHeapOrd (l : List (Option (BinomialTree K D))) : Prop :=
  ∀ (i : Nat) (t : BinomialTree K D), l[i]? = some (some t) → TreeHeapOrd t

/-- Structural validity of a rank vector relative to a base rank: the slot
at position `i` holds, if anything, a binomial tree of rank `base + i`. -/
def ranksValid (base : Nat) (l : List (Option (BinomialTree K D))) : Prop :=
  ∀ (i : Nat) (t : BinomialTree K D), l[i]? = some (some t) → TreeValid (base + i) t

end BinomialHeapDefs

section RandomizedDefs

variable {K : Type u} {D : Type v}

/-- Model of the randomized meldable heap: the source's
`RandomizedMeldableHeap { root: Option<Box<Node>> }` with
`Node { value, left, right }` is collapsed into one recursive tree type
(`empty` is the `None` root). -/
inductive RandomizedMeldableHeap (K : Type u) (D : Type v) : Type (max u v) where
  | empty
  | node (value : HeapEntry K D) (left right : RandomizedMeldableHeap K D)
deriving DecidableEq

/-- The process-wide random source (`rand::random()`), modelled as an
explicit infinite stream of coin flips consumed from position 0 onward. -/
def CoinStream : Type := Nat → Bool

/-- Number of nodes of a randomized meldable heap. -/
def RandomizedMeldableHeap.size : RandomizedMeldableHeap K D → Nat
  | .empty => 0
  | .node _ l r => 1 + l.size + r.size

variable [LinearOrder K]

/-- Model of `RandomizedMeldableHeap::meld`: if either side is empty the
other survives; otherwise the larger-keyed root (after the `>`-guarded
swap) is melded into the right or left child of the smaller-keyed root
according to one coin flip per recursive step.  Returns the melded heap and
the unconsumed remainder of the coin stream. -/
def RandomizedMeldableHeap.meld :
    RandomizedMeldableHeap K D → RandomizedMeldableHeap K D → CoinStream →
    RandomizedMeldableHeap K D × CoinStream
  | .empty, other, s => (other, s)
  | .node v l r, .empty, s => (.node v l r, s)
  | .node v l r, .node w l2 r2, s =>
    if v.key > w.key then
      if s 0 then
        let res := RandomizedMeldableHeap.meld r2 (.node v l r) (fun n => s (n + 1))
        (.node w l2 res.1, res.2)
      else
        let res := RandomizedMeldableHeap.meld l2 (.node v l r) (fun n => s (n + 1))
        (.node w res.1 r2, res.2)
    else
      if s 0 then
        let res := RandomizedMeldableHeap.meld r (.node w l2 r2) (fun n => s (n + 1))
        (.node v l res.1, res.2)
      else
        let res := RandomizedMeldableHeap.meld l (.node w l2 r2) (fun n => s (n + 1))
        (.node v res.1 r, res.2)
termination_by a b _ => a.size + b.size
decreasing_by all_goals simp only [RandomizedMeldableHeap.size]; omega

/-- Model of the randomized heap's `insert`: meld a singleton node into the
receiver. -/
def RandomizedMeldableHeap.insert (h : RandomizedMeldableHeap K D)
    (entry : HeapEntry K D) (s : CoinStream) :
    RandomizedMeldableHeap K D × CoinStream :=
  h.meld (.node entry .empty .empty) s

/-- Model of the randomized heap's `delete_min`: detach the root, meld its
two children (left melds right), return the detached entry. -/
def RandomizedMeldableHeap.deleteMin (h : RandomizedMeldableHeap K D) (s : CoinStream) :
    RandomizedMeldableHeap K D × CoinStream × Option (HeapEntry K D) :=
  match h with
  | .empty => (.empty, s, none)
  | .node v l r =>
    let res := l.meld r s
    (res.1, res.2, some v)

/-- The multiset of entries stored in a randomized meldable heap. -/
def RandomizedMeldableHeap.entries : RandomizedMeldableHeap K D → Multiset (HeapEntry K D)
  | .empty => 0
  | .node v l r => v ::ₘ (l.entries + r.entries)

/-- Comparison of a key with the root key of a randomized heap, vacuously
true for the empty heap. -/
def rootKeyLE (k : K) : RandomizedMeldableHeap K D → Prop
  | .empty => True
  | .node v _ _ => k ≤ v.key

/-- Min-heap order of a randomized meldable heap: every node's key is at
most both children's root keys. -/
def RMHeapOrd : RandomizedMeldableHeap K D → Prop
  | .empty => True
  | .node v l r => RMHeapOrd l ∧ RMHeapOrd r ∧ rootKeyLE v.key l ∧ rootKeyLE v.key r

instance rootKeyLE.decidable (k : K) :
    (t : RandomizedMeldableHeap K D) → Decidable (rootKeyLE k t)
  | .empty => isTrue True.intro
  | .node v _ _ => inferInstanceAs (Decidable (k ≤ v.key))

instance RMHeapOrd.decidable :
    (t : RandomizedMeldableHeap K D) → Decidable (RMHeapOrd t)
  | .empty => isTrue True.intro
  | .node v l r =>
    have : Decidable (RMHeapOrd l) := RMHeapOrd.decidable l
    have : Decidable (RMHeapOrd r) := RMHeapOrd.decidable r
    inferInstanceAs (Decidable (_ ∧ _ ∧ _ ∧ _))

end RandomizedDefs

section DerivedDefs

variable {K : Type u} {D : Type v} [LinearOrder K]

/-- Invariant maintained by the sift-up loop at current index `i`: every
parent-child pair except the one ending at `i` is ordered, and (when `i` is
not the root) the key at `i`'s parent's position is at most the keys of
`i`'s children. -/
def upInv (l : List (HeapEntry K D)) (i : Nat) : Prop :=
  (∀ j, j < l.length → j ≠ 0 → j ≠ i → pairLE l[(j - 1) / 2]? l[j]?) ∧
  (i ≠ 0 → ∀ j, j < l.length → (j - 1) / 2 = i → pairLE l[(i - 1) / 2]? l[j]?)

/-- Invariant maintained by the sift-down loop at current index `i`: every
parent-child pair whose parent is not `i` is ordered, and (when `i` is not
the root) the key at `i`'s parent's position is at most the keys of `i`'s
children. -/
def downInv (l : List (HeapEntry K D)) (i : Nat) : Prop :=
  (∀ j, j < l.length → j ≠ 0 → (j - 1) / 2 ≠ i → pairLE l[(j - 1) / 2]? l[j]?) ∧
  (i ≠ 0 → ∀ j, j < l.length → (j - 1) / 2 = i → pairLE l[(i - 1) / 2]? l[j]?)

/-- Validity of one optional slot at a given rank. -/
def optValid (n : Nat) (x : Option (BinomialTree K D)) : Prop :=
  ∀ t : BinomialTree K D, x = some t → TreeValid n t

/-- Heap order of one optional slot. -/
def optHeapOrd (x : Option (BinomialTree K D)) : Prop :=
  ∀ t : BinomialTree K D, x = some t → TreeHeapOrd t

/-- The root key contributed by one optional slot. -/
def optRootKey : Option (BinomialTree K D) → Multiset K
  | none => 0
  | some t => {t.root.key}

/-- The multiset of root keys of the trees of a rank vector. -/
def rootKeys (l : List (Option (BinomialTree K D))) : Multiset K :=
  (l.map optRootKey).sum

/-- A key is a minimum root key of a binomial heap when it occurs as a root
key and is at most every root key. -/
def isMinRootKey (h : BinomialHeap K D) (k : K) : Prop :=
  k ∈ rootKeys h.ranks ∧ ∀ x ∈ rootKeys h.ranks, k ≤ x

/-- A key is a minimum stored key of a binomial heap when it occurs among
the stored keys and is at most every stored key. -/
def isMinKey (h : BinomialHeap K D) (k : K) : Prop :=
  k ∈ h.entries.map HeapEntry.key ∧ ∀ x ∈ h.entries.map HeapEntry.key, k ≤ x

/-- Outcomes of `n` successive `delete_min` calls on a binary heap. -/
def popsB : Nat → BinaryHeap K D → List (Option (HeapEntry K D))
  | 0, _ => []
  | n + 1, h => (h.deleteMin).2 :: popsB n (h.deleteMin).1

/-- Outcomes of `n` successive `delete_min` calls on a binomial heap. -/
def popsN : Nat → BinomialHeap K D → List (Option (HeapEntry K D))
  | 0, _ => []
  | n + 1, h => (h.deleteMin).2 :: popsN n (h.deleteMin).1

/-- Outcomes of `n` successive `delete_min` calls on a randomized meldable
heap, threading the coin stream. -/
def popsR : Nat → RandomizedMeldableHeap K D → CoinStream → List (Option (HeapEntry K D))
  | 0, _, _ => []
  | n + 1, h, s => (h.deleteMin s).2.2 :: popsR n (h.deleteMin s).1 (h.deleteMin s).2.1

/-- Keys of the successfully extracted entries, in order. -/
def popKeys (l : List (Option (HeapEntry K D))) : List K :=
  l.filterMap (fun o => o.map HeapEntry.key)

/-- Build a binary heap by inserting the entries in order into a fresh heap. -/
def buildB (es : List (HeapEntry K D)) : BinaryHeap K D :=
  es.foldl (fun h e => (h.insert e).1) ⟨[]⟩

/-- Build a binomial heap by inserting the entries in order into a fresh heap. -/
def buildN (es : List (HeapEntry K D)) : BinomialHeap K D :=
  es.foldl (fun h e => h.insert e) ⟨[]⟩

/-- Build a randomized meldable heap by inserting the entries in order into a
fresh heap, threading the coin stream. -/
def buildR (es : List (HeapEntry K D)) (s : CoinStream) :
    RandomizedMeldableHeap K D × CoinStream :=
  es.foldl (fun p e => p.1.insert e p.2) (.empty, s)

/-- Heap states of the binary heap reachable from `new()` by the public
operations (`insert`, `delete_min`, and `decrease_key` under its
`new_key ≤ current key` precondition on a live reference). -/
inductive ReachableB : BinaryHeap K D → Prop where
  | new : ReachableB ⟨[]⟩
  | ins {h : BinaryHeap K D} (e : HeapEntry K D) :
      ReachableB h → ReachableB (h.insert e).1
  | del {h : BinaryHeap K D} : ReachableB h → ReachableB (h.deleteMin).1
  | dec {h h2 : BinaryHeap K D} {ref : Nat} {k : K} {e : HeapEntry K D} :
      ReachableB h → h.storage[ref]? = some e → k ≤ e.key →
      h.decreaseKey ref k = some h2 → ReachableB h2

/-- Heap states of the binomial heap reachable from `new()` by `insert`,
`delete_min` and `merge`. -/
inductive ReachableN : BinomialHeap K D → Prop where
  | new : ReachableN ⟨[]⟩
  | ins {h : BinomialHeap K D} (e : HeapEntry K D) :
      ReachableN h → ReachableN (h.insert e)
  | del {h : BinomialHeap K D} : ReachableN h → ReachableN (h.deleteMin).1
  | mrg {h1 h2 : BinomialHeap K D} :
      ReachableN h1 → ReachableN h2 → ReachableN (h1.merge h2)

/-- Heap states of the randomized meldable heap reachable from `new()` by
`insert`, `delete_min` and `meld`, for any coin-flip outcomes. -/
inductive ReachableR : RandomizedMeldableHeap K D → Prop where
  | new : ReachableR .empty
  | ins {h : RandomizedMeldableHeap K D} (e : HeapEntry K D) (s : CoinStream) :
      ReachableR h → ReachableR (h.insert e s).1
  | del {h : RandomizedMeldableHeap K D} (s : CoinStream) :
      ReachableR h → ReachableR (h.deleteMin s).1
  | mld {h1 h2 : RandomizedMeldableHeap K D} (s : CoinStream) :
      ReachableR h1 → ReachableR h2 → ReachableR (h1.meld h2 s).1

/-- Every array access performed by the sift-up loop starting at `i` is in
bounds: the proposition mirrors the loop step by step, requiring the current
index and its parent index to be in bounds at each iteration. -/
def siftUpAccessesOK (l : List (HeapEntry K D)) (i : Nat) : Prop :=
  if hi : i = 0 then True
  else i < l.length ∧ (i - 1) / 2 < l.length ∧
    (match l[i]?, l[(i - 1) / 2]? with
     | some ei, some ep =>
       if ei.key < ep.key then siftUpAccessesOK (listSwap l i ((i - 1) / 2)) ((i - 1) / 2)
       else True
     | _, _ => True)
termination_by i
decreasing_by omega

end DerivedDefs

section MapDataDefsFront

universe wf2

variable {K : Type u} {D : Type v} {D2 : Type wf2}

/-- Relabel the payload of one entry, keeping the key. -/
def mapE (f : D → D2) (e : HeapEntry K D) : HeapEntry K D2 :=
  ⟨e.key, f e.data⟩

/-- Relabel all payloads of a binary heap. -/
def BinaryHeap.mapData (f : D → D2) (h : BinaryHeap K D) : BinaryHeap K D2 :=
  ⟨h.storage.map (mapE f)⟩

/-- Relabel all payloads of a binomial tree. -/
def BinomialTree.mapData (f : D → D2) : BinomialTree K D → BinomialTree K D2
  | .mk r cs => .mk (mapE f r) (cs.attach.map fun c => BinomialTree.mapData f c.1)
decreasing_by
  simp only [BinomialTree.mk.sizeOf_spec]
  have := List.sizeOf_lt_of_mem c.2
  omega

/-- Relabel all payloads of a binomial heap. -/
def BinomialHeap.mapData (f : D → D2) (h : BinomialHeap K D) : BinomialHeap K D2 :=
  ⟨h.ranks.map (Option.map (BinomialTree.mapData f))⟩

/-- Relabel all payloads of a randomized meldable heap. -/
def RandomizedMeldableHeap.mapData (f : D → D2) :
    RandomizedMeldableHeap K D → RandomizedMeldableHeap K D2
  | .empty => .empty
  | .node v l r => .node (mapE f v) (l.mapData f) (r.mapData f)

end MapDataDefsFront

section BinomialTreeUnfolding

variable {K : Type u} {D : Type v}

@[simp] theorem BinomialTree.root_mk (r : HeapEntry K D) (cs : List (BinomialTree K D)) :
    (BinomialTree.mk r cs).root = r := rfl

@[simp] theorem BinomialTree.childs_mk (r : HeapEntry K D) (cs : List (BinomialTree K D)) :
    (BinomialTree.mk r cs).childs = cs := rfl

theorem BinomialTree.entries_mk (r : HeapEntry K D) (cs : List (BinomialTree K D)) :
    (BinomialTree.mk r cs).entries = r ::ₘ (cs.map BinomialTree.entries).sum := by
  rw [BinomialTree.entries.eq_1]
  congr 1
  rw [List.attach_map_coe]

end BinomialTreeUnfolding

section SiftAuxTheorems

variable {K : Type u} {D : Type v} {α : Type w} [LinearOrder K]

theorem minChildIndex_cases (l : List (HeapEntry K D)) (c mc : Nat) :
    minChildIndex l c mc = c ∨ minChildIndex l c mc = mc := by
  unfold minChildIndex
  split
  · exact Or.inl rfl
  · split
    · split
      · exact Or.inr rfl
      · exact Or.inl rfl
    · exact Or.inl rfl

theorem swapTarget_gt (l : List (HeapEntry K D)) (i : Nat) :
    i < swapTarget l i := by
  unfold swapTarget
  rcases minChildIndex_cases l (2 * i + 1)
      (if 2 * i + 1 + 1 < l.length then 2 * i + 1 + 1 else 2 * i + 1) with h | h <;> rw [h]
  · omega
  · split <;> omega

theorem swapTarget_lt_length (l : List (HeapEntry K D)) (i : Nat)
    (hc : 2 * i + 1 < l.length) : swapTarget l i < l.length := by
  unfold swapTarget
  rcases minChildIndex_cases l (2 * i + 1)
      (if 2 * i + 1 + 1 < l.length then 2 * i + 1 + 1 else 2 * i + 1) with h | h <;> rw [h]
  · omega
  · split <;> omega

@[simp] theorem listSwap_length (l : List α) (i j : Nat) :
    (listSwap l i j).length = l.length := by
  unfold listSwap
  split <;> simp

end SiftAuxTheorems

section ListSwapLemmas

variable {α : Type w}

theorem set_self_of_getElem? {l : List α} {i : Nat} {a : α} (h : l[i]? = some a) :
    l.set i a = l := by
  induction l generalizing i with
  | nil => simp at h
  | cons x xs ih =>
    cases i with
    | zero => simp_all
    | succ i => simp_all

theorem cons_set_perm {l : List α} {m : Nat} {b : α} (a : α) (h : l[m]? = some b) :
    List.Perm (b :: l.set m a) (a :: l) := by
  induction l generalizing m with
  | nil => simp at h
  | cons x xs ih =>
    cases m with
    | zero =>
      simp only [List.getElem?_cons_zero, Option.some.injEq] at h
      subst h
      simpa using List.Perm.swap a x xs
    | succ m =>
      simp only [List.getElem?_cons_succ] at h
      exact (List.Perm.swap x b (xs.set m a)).trans
        ((List.Perm.cons x (ih h)).trans (List.Perm.swap a x xs))

theorem listSwap_perm (l : List α) (i j : Nat) : List.Perm (listSwap l i j) l := by
  unfold listSwap
  split
  next a b ha hb =>
    rcases Nat.decEq i j with hij | hij
    · -- distinct indices: cancel a common head across two cons_set_perm steps
      have h1 : ((l.set i b))[j]? = some b := by
        rw [List.getElem?_set_ne (by omega)]
        exact hb
      have h2 := cons_set_perm (b := b) a h1
      have h3 := cons_set_perm (b := a) b ha
      exact (h2.trans h3).cons_inv
    · subst hij
      rw [hb] at ha
      injection ha with ha
      subst ha
      rw [List.set_set, set_self_of_getElem? hb]
  · exact List.Perm.refl l

theorem listSwap_eq_set {l : List α} {i j : Nat} (hi : i < l.length) (hj : j < l.length) :
    listSwap l i j = (l.set i l[j]).set j l[i] := by
  unfold listSwap
  rw [List.getElem?_eq_getElem hi, List.getElem?_eq_getElem hj]

theorem listSwap_fst {l : List α} {i j : Nat} (hi : i < l.length) (hj : j < l.length) :
    (listSwap l i j)[i]? = l[j]? := by
  rw [listSwap_eq_set hi hj]
  rcases Nat.decEq i j with hij | hij
  · rw [List.getElem?_set_ne (by omega), List.getElem?_set_self (by simpa using hi)]
    exact (List.getElem?_eq_getElem hj).symm
  · subst hij
    rw [List.getElem?_set_self (by simpa using hi)]
    exact (List.getElem?_eq_getElem hj).symm

theorem listSwap_snd {l : List α} {i j : Nat} (hi : i < l.length) (hj : j < l.length) :
    (listSwap l i j)[j]? = l[i]? := by
  rw [listSwap_eq_set hi hj]
  rw [List.getElem?_set_self (by simpa using hj)]
  exact (List.getElem?_eq_getElem hi).symm

theorem listSwap_other {l : List α} {i j k : Nat} (hki : k ≠ i) (hkj : k ≠ j) :
    (listSwap l i j)[k]? = l[k]? := by
  unfold listSwap
  split
  · rw [List.getElem?_set_ne (by omega), List.getElem?_set_ne (by omega)]
  · rfl

end ListSwapLemmas

section SiftUpLemmas

variable {K : Type u} {D : Type v} [LinearOrder K]

theorem pairLE_refl (a : Option (HeapEntry K D)) : pairLE a a := by
  cases a <;> simp [pairLE]

theorem pairLE_trans {a c : Option (HeapEntry K D)} {e : HeapEntry K D}
    (h1 : pairLE a (some e)) (h2 : pairLE (some e) c) : pairLE a c := by
  cases a <;> cases c <;> simp_all [pairLE]
  exact le_trans h1 h2

theorem pairLE_mono {e1 e2 : HeapEntry K D} {c : Option (HeapEntry K D)}
    (hle : e1.key ≤ e2.key) (h : pairLE (some e2) c) : pairLE (some e1) c := by
  cases c <;> simp_all [pairLE]
  exact le_trans hle h

theorem upInv_step {l : List (HeapEntry K D)} {i : Nat} {ei ep : HeapEntry K D}
    (hi0 : i ≠ 0) (hi : i < l.length)
    (hei : l[i]? = some ei) (hep : l[(i - 1) / 2]? = some ep)
    (hlt : ei.key < ep.key) (hinv : upInv l i) :
    upInv (listSwap l i ((i - 1) / 2)) ((i - 1) / 2) := by
  set p := (i - 1) / 2 with hp_def
  have hpi : p < i := by omega
  have hp : p < l.length := by omega
  have hswi : (listSwap l i p)[i]? = some ep := by rw [listSwap_fst hi hp]; exact hep
  have hswp : (listSwap l i p)[p]? = some ei := by rw [listSwap_snd hi hp]; exact hei
  constructor
  · intro j hj hj0 hjp
    rw [listSwap_length] at hj
    by_cases hji : j = i
    · subst hji
      rw [hswi, hswp]
      exact le_of_lt hlt
    · have hjother : (listSwap l i p)[j]? = l[j]? := listSwap_other hji hjp
      by_cases hpar : (j - 1) / 2 = i
      · rw [hpar, hswi, hjother]
        have := hinv.2 hi0 j hj (by omega)
        rw [hep] at this
        exact this
      · by_cases hpar2 : (j - 1) / 2 = p
        · rw [hpar2, hswp, hjother]
          have := hinv.1 j hj hj0 hji
          rw [hpar2, hep] at this
          exact pairLE_mono (le_of_lt hlt) this
        · have htrans : (listSwap l i p)[(j - 1) / 2]? = l[(j - 1) / 2]? :=
            listSwap_other hpar hpar2
          rw [htrans, hjother]
          exact hinv.1 j hj hj0 hji
  · intro hp0 j hj hpar
    rw [listSwap_length] at hj
    have hgpi : (p - 1) / 2 ≠ i := by omega
    have hgpp : (p - 1) / 2 ≠ p := by omega
    have hgp : (listSwap l i p)[(p - 1) / 2]? = l[(p - 1) / 2]? := listSwap_other hgpi hgpp
    have hppar : pairLE l[(p - 1) / 2]? (some ep) := by
      have := hinv.1 p hp hp0 (by omega)
      rw [hep] at this
      exact this
    by_cases hji : j = i
    · subst hji
      rw [hgp, hswi]
      exact hppar
    · have hjp : j ≠ p := by omega
      have hjother : (listSwap l i p)[j]? = l[j]? := listSwap_other hji hjp
      rw [hgp, hjother]
      have hj0 : j ≠ 0 := by omega
      have := hinv.1 j hj hj0 hji
      rw [hpar, hep] at this
      exact pairLE_trans hppar this

theorem siftUp_spec (l : List (HeapEntry K D)) (i : Nat) :
    i < l.length → upInv l i →
    heapInv (siftUp l i).1 ∧ List.Perm (siftUp l i).1 l ∧
      (siftUp l i).1[(siftUp l i).2]? = l[i]? ∧ (siftUp l i).2 < l.length := by
  induction l, i using siftUp.induct with
  | case1 l =>
    intro hi hinv
    rw [siftUp]
    refine ⟨?_, List.Perm.refl l, rfl, hi⟩
    intro j hj hj0
    exact hinv.1 j hj hj0 hj0
  | case2 l i hi0 ei ep hep hei hlt ih =>
    intro hi hinv
    rw [siftUp.eq_def]
    simp only [dif_neg hi0]
    rw [hei, hep]
    simp only [if_pos hlt]
    have hp : (i - 1) / 2 < l.length := by omega
    have hlen : (listSwap l i ((i - 1) / 2)).length = l.length := listSwap_length ..
    obtain ⟨h1, h2, h3, h4⟩ := ih (by omega) (upInv_step hi0 hi hei hep hlt hinv)
    refine ⟨h1, h2.trans (listSwap_perm ..), ?_, by omega⟩
    rw [h3, listSwap_snd hi hp, hei]
  | case3 l i hi0 ei ep hep hei hge =>
    intro hi hinv
    rw [siftUp.eq_def]
    simp only [dif_neg hi0]
    rw [hei, hep]
    simp only [if_neg hge]
    refine ⟨?_, List.Perm.refl l, hei, hi⟩
    intro j hj hj0
    by_cases hji : j = i
    · subst hji
      rw [hei, hep]
      exact le_of_not_lt hge
    · exact hinv.1 j hj hj0 hji
  | case4 l i hi0 habs =>
    intro hi hinv
    have hp : (i - 1) / 2 < l.length := by omega
    exact absurd (habs l[i] l[(i - 1) / 2]
      (List.getElem?_eq_getElem hi) (List.getElem?_eq_getElem hp)) (by simp)

end SiftUpLemmas

section InsertDecreaseLemmas

variable {K : Type u} {D : Type v} [LinearOrder K]

theorem lt_length_of_getElem? {α : Type w} {l : List α} {i : Nat} {a : α}
    (h : l[i]? = some a) : i < l.length := by
  by_contra hcon
  rw [List.getElem?_eq_none (by omega)] at h
  cases h

theorem upInv_append (l : List (HeapEntry K D)) (e : HeapEntry K D) (hinv : heapInv l) :
    upInv (l ++ [e]) l.length := by
  constructor
  · intro j hj hj0 hji
    rw [List.length_append, List.length_singleton] at hj
    have hjl : j < l.length := by omega
    rw [List.getElem?_append_left hjl, List.getElem?_append_left (by omega)]
    exact hinv j hjl hj0
  · intro h0 j hj hpar
    rw [List.length_append, List.length_singleton] at hj
    omega

theorem BinaryHeap.insert_spec (h : BinaryHeap K D) (e : HeapEntry K D)
    (hinv : heapInv h.storage) :
    heapInv (h.insert e).1.storage ∧
    (h.insert e).1.entries = e ::ₘ h.entries ∧
    (h.insert e).1.storage[(h.insert e).2]? = some e ∧
    (h.insert e).2 < (h.insert e).1.storage.length := by
  simp only [BinaryHeap.insert]
  have hlen : (h.storage ++ [e]).length = h.storage.length + 1 := by simp
  have hi : (h.storage ++ [e]).length - 1 < (h.storage ++ [e]).length := by
    rw [hlen]; omega
  have hup : upInv (h.storage ++ [e]) ((h.storage ++ [e]).length - 1) := by
    rw [hlen]
    exact upInv_append h.storage e hinv
  obtain ⟨h1, h2, h3, h4⟩ := siftUp_spec (h.storage ++ [e]) ((h.storage ++ [e]).length - 1) hi hup
  refine ⟨h1, ?_, ?_, ?_⟩
  · show ((siftUp (h.storage ++ [e]) ((h.storage ++ [e]).length - 1)).1 : Multiset _)
        = e ::ₘ (h.storage : Multiset _)
    rw [Multiset.cons_coe]
    exact Multiset.coe_eq_coe.mpr (h2.trans (List.perm_append_singleton e h.storage))
  · rw [h3, hlen]
    simp only [Nat.add_sub_cancel]
    exact List.getElem?_concat_length h.storage e
  · rw [(h2.length_eq :)]
    exact h4

theorem upInv_set (l : List (HeapEntry K D)) (ref : Nat) (e : HeapEntry K D) (k : K)
    (hinv : heapInv l) (he : l[ref]? = some e) (hk : k ≤ e.key) :
    upInv (l.set ref ⟨k, e.data⟩) ref := by
  have hr : ref < l.length := lt_length_of_getElem? he
  constructor
  · intro j hj hj0 hji
    rw [List.length_set] at hj
    by_cases hpar : (j - 1) / 2 = ref
    · rw [hpar, List.getElem?_set_self hr, List.getElem?_set_ne (Ne.symm hji)]
      have := hinv j hj hj0
      rw [hpar, he] at this
      exact pairLE_mono hk this
    · rw [List.getElem?_set_ne (Ne.symm hpar), List.getElem?_set_ne (Ne.symm hji)]
      exact hinv j hj hj0
  · intro h0 j hj hpar
    rw [List.length_set] at hj
    have hj0 : j ≠ 0 := by omega
    have hjref : j ≠ ref := by omega
    have hgr : ref ≠ (ref - 1) / 2 := by omega
    rw [List.getElem?_set_ne hgr, List.getElem?_set_ne (Ne.symm hjref)]
    have h1 := hinv ref hr h0
    rw [he] at h1
    have h2 := hinv j hj hj0
    rw [hpar, he] at h2
    exact pairLE_trans h1 h2

theorem BinaryHeap.decreaseKey_spec (h : BinaryHeap K D) (ref : Nat) (k : K)
    (e : HeapEntry K D) (hinv : heapInv h.storage)
    (he : h.storage[ref]? = some e) (hk : k ≤ e.key) :
    ∃ h2 : BinaryHeap K D, h.decreaseKey ref k = some h2 ∧
      heapInv h2.storage ∧
      e ::ₘ h2.entries = (⟨k, e.data⟩ : HeapEntry K D) ::ₘ h.entries ∧
      ∃ r, r < h2.storage.length ∧ h2.storage[r]? = some ⟨k, e.data⟩ := by
  have hr : ref < h.storage.length := lt_length_of_getElem? he
  have hup := upInv_set h.storage ref e k hinv he hk
  have hrl : ref < (h.storage.set ref ⟨k, e.data⟩).length := by
    rw [List.length_set]; exact hr
  obtain ⟨h1, h2, h3, h4⟩ := siftUp_spec (h.storage.set ref ⟨k, e.data⟩) ref hrl hup
  refine ⟨⟨(siftUp (h.storage.set ref ⟨k, e.data⟩) ref).1⟩, ?_, h1, ?_, ?_⟩
  · unfold BinaryHeap.decreaseKey
    rw [he]
  · show e ::ₘ ((siftUp (h.storage.set ref ⟨k, e.data⟩) ref).1 : Multiset _) = _
    rw [Multiset.coe_eq_coe.mpr h2]
    have := cons_set_perm (l := h.storage) (b := e) ⟨k, e.data⟩ he
    calc e ::ₘ ((h.storage.set ref ⟨k, e.data⟩ : List _) : Multiset _)
        = ((e :: h.storage.set ref ⟨k, e.data⟩ : List _) : Multiset _) :=
          Multiset.cons_coe _ _
      _ = (((⟨k, e.data⟩ : HeapEntry K D) :: h.storage : List _) : Multiset _) :=
          Multiset.coe_eq_coe.mpr this
      _ = _ := (Multiset.cons_coe _ _).symm
  · refine ⟨(siftUp (h.storage.set ref ⟨k, e.data⟩) ref).2, ?_, ?_⟩
    · dsimp only
      exact h4.trans_eq h2.length_eq.symm
    · rw [h3, List.getElem?_set_self hr]

end InsertDecreaseLemmas

section SiftDownLemmas

variable {K : Type u} {D : Type v} [LinearOrder K]

theorem swapTarget_cases (l : List (HeapEntry K D)) (i : Nat) :
    swapTarget l i = 2 * i + 1 ∨ swapTarget l i = 2 * i + 1 + 1 := by
  rcases minChildIndex_cases l (2 * i + 1)
      (if 2 * i + 1 + 1 < l.length then 2 * i + 1 + 1 else 2 * i + 1) with h | h <;>
    unfold swapTarget
  · rw [h]; exact Or.inl rfl
  · rw [h]; split
    · exact Or.inr rfl
    · exact Or.inl rfl

theorem swapTarget_le (l : List (HeapEntry K D)) (i : Nat) (hc : 2 * i + 1 < l.length) :
    ∀ j, j < l.length → (j - 1) / 2 = i → j ≠ 0 → pairLE l[swapTarget l i]? l[j]? := by
  intro j hj hpar hj0
  have hj12 : j = 2 * i + 1 ∨ j = 2 * i + 1 + 1 := by omega
  by_cases h2c : 2 * i + 1 + 1 < l.length
  · obtain ⟨c1, hc1⟩ : ∃ c1, l[2 * i + 1]? = some c1 := ⟨_, List.getElem?_eq_getElem hc⟩
    obtain ⟨c2, hc2⟩ : ∃ c2, l[2 * i + 1 + 1]? = some c2 :=
      ⟨_, List.getElem?_eq_getElem h2c⟩
    have hst : swapTarget l i = if c2.key < c1.key then 2 * i + 1 + 1 else 2 * i + 1 := by
      unfold swapTarget
      rw [if_pos h2c]
      unfold minChildIndex
      rw [if_neg (by omega), hc1, hc2]
    rw [hst]
    by_cases hcc : c2.key < c1.key
    · rw [if_pos hcc]
      rcases hj12 with hj1 | hj1 <;> subst hj1
      · rw [hc1, hc2]
        exact le_of_lt hcc
      · exact pairLE_refl _
    · rw [if_neg hcc]
      rcases hj12 with hj1 | hj1 <;> subst hj1
      · exact pairLE_refl _
      · rw [hc1, hc2]
        exact le_of_not_lt hcc
  · have hj1 : j = 2 * i + 1 := by omega
    have hst : swapTarget l i = 2 * i + 1 := by
      unfold swapTarget
      rw [if_neg h2c]
      unfold minChildIndex
      rw [if_pos rfl]
    rw [hst, hj1]
    exact pairLE_refl _

theorem downInv_step {l : List (HeapEntry K D)} {i : Nat} {ei em : HeapEntry K D}
    (hc : 2 * i + 1 < l.length) (hi : i < l.length)
    (hiv : l[i]? = some ei) (hmv : l[swapTarget l i]? = some em)
    (hlt : em.key < ei.key) (hinv : downInv l i) :
    downInv (listSwap l i (swapTarget l i)) (swapTarget l i) := by
  set m := swapTarget l i with hm_def
  have him : i < m := swapTarget_gt l i
  have hm : m < l.length := swapTarget_lt_length l i hc
  have hm12 : m = 2 * i + 1 ∨ m = 2 * i + 1 + 1 := swapTarget_cases l i
  have hparm : (m - 1) / 2 = i := by omega
  have hswi : (listSwap l i m)[i]? = some em := by rw [listSwap_fst hi hm]; exact hmv
  have hswm : (listSwap l i m)[m]? = some ei := by rw [listSwap_snd hi hm]; exact hiv
  constructor
  · intro j hj hj0 hjpar
    rw [listSwap_length] at hj
    by_cases hjm : j = m
    · subst hjm
      rw [hparm, hswi, hswm]
      exact le_of_lt hlt
    · by_cases hjpari : (j - 1) / 2 = i
      · have hji : j ≠ i := by omega
        rw [hjpari, hswi, listSwap_other hji hjm]
        have := swapTarget_le l i hc j hj hjpari hj0
        rw [hmv] at this
        exact this
      · by_cases hji : j = i
        · subst hji
          have hi0 : j ≠ 0 := hj0
          have hgm : (j - 1) / 2 ≠ m := by omega
          rw [listSwap_other hjpari hgm, hswi]
          have := hinv.2 (by omega) m hm hparm
          rw [hmv] at this
          exact this
        · rw [listSwap_other hjpari hjpar, listSwap_other hji hjm]
          exact hinv.1 j hj hj0 hjpari
  · intro hm0 j hj hjpar
    rw [listSwap_length] at hj
    rw [hparm, hswi]
    have hjm : j ≠ m := by omega
    have hji : j ≠ i := by omega
    rw [listSwap_other hji hjm]
    have := hinv.1 j hj (by omega) (by omega)
    rw [hjpar, hmv] at this
    exact this

theorem siftDown_spec (l : List (HeapEntry K D)) (i : Nat) :
    i < l.length → downInv l i →
    heapInv (siftDown l i) ∧ List.Perm (siftDown l i) l := by
  induction l, i using siftDown.induct with
  | case1 l i hc ei em hmv hiv hlt ih =>
    intro hi hinv
    rw [siftDown.eq_def]
    simp only [dif_pos hc]
    rw [hiv, hmv]
    simp only [if_pos hlt]
    have hm : swapTarget l i < l.length := swapTarget_lt_length l i hc
    obtain ⟨h1, h2⟩ := ih (by rw [listSwap_length]; exact hm)
      (downInv_step hc hi hiv hmv hlt hinv)
    exact ⟨h1, h2.trans (listSwap_perm ..)⟩
  | case2 l i hc ei em hmv hiv hge =>
    intro hi hinv
    rw [siftDown.eq_def]
    simp only [dif_pos hc]
    rw [hiv, hmv]
    simp only [if_neg hge]
    refine ⟨?_, List.Perm.refl l⟩
    intro j hj hj0
    by_cases hjpar : (j - 1) / 2 = i
    · rw [hjpar, hiv]
      have h1 := swapTarget_le l i hc j hj hjpar hj0
      rw [hmv] at h1
      exact pairLE_trans (show pairLE (some ei) (some em) from le_of_not_lt hge) h1
    · exact hinv.1 j hj hj0 hjpar
  | case3 l i hc habs =>
    intro hi hinv
    have hm : swapTarget l i < l.length := swapTarget_lt_length l i hc
    exact absurd (habs l[i] l[swapTarget l i]
      (List.getElem?_eq_getElem hi) (List.getElem?_eq_getElem hm)) (by simp)
  | case4 l i hc =>
    intro hi hinv
    rw [siftDown.eq_def]
    simp only [dif_neg hc]
    refine ⟨?_, List.Perm.refl l⟩
    intro j hj hj0
    by_cases hjpar : (j - 1) / 2 = i
    · omega
    · exact hinv.1 j hj hj0 hjpar

theorem heapInv_head_le (l : List (HeapEntry K D)) (hinv : heapInv l) :
    ∀ j, j < l.length → pairLE l[0]? l[j]? := by
  intro j
  induction j using Nat.strong_induction_on with
  | _ j ih =>
    intro hj
    by_cases hj0 : j = 0
    · subst hj0
      exact pairLE_refl _
    · have hp : (j - 1) / 2 < l.length := by omega
      obtain ⟨ep, hep⟩ : ∃ ep, l[(j - 1) / 2]? = some ep :=
        ⟨_, List.getElem?_eq_getElem hp⟩
      have h1 := ih ((j - 1) / 2) (by omega) hp
      have h2 := hinv j hj hj0
      rw [hep] at h1 h2
      exact pairLE_trans h1 h2

end SiftDownLemmas

section DeleteMinBinaryLemmas

variable {K : Type u} {D : Type v} [LinearOrder K]

theorem BinaryHeap.deleteMin_spec (h : BinaryHeap K D) (hinv : heapInv h.storage)
    (hne : h.storage ≠ []) :
    ∃ (e : HeapEntry K D) (h2 : BinaryHeap K D), h.deleteMin = (h2, some e) ∧
      heapInv h2.storage ∧
      e ::ₘ h2.entries = h.entries ∧
      (∀ x ∈ h.entries, e.key ≤ x.key) := by
  obtain ⟨st⟩ := h
  simp only [BinaryHeap.entries] at *
  rcases st with _ | ⟨e0, _ | ⟨e1, rest⟩⟩
  · exact absurd rfl hne
  · refine ⟨e0, ⟨[]⟩, rfl, ?_, ?_, ?_⟩
    · intro j hj hj0
      simp at hj
    · rfl
    · intro x hx
      rw [Multiset.mem_coe, List.mem_singleton] at hx
      subst hx
      exact le_refl _
  · set st := e0 :: e1 :: rest with hst
    have hlen2 : 2 ≤ st.length := by rw [hst]; simp
    have hstlen : st.length - 1 < st.length := by omega
    have hst0 : st[0]? = some e0 := rfl
    have hlast : (listSwap st 0 (st.length - 1)).getLast? = some e0 := by
      rw [List.getLast?_eq_getElem?, listSwap_length, listSwap_snd (by omega) hstlen]
      exact hst0
    have hdl : (listSwap st 0 (st.length - 1)).dropLast ++ [e0]
        = listSwap st 0 (st.length - 1) :=
      List.dropLast_append_getLast? e0 hlast
    have hswlen : (listSwap st 0 (st.length - 1)).length = st.length := listSwap_length ..
    have hdllen : (listSwap st 0 (st.length - 1)).dropLast.length = st.length - 1 := by
      rw [List.length_dropLast, hswlen]
    have htr : ∀ x, x ≠ 0 → x < st.length - 1 →
        (listSwap st 0 (st.length - 1)).dropLast[x]? = st[x]? := by
      intro x hx0 hx
      rw [List.getElem?_dropLast, if_pos (by rw [hswlen]; omega)]
      exact listSwap_other hx0 (by omega)
    have hdinv : downInv (listSwap st 0 (st.length - 1)).dropLast 0 := by
      constructor
      · intro j hj hj0 hjpar
        rw [hdllen] at hj
        rw [htr _ hjpar (by omega), htr _ hj0 hj]
        exact hinv j (by omega) hj0
      · intro h0
        exact absurd rfl h0
    obtain ⟨hh1, hh2⟩ := siftDown_spec (listSwap st 0 (st.length - 1)).dropLast 0
      (by rw [hdllen]; omega) hdinv
    refine ⟨e0, ⟨siftDown (listSwap st 0 (st.length - 1)).dropLast 0⟩, ?_, hh1, ?_, ?_⟩
    · show BinaryHeap.deleteMin ⟨st⟩ = _
      simp only [BinaryHeap.deleteMin]
      rw [hlast]
    · show e0 ::ₘ ((siftDown (listSwap st 0 (st.length - 1)).dropLast 0 : List _) : Multiset _)
          = (st : Multiset _)
      rw [Multiset.cons_coe]
      refine Multiset.coe_eq_coe.mpr ((hh2.cons e0).trans ?_)
      refine ((List.perm_append_singleton e0 _).symm.trans ?_)
      rw [hdl]
      exact listSwap_perm st 0 (st.length - 1)
    · intro x hx
      rw [Multiset.mem_coe] at hx
      obtain ⟨n, hn⟩ := List.getElem?_of_mem hx
      have := heapInv_head_le st hinv n (lt_length_of_getElem? hn)
      rw [hst0, hn] at this
      exact this

end DeleteMinBinaryLemmas

section BinomialTreeLemmas

variable {K : Type u} {D : Type v} [LinearOrder K]

theorem BinomialTree.merge_entries_tree (t1 t2 : BinomialTree K D) :
    (t1.merge t2).entries = t1.entries + t2.entries := by
  cases t1 with
  | mk r1 c1 =>
    cases t2 with
    | mk r2 c2 =>
      unfold BinomialTree.merge
      by_cases hgt : (BinomialTree.mk r1 c1).root.key > (BinomialTree.mk r2 c2).root.key
      · rw [if_pos hgt]
        rw [BinomialTree.entries_mk, BinomialTree.entries_mk, BinomialTree.entries_mk,
          List.map_append, List.sum_append]
        simp only [List.map_cons, List.map_nil, List.sum_cons, List.sum_nil,
          BinomialTree.entries_mk, BinomialTree.root_mk, BinomialTree.childs_mk]
        rw [← Multiset.singleton_add, ← Multiset.singleton_add, ← Multiset.singleton_add]
        abel
      · rw [if_neg hgt]
        rw [BinomialTree.entries_mk, BinomialTree.entries_mk, BinomialTree.entries_mk,
          List.map_append, List.sum_append]
        simp only [List.map_cons, List.map_nil, List.sum_cons, List.sum_nil,
          BinomialTree.entries_mk, BinomialTree.root_mk, BinomialTree.childs_mk]
        rw [← Multiset.singleton_add, ← Multiset.singleton_add, ← Multiset.singleton_add]
        abel

theorem BinomialTree.merge_rootKey (t1 t2 : BinomialTree K D) :
    (t1.merge t2).root.key = min t1.root.key t2.root.key := by
  unfold BinomialTree.merge
  by_cases hgt : t1.root.key > t2.root.key
  · rw [if_pos hgt]
    simp [min_eq_right (le_of_lt hgt)]
  · rw [if_neg hgt]
    simp [min_eq_left (le_of_not_lt hgt)]

theorem TreeHeapOrd.merge_tree_ord {t1 t2 : BinomialTree K D}
    (h1 : TreeHeapOrd t1) (h2 : TreeHeapOrd t2) : TreeHeapOrd (t1.merge t2) := by
  cases h1 with
  | mk r1 c1 hord1 hkey1 =>
    cases h2 with
    | mk r2 c2 hord2 hkey2 =>
      unfold BinomialTree.merge
      by_cases hgt : (BinomialTree.mk r1 c1).root.key > (BinomialTree.mk r2 c2).root.key
      · rw [if_pos hgt]
        simp only [BinomialTree.root_mk, BinomialTree.childs_mk]
        refine TreeHeapOrd.mk r2 (c2 ++ [BinomialTree.mk r1 c1]) ?_ ?_
        · intro c hc
          rcases List.mem_append.mp hc with hc | hc
          · exact hord2 c hc
          · rw [List.mem_singleton] at hc
            subst hc
            exact TreeHeapOrd.mk r1 c1 hord1 hkey1
        · intro c hc
          rcases List.mem_append.mp hc with hc | hc
          · exact hkey2 c hc
          · rw [List.mem_singleton] at hc
            subst hc
            exact le_of_lt hgt
      · rw [if_neg hgt]
        simp only [BinomialTree.root_mk, BinomialTree.childs_mk]
        refine TreeHeapOrd.mk r1 (c1 ++ [BinomialTree.mk r2 c2]) ?_ ?_
        · intro c hc
          rcases List.mem_append.mp hc with hc | hc
          · exact hord1 c hc
          · rw [List.mem_singleton] at hc
            subst hc
            exact TreeHeapOrd.mk r2 c2 hord2 hkey2
        · intro c hc
          rcases List.mem_append.mp hc with hc | hc
          · exact hkey1 c hc
          · rw [List.mem_singleton] at hc
            subst hc
            exact le_of_not_lt hgt

omit [LinearOrder K] in
theorem TreeValid.invT {r : Nat} {root : HeapEntry K D} {cs : List (BinomialTree K D)}
    (h : TreeValid r (.mk root cs)) :
    cs.length = r ∧ ∀ i (hi : i < cs.length), TreeValid i cs[i] := by
  cases h with
  | mk root cs hc => exact ⟨rfl, hc⟩

theorem mem_list_sum {α : Type w} {x : α} {L : List (Multiset α)} :
    x ∈ L.sum ↔ ∃ m ∈ L, x ∈ m := by
  induction L with
  | nil => simp
  | cons m L ih => simp [List.sum_cons, Multiset.mem_add, ih]

theorem TreeValid.merge_tree_valid {r : Nat} {t1 t2 : BinomialTree K D}
    (h1 : TreeValid r t1) (h2 : TreeValid r t2) : TreeValid (r + 1) (t1.merge t2) := by
  cases t1 with
  | mk r1 c1 =>
    cases t2 with
    | mk r2 c2 =>
      obtain ⟨hlen1, hc1⟩ := h1.invT
      obtain ⟨hlen2, hc2⟩ := h2.invT
      unfold BinomialTree.merge
      by_cases hgt : (BinomialTree.mk r1 c1).root.key > (BinomialTree.mk r2 c2).root.key
      · rw [if_pos hgt]
        simp only [BinomialTree.root_mk, BinomialTree.childs_mk]
        have hmk := TreeValid.mk r2 (c2 ++ [BinomialTree.mk r1 c1]) ?_
        · rw [List.length_append, List.length_singleton, hlen2] at hmk
          exact hmk
        · intro i hi
          rw [List.length_append, List.length_singleton] at hi
          by_cases hilt : i < c2.length
          · rw [List.getElem_append_left hilt]
            exact hc2 i hilt
          · have hieq : i = c2.length := by omega
            subst hieq
            rw [List.getElem_append_right (le_refl _)]
            have := TreeValid.mk r1 c1 hc1
            rw [hlen1, ← hlen2] at this
            simpa using this
      · rw [if_neg hgt]
        simp only [BinomialTree.root_mk, BinomialTree.childs_mk]
        have hmk := TreeValid.mk r1 (c1 ++ [BinomialTree.mk r2 c2]) ?_
        · rw [List.length_append, List.length_singleton, hlen1] at hmk
          exact hmk
        · intro i hi
          rw [List.length_append, List.length_singleton] at hi
          by_cases hilt : i < c1.length
          · rw [List.getElem_append_left hilt]
            exact hc1 i hilt
          · have hieq : i = c1.length := by omega
            subst hieq
            rw [List.getElem_append_right (le_refl _)]
            have := TreeValid.mk r2 c2 hc2
            rw [hlen2, ← hlen1] at this
            simpa using this

theorem TreeHeapOrd.root_le {t : BinomialTree K D} (h : TreeHeapOrd t) :
    t.root ∈ t.entries ∧ ∀ x ∈ t.entries, t.root.key ≤ x.key := by
  induction h with
  | mk r cs hord hkey ih =>
    rw [BinomialTree.entries_mk]
    constructor
    · exact Multiset.mem_cons_self _ _
    · intro x hx
      rcases Multiset.mem_cons.mp hx with hx | hx
      · subst hx
        exact le_refl _
      · rw [mem_list_sum] at hx
        obtain ⟨m, hm, hxm⟩ := hx
        rw [List.mem_map] at hm
        obtain ⟨c, hc, hmc⟩ := hm
        subst hmc
        exact le_trans (hkey c hc) ((ih c hc).2 x hxm)

end BinomialTreeLemmas

section BinomialMergeLemmas

variable {K : Type u} {D : Type v} [LinearOrder K]

theorem ranksEntries_nil : ranksEntries ([] : List (Option (BinomialTree K D))) = 0 := rfl

theorem ranksEntries_cons (x : Option (BinomialTree K D)) (rest : List (Option (BinomialTree K D))) :
    ranksEntries (x :: rest) = optEntries x + ranksEntries rest := by
  simp [ranksEntries]

theorem ranksValid_cons {base : Nat} {x : Option (BinomialTree K D)}
    {rest : List (Option (BinomialTree K D))} :
    ranksValid base (x :: rest) ↔ optValid base x ∧ ranksValid (base + 1) rest := by
  constructor
  · intro h
    constructor
    · intro t hxt
      have := h 0 t (by simp [hxt])
      simpa using this
    · intro i t hit
      have := h (i + 1) t (by simpa using hit)
      have heq : base + (i + 1) = base + 1 + i := by omega
      rw [heq] at this
      exact this
  · intro ⟨h1, h2⟩ i t hit
    cases i with
    | zero =>
      simp only [List.getElem?_cons_zero, Option.some.injEq] at hit
      simpa using h1 t hit
    | succ i =>
      simp only [List.getElem?_cons_succ] at hit
      have := h2 i t hit
      have heq : base + 1 + i = base + (i + 1) := by omega
      rw [heq] at this
      exact this

theorem ranksHeapOrd_cons {x : Option (BinomialTree K D)}
    {rest : List (Option (BinomialTree K D))} :
    ranksHeapOrd (x :: rest) ↔ optHeapOrd x ∧ ranksHeapOrd rest := by
  constructor
  · intro h
    constructor
    · intro t hxt
      exact h 0 t (by simp [hxt])
    · intro i t hit
      exact h (i + 1) t (by simpa using hit)
  · intro ⟨h1, h2⟩ i t hit
    cases i with
    | zero =>
      simp only [List.getElem?_cons_zero, Option.some.injEq] at hit
      exact h1 t hit
    | succ i =>
      simp only [List.getElem?_cons_succ] at hit
      exact h2 i t hit

theorem mem_opt3 {s o c : Option (BinomialTree K D)} {L : List (BinomialTree K D)}
    (heq : s.toList ++ o.toList ++ c.toList = L) {t : BinomialTree K D} (ht : t ∈ L) :
    s = some t ∨ o = some t ∨ c = some t := by
  subst heq
  rcases List.mem_append.mp ht with h | h
  · rcases List.mem_append.mp h with h | h
    · rcases s with _ | ts
      · simp at h
      · simp at h
        exact Or.inl (by rw [h])
    · rcases o with _ | ot
      · simp at h
      · simp at h
        exact Or.inr (Or.inl (by rw [h]))
  · rcases c with _ | tc
    · simp at h
    · simp at h
      exact Or.inr (Or.inr (by rw [h]))

theorem listEntries_toList3 (s o c : Option (BinomialTree K D)) :
    ((s.toList ++ o.toList ++ c.toList).map BinomialTree.entries).sum
      = optEntries s + optEntries o + optEntries c := by
  cases s <;> cases o <;> cases c <;> simp [optEntries] <;> abel

theorem carryLoop_entries (l : List (Option (BinomialTree K D))) (c : Option (BinomialTree K D)) :
    ranksEntries (carryLoop l c) = ranksEntries l + optEntries c := by
  induction l, c using carryLoop.induct with
  | case1 ranks =>
    rw [carryLoop]
    simp [optEntries]
  | case2 c =>
    rw [carryLoop]
    simp [ranksEntries_cons, ranksEntries_nil, optEntries]
  | case3 rest c =>
    rw [carryLoop]
    simp only [ranksEntries_cons]
    simp [optEntries]
    abel
  | case4 t rest c ih =>
    rw [carryLoop]
    simp only [ranksEntries_cons, ih]
    simp [optEntries, BinomialTree.merge_entries_tree]
    abel

theorem carryLoop_valid (l : List (Option (BinomialTree K D))) (c : Option (BinomialTree K D)) :
    ∀ base, ranksValid base l → optValid base c → ranksValid base (carryLoop l c) := by
  induction l, c using carryLoop.induct with
  | case1 ranks =>
    intro base h _
    rw [carryLoop]
    exact h
  | case2 c =>
    intro base _ hc
    rw [carryLoop]
    rw [ranksValid_cons]
    exact ⟨hc, fun i t hit => by simp at hit⟩
  | case3 rest c =>
    intro base h hc
    rw [carryLoop]
    rw [ranksValid_cons] at h ⊢
    exact ⟨hc, h.2⟩
  | case4 t rest c ih =>
    intro base h hc
    rw [carryLoop]
    rw [ranksValid_cons] at h ⊢
    refine ⟨(fun t2 ht2 => by cases ht2), ?_⟩
    refine ih (base + 1) h.2 ?_
    intro t2 ht2
    injection ht2 with ht2
    subst ht2
    exact TreeValid.merge_tree_valid (h.1 t rfl) (hc c rfl)

theorem carryLoop_heapOrd (l : List (Option (BinomialTree K D))) (c : Option (BinomialTree K D)) :
    ranksHeapOrd l → optHeapOrd c → ranksHeapOrd (carryLoop l c) := by
  induction l, c using carryLoop.induct with
  | case1 ranks =>
    intro h _
    rw [carryLoop]
    exact h
  | case2 c =>
    intro _ hc
    rw [carryLoop]
    rw [ranksHeapOrd_cons]
    exact ⟨hc, fun i t hit => by simp at hit⟩
  | case3 rest c =>
    intro h hc
    rw [carryLoop]
    rw [ranksHeapOrd_cons] at h ⊢
    exact ⟨hc, h.2⟩
  | case4 t rest c ih =>
    intro h hc
    rw [carryLoop]
    rw [ranksHeapOrd_cons] at h ⊢
    refine ⟨(fun t2 ht2 => by cases ht2), ?_⟩
    refine ih h.2 ?_
    intro t2 ht2
    injection ht2 with ht2
    subst ht2
    exact TreeHeapOrd.merge_tree_ord (h.1 t rfl) (hc c rfl)

end BinomialMergeLemmas

section MergeRanksLemmas

variable {K : Type u} {D : Type v} [LinearOrder K]

theorem mergeRanks_entries (self other : List (Option (BinomialTree K D)))
    (carry : Option (BinomialTree K D)) :
    other.length ≤ self.length →
    ranksEntries (mergeRanks self other carry)
      = ranksEntries self + ranksEntries other + optEntries carry := by
  induction self, other, carry using mergeRanks.induct with
  | case1 selfRanks carry =>
    intro _
    rw [mergeRanks, carryLoop_entries, ranksEntries_nil]
    abel
  | case2 hd tl x =>
    intro hlen
    simp at hlen
  | case3 s ss o os carry heq ih =>
    intro hlen
    simp only [List.length_cons, Nat.add_le_add_iff_right] at hlen
    have hstep : mergeRanks (s :: ss) (o :: os) carry = none :: mergeRanks ss os none := by
      rw [mergeRanks, heq]
    have hent := listEntries_toList3 s o carry
    rw [heq] at hent
    simp only [List.map_nil, List.sum_nil] at hent
    rw [hstep, ranksEntries_cons, ih hlen, ranksEntries_cons, ranksEntries_cons]
    have hre : (optEntries s + ranksEntries ss) + (optEntries o + ranksEntries os)
          + optEntries carry
        = (ranksEntries ss + ranksEntries os)
          + (optEntries s + optEntries o + optEntries carry) := by abel
    rw [hre, ← hent]
    simp [optEntries]
  | case4 s ss o os carry t heq ih =>
    intro hlen
    simp only [List.length_cons, Nat.add_le_add_iff_right] at hlen
    have hstep : mergeRanks (s :: ss) (o :: os) carry = some t :: mergeRanks ss os none := by
      rw [mergeRanks, heq]
    have hent := listEntries_toList3 s o carry
    rw [heq] at hent
    simp only [List.map_cons, List.map_nil, List.sum_cons, List.sum_nil, add_zero] at hent
    rw [hstep, ranksEntries_cons, ih hlen, ranksEntries_cons, ranksEntries_cons]
    have hre : (optEntries s + ranksEntries ss) + (optEntries o + ranksEntries os)
          + optEntries carry
        = (ranksEntries ss + ranksEntries os)
          + (optEntries s + optEntries o + optEntries carry) := by abel
    rw [hre, ← hent]
    simp [optEntries]
    abel
  | case5 s ss o os carry t1 t2 heq ih =>
    intro hlen
    simp only [List.length_cons, Nat.add_le_add_iff_right] at hlen
    have hstep : mergeRanks (s :: ss) (o :: os) carry
        = none :: mergeRanks ss os (some (t1.merge t2)) := by
      rw [mergeRanks, heq]
    have hent := listEntries_toList3 s o carry
    rw [heq] at hent
    simp only [List.map_cons, List.map_nil, List.sum_cons, List.sum_nil, add_zero] at hent
    rw [hstep, ranksEntries_cons, ih hlen, ranksEntries_cons, ranksEntries_cons]
    have hre : (optEntries s + ranksEntries ss) + (optEntries o + ranksEntries os)
          + optEntries carry
        = (ranksEntries ss + ranksEntries os)
          + (optEntries s + optEntries o + optEntries carry) := by abel
    rw [hre, ← hent]
    simp [optEntries, BinomialTree.merge_entries_tree]
  | case6 s ss o os carry t1 t2 t3 tail heq ih =>
    intro hlen
    simp only [List.length_cons, Nat.add_le_add_iff_right] at hlen
    have hlen3 : (s.toList ++ o.toList ++ carry.toList).length ≤ 3 := by
      rcases s with _ | s <;> rcases o with _ | o <;> rcases carry with _ | c <;> simp
    rw [heq] at hlen3
    simp only [List.length_cons] at hlen3
    have htail : tail = [] := List.eq_nil_of_length_eq_zero (by omega)
    subst htail
    have hstep : mergeRanks (s :: ss) (o :: os) carry
        = some t3 :: mergeRanks ss os (some (t1.merge t2)) := by
      rw [mergeRanks, heq]
    have hent := listEntries_toList3 s o carry
    rw [heq] at hent
    simp only [List.map_cons, List.map_nil, List.sum_cons, List.sum_nil, add_zero] at hent
    rw [hstep, ranksEntries_cons, ih hlen, ranksEntries_cons, ranksEntries_cons]
    have hre : (optEntries s + ranksEntries ss) + (optEntries o + ranksEntries os)
          + optEntries carry
        = (ranksEntries ss + ranksEntries os)
          + (optEntries s + optEntries o + optEntries carry) := by abel
    rw [hre, ← hent]
    simp [optEntries, BinomialTree.merge_entries_tree]
    abel

theorem mergeRanks_valid (self other : List (Option (BinomialTree K D)))
    (carry : Option (BinomialTree K D)) :
    ∀ base, other.length ≤ self.length → ranksValid base self → ranksValid base other →
      optValid base carry → ranksValid base (mergeRanks self other carry) := by
  induction self, other, carry using mergeRanks.induct with
  | case1 selfRanks carry =>
    intro base _ hs _ hc
    rw [mergeRanks]
    exact carryLoop_valid _ _ base hs hc
  | case2 hd tl x =>
    intro base hlen _ _ _
    simp at hlen
  | case3 s ss o os carry heq ih =>
    intro base hlen hs ho hc
    simp only [List.length_cons, Nat.add_le_add_iff_right] at hlen
    have hstep : mergeRanks (s :: ss) (o :: os) carry = none :: mergeRanks ss os none := by
      rw [mergeRanks, heq]
    rw [hstep, ranksValid_cons]
    rw [ranksValid_cons] at hs ho
    exact ⟨(fun t2 ht2 => by cases ht2),
      ih (base + 1) hlen hs.2 ho.2 (fun t2 ht2 => by cases ht2)⟩
  | case4 s ss o os carry t heq ih =>
    intro base hlen hs ho hc
    simp only [List.length_cons, Nat.add_le_add_iff_right] at hlen
    have hstep : mergeRanks (s :: ss) (o :: os) carry = some t :: mergeRanks ss os none := by
      rw [mergeRanks, heq]
    rw [hstep, ranksValid_cons]
    rw [ranksValid_cons] at hs ho
    refine ⟨?_, ih (base + 1) hlen hs.2 ho.2 (fun t2 ht2 => by cases ht2)⟩
    intro t2 ht2
    injection ht2 with ht2
    subst ht2
    rcases mem_opt3 heq (List.mem_singleton.mpr rfl) with h | h | h
    · exact hs.1 t h
    · exact ho.1 t h
    · exact hc t h
  | case5 s ss o os carry t1 t2 heq ih =>
    intro base hlen hs ho hc
    simp only [List.length_cons, Nat.add_le_add_iff_right] at hlen
    have hstep : mergeRanks (s :: ss) (o :: os) carry
        = none :: mergeRanks ss os (some (t1.merge t2)) := by
      rw [mergeRanks, heq]
    rw [hstep, ranksValid_cons]
    rw [ranksValid_cons] at hs ho
    have ht1 : TreeValid base t1 := by
      rcases mem_opt3 (t := t1) heq (by simp) with h | h | h
      · exact hs.1 t1 h
      · exact ho.1 t1 h
      · exact hc t1 h
    have ht2 : TreeValid base t2 := by
      rcases mem_opt3 (t := t2) heq (by simp) with h | h | h
      · exact hs.1 t2 h
      · exact ho.1 t2 h
      · exact hc t2 h
    refine ⟨(fun t0 ht0 => by cases ht0), ih (base + 1) hlen hs.2 ho.2 ?_⟩
    intro t0 ht0
    injection ht0 with ht0
    subst ht0
    exact TreeValid.merge_tree_valid ht1 ht2
  | case6 s ss o os carry t1 t2 t3 tail heq ih =>
    intro base hlen hs ho hc
    simp only [List.length_cons, Nat.add_le_add_iff_right] at hlen
    have hstep : mergeRanks (s :: ss) (o :: os) carry
        = some t3 :: mergeRanks ss os (some (t1.merge t2)) := by
      rw [mergeRanks, heq]
    rw [hstep, ranksValid_cons]
    rw [ranksValid_cons] at hs ho
    have hall : ∀ t0 : BinomialTree K D, t0 ∈ t1 :: t2 :: t3 :: tail → TreeValid base t0 := by
      intro t0 ht0
      rcases mem_opt3 heq ht0 with h | h | h
      · exact hs.1 t0 h
      · exact ho.1 t0 h
      · exact hc t0 h
    refine ⟨?_, ih (base + 1) hlen hs.2 ho.2 ?_⟩
    · intro t0 ht0
      injection ht0 with ht0
      subst ht0
      exact hall t3 (by simp)
    · intro t0 ht0
      injection ht0 with ht0
      subst ht0
      exact TreeValid.merge_tree_valid (hall t1 (by simp)) (hall t2 (by simp))

theorem mergeRanks_heapOrd (self other : List (Option (BinomialTree K D)))
    (carry : Option (BinomialTree K D)) :
    other.length ≤ self.length → ranksHeapOrd self → ranksHeapOrd other →
      optHeapOrd carry → ranksHeapOrd (mergeRanks self other carry) := by
  induction self, other, carry using mergeRanks.induct with
  | case1 selfRanks carry =>
    intro _ hs _ hc
    rw [mergeRanks]
    exact carryLoop_heapOrd _ _ hs hc
  | case2 hd tl x =>
    intro hlen _ _ _
    simp at hlen
  | case3 s ss o os carry heq ih =>
    intro hlen hs ho hc
    simp only [List.length_cons, Nat.add_le_add_iff_right] at hlen
    have hstep : mergeRanks (s :: ss) (o :: os) carry = none :: mergeRanks ss os none := by
      rw [mergeRanks, heq]
    rw [hstep, ranksHeapOrd_cons]
    rw [ranksHeapOrd_cons] at hs ho
    exact ⟨(fun t2 ht2 => by cases ht2),
      ih hlen hs.2 ho.2 (fun t2 ht2 => by cases ht2)⟩
  | case4 s ss o os carry t heq ih =>
    intro hlen hs ho hc
    simp only [List.length_cons, Nat.add_le_add_iff_right] at hlen
    have hstep : mergeRanks (s :: ss) (o :: os) carry = some t :: mergeRanks ss os none := by
      rw [mergeRanks, heq]
    rw [hstep, ranksHeapOrd_cons]
    rw [ranksHeapOrd_cons] at hs ho
    refine ⟨?_, ih hlen hs.2 ho.2 (fun t2 ht2 => by cases ht2)⟩
    intro t2 ht2
    injection ht2 with ht2
    subst ht2
    rcases mem_opt3 heq (List.mem_singleton.mpr rfl) with h | h | h
    · exact hs.1 t h
    · exact ho.1 t h
    · exact hc t h
  | case5 s ss o os carry t1 t2 heq ih =>
    intro hlen hs ho hc
    simp only [List.length_cons, Nat.add_le_add_iff_right] at hlen
    have hstep : mergeRanks (s :: ss) (o :: os) carry
        = none :: mergeRanks ss os (some (t1.merge t2)) := by
      rw [mergeRanks, heq]
    rw [hstep, ranksHeapOrd_cons]
    rw [ranksHeapOrd_cons] at hs ho
    have ht1 : TreeHeapOrd t1 := by
      rcases mem_opt3 (t := t1) heq (by simp) with h | h | h
      · exact hs.1 t1 h
      · exact ho.1 t1 h
      · exact hc t1 h
    have ht2 : TreeHeapOrd t2 := by
      rcases mem_opt3 (t := t2) heq (by simp) with h | h | h
      · exact hs.1 t2 h
      · exact ho.1 t2 h
      · exact hc t2 h
    refine ⟨(fun t0 ht0 => by cases ht0), ih hlen hs.2 ho.2 ?_⟩
    intro t0 ht0
    injection ht0 with ht0
    subst ht0
    exact TreeHeapOrd.merge_tree_ord ht1 ht2
  | case6 s ss o os carry t1 t2 t3 tail heq ih =>
    intro hlen hs ho hc
    simp only [List.length_cons, Nat.add_le_add_iff_right] at hlen
    have hstep : mergeRanks (s :: ss) (o :: os) carry
        = some t3 :: mergeRanks ss os (some (t1.merge t2)) := by
      rw [mergeRanks, heq]
    rw [hstep, ranksHeapOrd_cons]
    rw [ranksHeapOrd_cons] at hs ho
    have hall : ∀ t0 : BinomialTree K D, t0 ∈ t1 :: t2 :: t3 :: tail → TreeHeapOrd t0 := by
      intro t0 ht0
      rcases mem_opt3 heq ht0 with h | h | h
      · exact hs.1 t0 h
      · exact ho.1 t0 h
      · exact hc t0 h
    refine ⟨?_, ih hlen hs.2 ho.2 ?_⟩
    · intro t0 ht0
      injection ht0 with ht0
      subst ht0
      exact hall t3 (by simp)
    · intro t0 ht0
      injection ht0 with ht0
      subst ht0
      exact TreeHeapOrd.merge_tree_ord (hall t1 (by simp)) (hall t2 (by simp))

theorem BinomialHeap.merge_entries (A B : BinomialHeap K D) :
    (A.merge B).entries = A.entries + B.entries := by
  unfold BinomialHeap.merge
  by_cases hlen : B.ranks.length > A.ranks.length
  · rw [if_pos hlen]
    show ranksEntries (mergeRanks B.ranks A.ranks none) = _
    rw [mergeRanks_entries _ _ _ (le_of_lt hlen)]
    show _ = ranksEntries A.ranks + ranksEntries B.ranks
    simp [optEntries]
    abel
  · rw [if_neg hlen]
    show ranksEntries (mergeRanks A.ranks B.ranks none) = _
    rw [mergeRanks_entries _ _ _ (by omega)]
    show _ = ranksEntries A.ranks + ranksEntries B.ranks
    simp [optEntries]

theorem BinomialHeap.merge_valid {A B : BinomialHeap K D}
    (hA : ranksValid 0 A.ranks) (hB : ranksValid 0 B.ranks) :
    ranksValid 0 (A.merge B).ranks := by
  unfold BinomialHeap.merge
  by_cases hlen : B.ranks.length > A.ranks.length
  · rw [if_pos hlen]
    exact mergeRanks_valid _ _ _ 0 (le_of_lt hlen) hB hA (fun t ht => by cases ht)
  · rw [if_neg hlen]
    exact mergeRanks_valid _ _ _ 0 (by omega) hA hB (fun t ht => by cases ht)

theorem BinomialHeap.merge_heapOrd {A B : BinomialHeap K D}
    (hA : ranksHeapOrd A.ranks) (hB : ranksHeapOrd B.ranks) :
    ranksHeapOrd (A.merge B).ranks := by
  unfold BinomialHeap.merge
  by_cases hlen : B.ranks.length > A.ranks.length
  · rw [if_pos hlen]
    exact mergeRanks_heapOrd _ _ _ (le_of_lt hlen) hB hA (fun t ht => by cases ht)
  · rw [if_neg hlen]
    exact mergeRanks_heapOrd _ _ _ (by omega) hA hB (fun t ht => by cases ht)

end MergeRanksLemmas

section SelectMinLemmas

variable {K : Type u} {D : Type v} [LinearOrder K]

theorem selectMin_some_ne_none (l : List (Option (BinomialTree K D))) :
    ∀ idx p, selectMin l idx (some p) ≠ none := by
  induction l with
  | nil =>
    intro idx p h
    simp [selectMin] at h
  | cons x rest ih =>
    intro idx p
    cases x with
    | none =>
      simp only [selectMin]
      exact ih (idx + 1) p
    | some t =>
      rcases p with ⟨j, k⟩
      simp only [selectMin]
      by_cases hcmp : t.root.key < k
      · rw [if_pos hcmp]
        exact ih (idx + 1) _
      · rw [if_neg hcmp]
        exact ih (idx + 1) _

theorem selectMin_none_iff (l : List (Option (BinomialTree K D))) :
    ∀ idx, selectMin l idx none = none ↔ ∀ x ∈ l, x = none := by
  induction l with
  | nil =>
    intro idx
    simp [selectMin]
  | cons x rest ih =>
    intro idx
    cases x with
    | none =>
      simp only [selectMin]
      rw [ih (idx + 1)]
      simp
    | some t =>
      simp only [selectMin]
      have hne := selectMin_some_ne_none rest (idx + 1) (idx, t.root.key)
      simp [hne]

theorem selectMin_result (l : List (Option (BinomialTree K D))) :
    ∀ idx best q, selectMin l idx best = some q →
      (best = some q ∨ ∃ (i : Nat) (t : BinomialTree K D), l[i]? = some (some t) ∧ q = (idx + i, t.root.key)) ∧
      (∀ p, best = some p → q.2 ≤ p.2) ∧
      (∀ (i : Nat) (t : BinomialTree K D), l[i]? = some (some t) → q.2 ≤ t.root.key) := by
  induction l with
  | nil =>
    intro idx best q h
    simp only [selectMin] at h
    subst h
    refine ⟨Or.inl rfl, ?_, ?_⟩
    · intro p hp
      injection hp with hp
      subst hp
      exact le_refl _
    · intro i t hit
      simp at hit
  | cons x rest ih =>
    intro idx best q h
    cases x with
    | none =>
      simp only [selectMin] at h
      obtain ⟨h1, h2, h3⟩ := ih (idx + 1) best q h
      refine ⟨?_, h2, ?_⟩
      · rcases h1 with h1 | ⟨i, t, hit, hq⟩
        · exact Or.inl h1
        · refine Or.inr ⟨i + 1, t, by simpa using hit, ?_⟩
          rw [hq]
          congr 1
          omega
      · intro i t hit
        cases i with
        | zero => simp at hit
        | succ i => exact h3 i t (by simpa using hit)
    | some t0 =>
      cases best with
      | none =>
        simp only [selectMin] at h
        obtain ⟨h1, h2, h3⟩ := ih (idx + 1) (some (idx, t0.root.key)) q h
        refine ⟨?_, ?_, ?_⟩
        · rcases h1 with h1 | ⟨i, t, hit, hq⟩
          · refine Or.inr ⟨0, t0, by simp, ?_⟩
            injection h1 with h1
            rw [← h1]
            simp
          · refine Or.inr ⟨i + 1, t, by simpa using hit, ?_⟩
            rw [hq]
            congr 1
            omega
        · intro p hp
          cases hp
        · intro i t hit
          cases i with
          | zero =>
            simp only [List.getElem?_cons_zero, Option.some.injEq] at hit
            subst hit
            exact h2 (idx, t0.root.key) rfl
          | succ i => exact h3 i t (by simpa using hit)
      | some p0 =>
        rcases p0 with ⟨j0, k0⟩
        simp only [selectMin] at h
        by_cases hcmp : t0.root.key < k0
        · rw [if_pos hcmp] at h
          obtain ⟨h1, h2, h3⟩ := ih (idx + 1) (some (idx, t0.root.key)) q h
          have hqle : q.2 ≤ t0.root.key := h2 (idx, t0.root.key) rfl
          refine ⟨?_, ?_, ?_⟩
          · rcases h1 with h1 | ⟨i, t, hit, hq⟩
            · refine Or.inr ⟨0, t0, by simp, ?_⟩
              injection h1 with h1
              rw [← h1]
              simp
            · refine Or.inr ⟨i + 1, t, by simpa using hit, ?_⟩
              rw [hq]
              congr 1
              omega
          · intro p hp
            injection hp with hp
            subst hp
            exact le_trans hqle (le_of_lt hcmp)
          · intro i t hit
            cases i with
            | zero =>
              simp only [List.getElem?_cons_zero, Option.some.injEq] at hit
              subst hit
              exact hqle
            | succ i => exact h3 i t (by simpa using hit)
        · rw [if_neg hcmp] at h
          obtain ⟨h1, h2, h3⟩ := ih (idx + 1) (some (j0, k0)) q h
          have hqle : q.2 ≤ k0 := h2 (j0, k0) rfl
          refine ⟨?_, ?_, ?_⟩
          · rcases h1 with h1 | ⟨i, t, hit, hq⟩
            · exact Or.inl h1
            · refine Or.inr ⟨i + 1, t, by simpa using hit, ?_⟩
              rw [hq]
              congr 1
              omega
          · intro p hp
            injection hp with hp
            subst hp
            exact hqle
          · intro i t hit
            cases i with
            | zero =>
              simp only [List.getElem?_cons_zero, Option.some.injEq] at hit
              subst hit
              exact le_trans hqle (le_of_not_lt hcmp)
            | succ i => exact h3 i t (by simpa using hit)

theorem ranksEntries_eq_zero_iff (l : List (Option (BinomialTree K D))) :
    ranksEntries l = 0 ↔ ∀ x ∈ l, x = none := by
  induction l with
  | nil => simp [ranksEntries_nil]
  | cons x rest ih =>
    rw [ranksEntries_cons]
    constructor
    · intro h
      rw [add_eq_zero] at h
      intro y hy
      rcases List.mem_cons.mp hy with hy | hy
      · subst hy
        cases y with
        | none => rfl
        | some t =>
          exfalso
          have := h.1
          rw [optEntries] at this
          cases t with
          | mk r cs =>
            rw [BinomialTree.entries_mk] at this
            exact Multiset.cons_ne_zero this
      · exact ih.mp h.2 y hy
    · intro h
      rw [add_eq_zero]
      constructor
      · have := h x (List.mem_cons_self x rest)
        rw [this]
        rfl
      · exact ih.mpr (fun y hy => h y (List.mem_cons_of_mem x hy))

end SelectMinLemmas

section BinomialHeapSpecs

variable {K : Type u} {D : Type v} [LinearOrder K]

theorem ranksEntries_set_none {l : List (Option (BinomialTree K D))} {r : Nat}
    {t : BinomialTree K D} (h : l[r]? = some (some t)) :
    t.entries + ranksEntries (l.set r none) = ranksEntries l := by
  have hmap : (l.map optEntries)[r]? = some t.entries := by
    rw [List.getElem?_map, h]
    rfl
  have hperm := cons_set_perm (l := l.map optEntries) (b := t.entries) 0 hmap
  have hsum := hperm.sum_eq
  simp only [List.sum_cons] at hsum
  have hset : (l.map optEntries).set r 0 = (l.set r none).map optEntries := by
    rw [List.map_set]
    rfl
  rw [hset] at hsum
  show t.entries + ranksEntries (l.set r none) = ranksEntries l
  rw [ranksEntries, ranksEntries]
  rw [hsum]
  simp

theorem ranksHeapOrd_set_none {l : List (Option (BinomialTree K D))} {r : Nat}
    (h : ranksHeapOrd l) : ranksHeapOrd (l.set r none) := by
  intro i t hit
  by_cases hir : i = r
  · subst hir
    by_cases hlt : i < l.length
    · rw [List.getElem?_set_self (by simpa using hlt)] at hit
      cases hit
    · have hnone : (l.set i none)[i]? = none := List.getElem?_eq_none (by simp; omega)
      rw [hnone] at hit
      cases hit
  · rw [List.getElem?_set_ne (Ne.symm hir)] at hit
    exact h i t hit

theorem ranksValid_set_none {l : List (Option (BinomialTree K D))} {r : Nat}
    (h : ranksValid 0 l) : ranksValid 0 (l.set r none) := by
  intro i t hit
  by_cases hir : i = r
  · subst hir
    by_cases hlt : i < l.length
    · rw [List.getElem?_set_self (by simpa using hlt)] at hit
      cases hit
    · have hnone : (l.set i none)[i]? = none := List.getElem?_eq_none (by simp; omega)
      rw [hnone] at hit
      cases hit
  · rw [List.getElem?_set_ne (Ne.symm hir)] at hit
    exact h i t hit

theorem childsRanks_entries (t : BinomialTree K D) :
    ranksEntries (t.childs.map some) = (t.childs.map BinomialTree.entries).sum := by
  rw [ranksEntries, List.map_map]
  rfl

theorem childsRanks_heapOrd {t : BinomialTree K D} (h : TreeHeapOrd t) :
    ranksHeapOrd (t.childs.map some) := by
  cases h with
  | mk r cs hord hkey =>
    intro i t2 hit
    simp only [BinomialTree.childs_mk] at hit
    rw [List.getElem?_map] at hit
    rcases hcs : cs[i]? with _ | c
    · rw [hcs] at hit
      cases hit
    · rw [hcs] at hit
      simp at hit
      subst hit
      exact hord c (List.getElem?_mem hcs)

theorem childsRanks_valid {rk : Nat} {t : BinomialTree K D} (h : TreeValid rk t) :
    ranksValid 0 (t.childs.map some) := by
  cases t with
  | mk r cs =>
    obtain ⟨hlen, hcs⟩ := h.invT
    intro i t2 hit
    simp only [BinomialTree.childs_mk] at hit
    rw [List.getElem?_map] at hit
    rcases hc : cs[i]? with _ | c
    · rw [hc] at hit
      cases hit
    · rw [hc] at hit
      simp at hit
      subst hit
      have hilt : i < cs.length := lt_length_of_getElem? hc
      have hceq : cs[i] = c := by
        have h2 := List.getElem?_eq_getElem hilt
        rw [hc] at h2
        injection h2 with h2
        exact h2.symm
      rw [← hceq]
      simpa using hcs i hilt

theorem mem_ranksEntries {l : List (Option (BinomialTree K D))} {x : HeapEntry K D}
    (hx : x ∈ ranksEntries l) :
    ∃ (i : Nat) (t : BinomialTree K D), l[i]? = some (some t) ∧ x ∈ t.entries := by
  rw [ranksEntries, mem_list_sum] at hx
  obtain ⟨m, hm, hxm⟩ := hx
  rw [List.mem_map] at hm
  obtain ⟨a, ha, hma⟩ := hm
  subst hma
  cases a with
  | none => cases hxm
  | some t =>
    obtain ⟨i, hi⟩ := List.getElem?_of_mem ha
    exact ⟨i, t, hi, hxm⟩

theorem BinomialHeap.insert_entries (h : BinomialHeap K D) (e : HeapEntry K D) :
    (h.insert e).entries = e ::ₘ h.entries := by
  unfold BinomialHeap.insert
  rw [BinomialHeap.merge_entries]
  show h.entries + ranksEntries [some (.mk e [])] = _
  rw [ranksEntries_cons, ranksEntries_nil]
  simp only [optEntries, BinomialTree.entries_mk, List.map_nil, List.sum_nil, add_zero]
  rw [← Multiset.singleton_add, ← Multiset.singleton_add]
  abel

theorem BinomialHeap.insert_heapOrd {h : BinomialHeap K D} {e : HeapEntry K D}
    (hord : ranksHeapOrd h.ranks) : ranksHeapOrd (h.insert e).ranks := by
  unfold BinomialHeap.insert
  refine BinomialHeap.merge_heapOrd hord ?_
  intro i t hit
  rcases i with _ | i
  · simp only [List.getElem?_cons_zero, Option.some.injEq] at hit
    subst hit
    exact TreeHeapOrd.mk e [] (fun c hc => by cases hc) (fun c hc => by cases hc)
  · simp at hit

theorem BinomialHeap.insert_valid {h : BinomialHeap K D} {e : HeapEntry K D}
    (hvalid : ranksValid 0 h.ranks) : ranksValid 0 (h.insert e).ranks := by
  unfold BinomialHeap.insert
  refine BinomialHeap.merge_valid hvalid ?_
  intro i t hit
  rcases i with _ | i
  · simp only [List.getElem?_cons_zero, Option.some.injEq] at hit
    subst hit
    exact TreeValid.mk e [] (fun i hi => by simp at hi)
  · simp at hit

theorem BinomialHeap.deleteMin_none (h : BinomialHeap K D) (hz : h.entries = 0) :
    h.deleteMin = (h, none) := by
  unfold BinomialHeap.deleteMin
  have hall : ∀ x ∈ h.ranks, x = none := (ranksEntries_eq_zero_iff h.ranks).mp hz
  rw [(selectMin_none_iff h.ranks 0).mpr hall]

theorem BinomialHeap.deleteMin_specN (h : BinomialHeap K D)
    (hord : ranksHeapOrd h.ranks) (hvalid : ranksValid 0 h.ranks)
    (hne : h.entries ≠ 0) :
    ∃ (e : HeapEntry K D) (h2 : BinomialHeap K D), h.deleteMin = (h2, some e) ∧
      ranksHeapOrd h2.ranks ∧ ranksValid 0 h2.ranks ∧
      e ::ₘ h2.entries = h.entries ∧
      (∀ x ∈ h.entries, e.key ≤ x.key) := by
  rcases hsel : selectMin h.ranks 0 none with _ | ⟨r, k⟩
  · exfalso
    exact hne ((ranksEntries_eq_zero_iff h.ranks).mpr
      ((selectMin_none_iff h.ranks 0).mp hsel))
  · obtain ⟨h1, _, h3⟩ := selectMin_result h.ranks 0 none (r, k) hsel
    rcases h1 with h1 | ⟨i, t, hit, hq⟩
    · cases h1
    · have hri : r = i ∧ k = t.root.key := by
        rw [Prod.mk.injEq] at hq
        exact ⟨by omega, hq.2⟩
      obtain ⟨hri, hkt⟩ := hri
      subst hri
      subst hkt
      refine ⟨t.root,
        BinomialHeap.merge ⟨h.ranks.set r none⟩ ⟨t.childs.map some⟩, ?_, ?_, ?_, ?_, ?_⟩
      · unfold BinomialHeap.deleteMin
        simp only [hsel, hit]
      · exact BinomialHeap.merge_heapOrd (ranksHeapOrd_set_none hord)
          (childsRanks_heapOrd (hord r t hit))
      · exact BinomialHeap.merge_valid (ranksValid_set_none hvalid)
          (childsRanks_valid (hvalid r t hit))
      · rw [BinomialHeap.merge_entries]
        show t.root ::ₘ (ranksEntries (h.ranks.set r none) + ranksEntries (t.childs.map some))
            = ranksEntries h.ranks
        rw [childsRanks_entries, ← ranksEntries_set_none hit]
        cases t with
        | mk rt cs =>
          rw [BinomialTree.entries_mk]
          simp only [BinomialTree.childs_mk, BinomialTree.root_mk]
          rw [← Multiset.singleton_add, ← Multiset.singleton_add]
          abel
      · intro x hx
        obtain ⟨i, t2, hit2, hxt2⟩ := mem_ranksEntries hx
        have hles : t2.root.key ≤ x.key := (hord i t2 hit2).root_le.2 x hxt2
        exact le_trans (h3 i t2 hit2) hles

end BinomialHeapSpecs

section RandomizedLemmas

variable {K : Type u} {D : Type v} [LinearOrder K]

theorem RandomizedMeldableHeap.meld_entries (a b : RandomizedMeldableHeap K D)
    (s : CoinStream) : (a.meld b s).1.entries = a.entries + b.entries := by
  induction a, b, s using RandomizedMeldableHeap.meld.induct with
  | case1 other s =>
    rw [RandomizedMeldableHeap.meld]
    simp [RandomizedMeldableHeap.entries]
  | case2 v l r s =>
    rw [RandomizedMeldableHeap.meld]
    simp [RandomizedMeldableHeap.entries]
  | case3 v l r w l2 r2 s hgt hcoin ih =>
    rw [RandomizedMeldableHeap.meld, if_pos hgt, if_pos hcoin]
    simp only [RandomizedMeldableHeap.entries]
    rw [ih]
    simp only [RandomizedMeldableHeap.entries, ← Multiset.singleton_add]
    abel
  | case4 v l r w l2 r2 s hgt hcoin ih =>
    rw [RandomizedMeldableHeap.meld, if_pos hgt, if_neg hcoin]
    simp only [RandomizedMeldableHeap.entries]
    rw [ih]
    simp only [RandomizedMeldableHeap.entries, ← Multiset.singleton_add]
    abel
  | case5 v l r w l2 r2 s hgt hcoin ih =>
    rw [RandomizedMeldableHeap.meld, if_neg hgt, if_pos hcoin]
    simp only [RandomizedMeldableHeap.entries]
    rw [ih]
    simp only [RandomizedMeldableHeap.entries, ← Multiset.singleton_add]
    abel
  | case6 v l r w l2 r2 s hgt hcoin ih =>
    rw [RandomizedMeldableHeap.meld, if_neg hgt, if_neg hcoin]
    simp only [RandomizedMeldableHeap.entries]
    rw [ih]
    simp only [RandomizedMeldableHeap.entries, ← Multiset.singleton_add]
    abel

theorem RandomizedMeldableHeap.meld_heapOrd (a b : RandomizedMeldableHeap K D)
    (s : CoinStream) :
    RMHeapOrd a → RMHeapOrd b →
    RMHeapOrd (a.meld b s).1 ∧
    (∀ k : K, rootKeyLE k a → rootKeyLE k b → rootKeyLE k (a.meld b s).1) := by
  induction a, b, s using RandomizedMeldableHeap.meld.induct with
  | case1 other s =>
    intro _ hb
    rw [RandomizedMeldableHeap.meld]
    exact ⟨hb, fun k _ h2 => h2⟩
  | case2 v l r s =>
    intro ha _
    rw [RandomizedMeldableHeap.meld]
    exact ⟨ha, fun k h1 _ => h1⟩
  | case3 v l r w l2 r2 s hgt hcoin ih =>
    intro ha hb
    rw [RandomizedMeldableHeap.meld, if_pos hgt, if_pos hcoin]
    obtain ⟨hl2, hr2, hwl2, hwr2⟩ := hb
    obtain ⟨hmeld, hroot⟩ := ih hr2 ha
    refine ⟨⟨hl2, hmeld, hwl2, ?_⟩, ?_⟩
    · exact hroot w.key hwr2 (le_of_lt hgt)
    · intro k h1 h2
      exact h2
  | case4 v l r w l2 r2 s hgt hcoin ih =>
    intro ha hb
    rw [RandomizedMeldableHeap.meld, if_pos hgt, if_neg hcoin]
    obtain ⟨hl2, hr2, hwl2, hwr2⟩ := hb
    obtain ⟨hmeld, hroot⟩ := ih hl2 ha
    refine ⟨⟨hmeld, hr2, ?_, hwr2⟩, ?_⟩
    · exact hroot w.key hwl2 (le_of_lt hgt)
    · intro k h1 h2
      exact h2
  | case5 v l r w l2 r2 s hgt hcoin ih =>
    intro ha hb
    rw [RandomizedMeldableHeap.meld, if_neg hgt, if_pos hcoin]
    obtain ⟨hl, hr, hvl, hvr⟩ := ha
    obtain ⟨hmeld, hroot⟩ := ih hr hb
    refine ⟨⟨hl, hmeld, hvl, ?_⟩, ?_⟩
    · exact hroot v.key hvr (le_of_not_lt hgt)
    · intro k h1 h2
      exact h1
  | case6 v l r w l2 r2 s hgt hcoin ih =>
    intro ha hb
    rw [RandomizedMeldableHeap.meld, if_neg hgt, if_neg hcoin]
    obtain ⟨hl, hr, hvl, hvr⟩ := ha
    obtain ⟨hmeld, hroot⟩ := ih hl hb
    refine ⟨⟨hmeld, hr, ?_, hvr⟩, ?_⟩
    · exact hroot v.key hvl (le_of_not_lt hgt)
    · intro k h1 h2
      exact h1

theorem RMHeapOrd.le_of_mem (t : RandomizedMeldableHeap K D) :
    RMHeapOrd t → ∀ x ∈ t.entries, ∀ k : K, rootKeyLE k t → k ≤ x.key := by
  induction t with
  | empty =>
    intro _ x hx
    cases hx
  | node v l r ihl ihr =>
    intro hord x hx k hk
    obtain ⟨hl, hr, hvl, hvr⟩ := hord
    rw [RandomizedMeldableHeap.entries, Multiset.mem_cons] at hx
    rcases hx with hx | hx
    · subst hx
      exact hk
    · rw [Multiset.mem_add] at hx
      rcases hx with hx | hx
      · exact le_trans hk (ihl hl x hx v.key hvl)
      · exact le_trans hk (ihr hr x hx v.key hvr)

theorem RandomizedMeldableHeap.insert_entriesR (h : RandomizedMeldableHeap K D)
    (e : HeapEntry K D) (s : CoinStream) :
    (h.insert e s).1.entries = e ::ₘ h.entries := by
  unfold RandomizedMeldableHeap.insert
  rw [RandomizedMeldableHeap.meld_entries]
  simp only [RandomizedMeldableHeap.entries, ← Multiset.singleton_add]
  abel

theorem RandomizedMeldableHeap.insert_heapOrdR {h : RandomizedMeldableHeap K D}
    {e : HeapEntry K D} {s : CoinStream} (hord : RMHeapOrd h) :
    RMHeapOrd (h.insert e s).1 := by
  unfold RandomizedMeldableHeap.insert
  exact (RandomizedMeldableHeap.meld_heapOrd h (.node e .empty .empty) s hord
    (show RMHeapOrd (RandomizedMeldableHeap.node e .empty .empty) from
      ⟨True.intro, True.intro, True.intro, True.intro⟩)).1

theorem RandomizedMeldableHeap.deleteMin_specR (h : RandomizedMeldableHeap K D)
    (s : CoinStream) (hord : RMHeapOrd h) (hne : h.entries ≠ 0) :
    ∃ (e : HeapEntry K D) (h2 : RandomizedMeldableHeap K D) (s2 : CoinStream),
      h.deleteMin s = (h2, s2, some e) ∧
      RMHeapOrd h2 ∧
      e ::ₘ h2.entries = h.entries ∧
      (∀ x ∈ h.entries, e.key ≤ x.key) := by
  cases h with
  | empty => exact absurd rfl hne
  | node v l r =>
    refine ⟨v, (l.meld r s).1, (l.meld r s).2, rfl, ?_, ?_, ?_⟩
    · exact (RandomizedMeldableHeap.meld_heapOrd l r s hord.1 hord.2.1).1
    · rw [RandomizedMeldableHeap.meld_entries]
      rfl
    · intro x hx
      exact RMHeapOrd.le_of_mem (RandomizedMeldableHeap.node v l r) hord x hx
        v.key (le_refl _)

end RandomizedLemmas

section CardOccupancy

variable {K : Type u} {D : Type v} [LinearOrder K]

theorem sum_card_children (cs : List (BinomialTree K D))
    (h : ∀ (i : Nat) (t : BinomialTree K D), cs[i]? = some t →
      Multiset.card t.entries = 2 ^ i) :
    Multiset.card ((cs.map BinomialTree.entries).sum) = 2 ^ cs.length - 1 := by
  induction cs using List.reverseRecOn with
  | nil => simp
  | append_singleton cs c ih =>
    rw [List.map_append, List.sum_append]
    simp only [List.map_cons, List.map_nil, List.sum_cons, List.sum_nil, add_zero]
    rw [Multiset.card_add]
    have hlast : Multiset.card c.entries = 2 ^ cs.length :=
      h cs.length c (List.getElem?_concat_length cs c)
    have hpre : Multiset.card ((cs.map BinomialTree.entries).sum) = 2 ^ cs.length - 1 := by
      apply ih
      intro i t hi
      refine h i t ?_
      rw [List.getElem?_append_left (lt_length_of_getElem? hi)]
      exact hi
    rw [hpre, hlast, List.length_append, List.length_singleton, pow_succ]
    have hone : 1 ≤ 2 ^ cs.length := Nat.one_le_two_pow
    omega

theorem TreeValid.card {rk : Nat} {t : BinomialTree K D} (h : TreeValid rk t) :
    Multiset.card t.entries = 2 ^ rk := by
  induction h with
  | mk r cs hcs ih =>
    rw [BinomialTree.entries_mk, Multiset.card_cons]
    rw [sum_card_children cs ?_]
    · have hone : 1 ≤ 2 ^ cs.length := Nat.one_le_two_pow
      omega
    · intro i t2 hi
      have hilt : i < cs.length := lt_length_of_getElem? hi
      have hceq : cs[i] = t2 := by
        have h2 := List.getElem?_eq_getElem hilt
        rw [hi] at h2
        injection h2 with h2
        exact h2.symm
      rw [← hceq]
      exact ih i hilt

theorem testBit_two_mul_zero (m : Nat) : (2 * m).testBit 0 = false := by
  rw [Nat.testBit_zero]
  have hmod : 2 * m % 2 = 0 := by omega
  rw [hmod]
  rfl

theorem testBit_two_mul_succ (m i : Nat) : (2 * m).testBit (i + 1) = m.testBit i := by
  rw [Nat.testBit_succ]
  congr 1
  omega

theorem testBit_two_mul_add_one_zero (m : Nat) : (2 * m + 1).testBit 0 = true := by
  rw [Nat.testBit_zero]
  have hmod : (2 * m + 1) % 2 = 1 := by omega
  rw [hmod]
  rfl

theorem testBit_two_mul_add_one_succ (m i : Nat) :
    (2 * m + 1).testBit (i + 1) = m.testBit i := by
  rw [Nat.testBit_succ]
  congr 1
  omega

theorem ranksValid_card_testBit (l : List (Option (BinomialTree K D))) :
    ∀ base, ranksValid base l →
      ∃ n : Nat, Multiset.card (ranksEntries l) = 2 ^ base * n ∧
        (∀ i : Nat, (∃ t : BinomialTree K D, l[i]? = some (some t)) ↔ n.testBit i) := by
  induction l with
  | nil =>
    intro base _
    refine ⟨0, by simp [ranksEntries_nil], ?_⟩
    intro i
    simp [Nat.zero_testBit]
  | cons x rest ih =>
    intro base h
    rw [ranksValid_cons] at h
    obtain ⟨hx, hrest⟩ := h
    obtain ⟨m, hm, hbit⟩ := ih (base + 1) hrest
    cases x with
    | none =>
      refine ⟨2 * m, ?_, ?_⟩
      · rw [ranksEntries_cons, Multiset.card_add]
        have hz : Multiset.card (optEntries (none : Option (BinomialTree K D))) = 0 := rfl
        rw [hz, hm, pow_succ]
        ring
      · intro i
        cases i with
        | zero =>
          rw [testBit_two_mul_zero]
          simp
        | succ i =>
          rw [testBit_two_mul_succ]
          rw [← hbit i]
          simp
    | some t =>
      refine ⟨2 * m + 1, ?_, ?_⟩
      · rw [ranksEntries_cons, Multiset.card_add]
        have hc : Multiset.card (optEntries (some t)) = 2 ^ base := (hx t rfl).card
        rw [hc, hm, pow_succ]
        ring
      · intro i
        cases i with
        | zero =>
          rw [testBit_two_mul_add_one_zero]
          simp
        | succ i =>
          rw [testBit_two_mul_add_one_succ]
          rw [← hbit i]
          simp

theorem ranksValid_occupancy (l : List (Option (BinomialTree K D))) (hv : ranksValid 0 l) :
    ∀ i : Nat, (∃ t : BinomialTree K D, l[i]? = some (some t))
      ↔ (Multiset.card (ranksEntries l)).testBit i := by
  obtain ⟨n, hn, hbit⟩ := ranksValid_card_testBit l 0 hv
  simp only [pow_zero, one_mul] at hn
  intro i
  rw [hn]
  exact hbit i

end CardOccupancy

section RootKeysLemmas

variable {K : Type u} {D : Type v} [LinearOrder K]

theorem mem_rootKeys {l : List (Option (BinomialTree K D))} {k : K} :
    k ∈ rootKeys l ↔
    ∃ (i : Nat) (t : BinomialTree K D), l[i]? = some (some t) ∧ t.root.key = k := by
  rw [rootKeys, mem_list_sum]
  constructor
  · rintro ⟨m, hm, hkm⟩
    rw [List.mem_map] at hm
    obtain ⟨a, ha, hma⟩ := hm
    subst hma
    cases a with
    | none => cases hkm
    | some t =>
      obtain ⟨i, hi⟩ := List.getElem?_of_mem ha
      refine ⟨i, t, hi, ?_⟩
      have : k ∈ ({t.root.key} : Multiset K) := hkm
      rw [Multiset.mem_singleton] at this
      exact this.symm
  · rintro ⟨i, t, hit, hk⟩
    refine ⟨optRootKey (some t), ?_, ?_⟩
    · rw [List.mem_map]
      exact ⟨some t, List.getElem?_mem hit, rfl⟩
    · show k ∈ ({t.root.key} : Multiset K)
      rw [Multiset.mem_singleton]
      exact hk.symm

theorem mem_ranksEntries_of {l : List (Option (BinomialTree K D))} {i : Nat}
    {t : BinomialTree K D} {x : HeapEntry K D}
    (hit : l[i]? = some (some t)) (hx : x ∈ t.entries) : x ∈ ranksEntries l := by
  rw [ranksEntries, mem_list_sum]
  refine ⟨optEntries (some t), ?_, hx⟩
  rw [List.mem_map]
  exact ⟨some t, List.getElem?_mem hit, rfl⟩

theorem BinomialTree.root_mem_entries (t : BinomialTree K D) : t.root ∈ t.entries := by
  cases t with
  | mk r cs =>
    rw [BinomialTree.entries_mk]
    exact Multiset.mem_cons_self _ _

theorem isMinRootKey_iff_isMinKey {h : BinomialHeap K D}
    (hord : ranksHeapOrd h.ranks) (k : K) : isMinRootKey h k ↔ isMinKey h k := by
  constructor
  · rintro ⟨hmem, hmin⟩
    obtain ⟨i, t, hit, hk⟩ := mem_rootKeys.mp hmem
    constructor
    · rw [Multiset.mem_map]
      exact ⟨t.root, mem_ranksEntries_of hit t.root_mem_entries, hk⟩
    · intro x hx
      rw [Multiset.mem_map] at hx
      obtain ⟨y, hy, hyk⟩ := hx
      obtain ⟨j, t2, hjt2, hyt2⟩ := mem_ranksEntries hy
      have h1 : k ≤ t2.root.key :=
        hmin _ (mem_rootKeys.mpr ⟨j, t2, hjt2, rfl⟩)
      have h2 : t2.root.key ≤ y.key := (hord j t2 hjt2).root_le.2 y hyt2
      rw [← hyk]
      exact le_trans h1 h2
  · rintro ⟨hmem, hmin⟩
    rw [Multiset.mem_map] at hmem
    obtain ⟨y, hy, hyk⟩ := hmem
    obtain ⟨j, t2, hjt2, hyt2⟩ := mem_ranksEntries hy
    have hroot_le : t2.root.key ≤ y.key := (hord j t2 hjt2).root_le.2 y hyt2
    have hk_le_root : k ≤ t2.root.key := by
      refine hmin _ ?_
      rw [Multiset.mem_map]
      exact ⟨t2.root, mem_ranksEntries_of hjt2 t2.root_mem_entries, rfl⟩
    have hkroot : t2.root.key = k := le_antisymm (by rw [← hyk]; exact hroot_le) hk_le_root
    constructor
    · exact mem_rootKeys.mpr ⟨j, t2, hjt2, hkroot⟩
    · intro x hx
      obtain ⟨j2, t3, hjt3, hx3⟩ := mem_rootKeys.mp hx
      refine hmin _ ?_
      rw [Multiset.mem_map]
      exact ⟨t3.root, mem_ranksEntries_of hjt3 t3.root_mem_entries, hx3⟩

end RootKeysLemmas

section ExtractionLemmas

variable {K : Type u} {D : Type v} [LinearOrder K]

theorem popKeys_nil : popKeys ([] : List (Option (HeapEntry K D))) = [] := rfl

theorem popKeys_cons_some (e : HeapEntry K D) (rest : List (Option (HeapEntry K D))) :
    popKeys (some e :: rest) = e.key :: popKeys rest := rfl

theorem popKeys_cons_none (rest : List (Option (HeapEntry K D))) :
    popKeys (none :: rest) = popKeys rest := rfl

theorem popsB_sorted_perm : ∀ (n : Nat) (h : BinaryHeap K D), heapInv h.storage →
    Multiset.card h.entries ≤ n →
    (popKeys (popsB n h)).Sorted (· ≤ ·) ∧
    ((popKeys (popsB n h) : List K) : Multiset K) = h.entries.map HeapEntry.key := by
  intro n
  induction n with
  | zero =>
    intro h hinv hcard
    have hz : h.entries = 0 := Multiset.card_eq_zero.mp (by omega)
    refine ⟨List.sorted_nil, ?_⟩
    rw [hz]
    simp [popsB, popKeys]
  | succ n ih =>
    intro h hinv hcard
    by_cases hne : h.storage = []
    · obtain ⟨st⟩ := h
      simp only at hne
      subst hne
      have hz : BinaryHeap.entries (K := K) (D := D) ⟨[]⟩ = 0 := rfl
      have hdel : BinaryHeap.deleteMin (K := K) (D := D) ⟨[]⟩ = (⟨[]⟩, none) := rfl
      obtain ⟨hs, hp⟩ := ih ⟨[]⟩ hinv (by rw [hz]; simp)
      rw [popsB, hdel]
      exact ⟨hs, by rw [popKeys_cons_none, hp]⟩
    · obtain ⟨e, h2, hdel, hinv2, hent, hmin⟩ := BinaryHeap.deleteMin_spec h hinv hne
      have hcard2 : Multiset.card h2.entries ≤ n := by
        have hc := congrArg Multiset.card hent
        rw [Multiset.card_cons] at hc
        omega
      obtain ⟨hs, hp⟩ := ih h2 hinv2 hcard2
      rw [popsB, hdel]
      simp only [popKeys_cons_some]
      constructor
      · rw [List.sorted_cons]
        refine ⟨?_, hs⟩
        intro b hb
        have hbmem : b ∈ h2.entries.map HeapEntry.key := by
          rw [← hp]
          exact hb
        rw [Multiset.mem_map] at hbmem
        obtain ⟨y, hy, hyk⟩ := hbmem
        have hymem : y ∈ h.entries := by
          rw [← hent]
          exact Multiset.mem_cons_of_mem hy
        rw [← hyk]
        exact hmin y hymem
      · rw [← Multiset.cons_coe, hp, ← hent, Multiset.map_cons]

end ExtractionLemmas

section ExtractionLemmas2

variable {K : Type u} {D : Type v} [LinearOrder K]

theorem popsN_sorted_perm : ∀ (n : Nat) (h : BinomialHeap K D),
    ranksHeapOrd h.ranks → ranksValid 0 h.ranks →
    Multiset.card h.entries ≤ n →
    (popKeys (popsN n h)).Sorted (· ≤ ·) ∧
    ((popKeys (popsN n h) : List K) : Multiset K) = h.entries.map HeapEntry.key := by
  intro n
  induction n with
  | zero =>
    intro h hord hvalid hcard
    have hz : h.entries = 0 := Multiset.card_eq_zero.mp (by omega)
    refine ⟨List.sorted_nil, ?_⟩
    rw [hz]
    simp [popsN, popKeys]
  | succ n ih =>
    intro h hord hvalid hcard
    by_cases hne : h.entries = 0
    · have hdel := BinomialHeap.deleteMin_none h hne
      obtain ⟨hs, hp⟩ := ih h hord hvalid (by rw [hne]; simp)
      rw [popsN, hdel]
      exact ⟨hs, by rw [popKeys_cons_none, hp]⟩
    · obtain ⟨e, h2, hdel, hord2, hvalid2, hent, hmin⟩ :=
        BinomialHeap.deleteMin_specN h hord hvalid hne
      have hcard2 : Multiset.card h2.entries ≤ n := by
        have hc := congrArg Multiset.card hent
        rw [Multiset.card_cons] at hc
        omega
      obtain ⟨hs, hp⟩ := ih h2 hord2 hvalid2 hcard2
      rw [popsN, hdel]
      simp only [popKeys_cons_some]
      constructor
      · rw [List.sorted_cons]
        refine ⟨?_, hs⟩
        intro b hb
        have hbmem : b ∈ h2.entries.map HeapEntry.key := by
          rw [← hp]
          exact hb
        rw [Multiset.mem_map] at hbmem
        obtain ⟨y, hy, hyk⟩ := hbmem
        have hymem : y ∈ h.entries := by
          rw [← hent]
          exact Multiset.mem_cons_of_mem hy
        rw [← hyk]
        exact hmin y hymem
      · rw [← Multiset.cons_coe, hp, ← hent, Multiset.map_cons]

theorem popsR_sorted_perm : ∀ (n : Nat) (h : RandomizedMeldableHeap K D) (s : CoinStream),
    RMHeapOrd h →
    Multiset.card h.entries ≤ n →
    (popKeys (popsR n h s)).Sorted (· ≤ ·) ∧
    ((popKeys (popsR n h s) : List K) : Multiset K) = h.entries.map HeapEntry.key := by
  intro n
  induction n with
  | zero =>
    intro h s hord hcard
    have hz : h.entries = 0 := Multiset.card_eq_zero.mp (by omega)
    refine ⟨List.sorted_nil, ?_⟩
    rw [hz]
    simp [popsR, popKeys]
  | succ n ih =>
    intro h s hord hcard
    by_cases hne : h.entries = 0
    · have hh : h = .empty := by
        cases h with
        | empty => rfl
        | node v l r =>
          exfalso
          rw [RandomizedMeldableHeap.entries] at hne
          exact Multiset.cons_ne_zero hne
      subst hh
      have hdel : RandomizedMeldableHeap.deleteMin (K := K) (D := D) .empty s
          = (.empty, s, none) := rfl
      obtain ⟨hs, hp⟩ := ih .empty s hord
        (by show Multiset.card (0 : Multiset (HeapEntry K D)) ≤ n; simp)
      rw [popsR, hdel]
      exact ⟨hs, by rw [popKeys_cons_none, hp]⟩
    · obtain ⟨e, h2, s2, hdel, hord2, hent, hmin⟩ :=
        RandomizedMeldableHeap.deleteMin_specR h s hord hne
      have hcard2 : Multiset.card h2.entries ≤ n := by
        have hc := congrArg Multiset.card hent
        rw [Multiset.card_cons] at hc
        omega
      obtain ⟨hs, hp⟩ := ih h2 s2 hord2 hcard2
      rw [popsR, hdel]
      simp only [popKeys_cons_some]
      constructor
      · rw [List.sorted_cons]
        refine ⟨?_, hs⟩
        intro b hb
        have hbmem : b ∈ h2.entries.map HeapEntry.key := by
          rw [← hp]
          exact hb
        rw [Multiset.mem_map] at hbmem
        obtain ⟨y, hy, hyk⟩ := hbmem
        have hymem : y ∈ h.entries := by
          rw [← hent]
          exact Multiset.mem_cons_of_mem hy
        rw [← hyk]
        exact hmin y hymem
      · rw [← Multiset.cons_coe, hp, ← hent, Multiset.map_cons]

end ExtractionLemmas2

section BuildLemmas

variable {K : Type u} {D : Type v} [LinearOrder K]

theorem buildB_spec (es : List (HeapEntry K D)) :
    heapInv (buildB es).storage ∧ (buildB es).entries = ↑es := by
  suffices hgen : ∀ (h0 : BinaryHeap K D), heapInv h0.storage →
      heapInv (es.foldl (fun h e => (h.insert e).1) h0).storage ∧
      (es.foldl (fun h e => (h.insert e).1) h0).entries = h0.entries + ↑es by
    obtain ⟨h1, h2⟩ := hgen ⟨[]⟩ (fun i hi _ => by simp at hi)
    refine ⟨h1, ?_⟩
    rw [buildB, h2]
    show (0 : Multiset (HeapEntry K D)) + ↑es = ↑es
    simp
  induction es with
  | nil =>
    intro h0 hinv
    exact ⟨hinv, by simp⟩
  | cons e es ih =>
    intro h0 hinv
    obtain ⟨hinv1, hent1, _, _⟩ := BinaryHeap.insert_spec h0 e hinv
    obtain ⟨h1, h2⟩ := ih (h0.insert e).1 hinv1
    refine ⟨h1, ?_⟩
    rw [List.foldl_cons, h2, hent1]
    rw [← Multiset.singleton_add, ← Multiset.cons_coe, ← Multiset.singleton_add]
    abel

theorem buildN_spec (es : List (HeapEntry K D)) :
    ranksHeapOrd (buildN es).ranks ∧ ranksValid 0 (buildN es).ranks ∧
    (buildN es).entries = ↑es := by
  suffices hgen : ∀ (h0 : BinomialHeap K D),
      ranksHeapOrd h0.ranks → ranksValid 0 h0.ranks →
      ranksHeapOrd (es.foldl (fun h e => h.insert e) h0).ranks ∧
      ranksValid 0 (es.foldl (fun h e => h.insert e) h0).ranks ∧
      (es.foldl (fun h e => h.insert e) h0).entries = h0.entries + ↑es by
    obtain ⟨h1, h2, h3⟩ := hgen ⟨[]⟩ (fun i t h => by simp at h) (fun i t h => by simp at h)
    refine ⟨h1, h2, ?_⟩
    rw [buildN, h3]
    show (0 : Multiset (HeapEntry K D)) + ↑es = ↑es
    simp
  induction es with
  | nil =>
    intro h0 hord hvalid
    exact ⟨hord, hvalid, by simp⟩
  | cons e es ih =>
    intro h0 hord hvalid
    obtain ⟨h1, h2, h3⟩ := ih (h0.insert e)
      (BinomialHeap.insert_heapOrd hord) (BinomialHeap.insert_valid hvalid)
    refine ⟨h1, h2, ?_⟩
    rw [List.foldl_cons, h3, BinomialHeap.insert_entries]
    rw [← Multiset.singleton_add, ← Multiset.cons_coe, ← Multiset.singleton_add]
    abel

theorem buildR_spec (es : List (HeapEntry K D)) (s : CoinStream) :
    RMHeapOrd (buildR es s).1 ∧ (buildR es s).1.entries = ↑es := by
  suffices hgen : ∀ (h0 : RandomizedMeldableHeap K D) (s0 : CoinStream), RMHeapOrd h0 →
      RMHeapOrd (es.foldl (fun p e => p.1.insert e p.2) (h0, s0)).1 ∧
      (es.foldl (fun p e => p.1.insert e p.2) (h0, s0)).1.entries = h0.entries + ↑es by
    obtain ⟨h1, h2⟩ := hgen .empty s True.intro
    refine ⟨h1, ?_⟩
    rw [buildR, h2]
    show (0 : Multiset (HeapEntry K D)) + ↑es = ↑es
    simp
  induction es with
  | nil =>
    intro h0 s0 hord
    exact ⟨hord, by simp⟩
  | cons e es ih =>
    intro h0 s0 hord
    obtain ⟨h1, h2⟩ := ih (h0.insert e s0).1 (h0.insert e s0).2
      (RandomizedMeldableHeap.insert_heapOrdR hord)
    refine ⟨h1, ?_⟩
    rw [List.foldl_cons]
    rw [h2, RandomizedMeldableHeap.insert_entriesR]
    rw [← Multiset.singleton_add, ← Multiset.cons_coe, ← Multiset.singleton_add]
    abel

end BuildLemmas

section ReachableDefs

variable {K : Type u} {D : Type v} [LinearOrder K]

theorem ReachableB.invB {h : BinaryHeap K D} (hr : ReachableB h) : heapInv h.storage := by
  induction hr with
  | new =>
    intro i hi _
    simp at hi
  | ins e _ ih => exact (BinaryHeap.insert_spec _ e ih).1
  | @del h _ ih =>
    by_cases hne : h.storage = []
    · obtain ⟨st⟩ := h
      simp only at hne
      subst hne
      intro i hi _
      simp [BinaryHeap.deleteMin] at hi
    · obtain ⟨e, h2, hdel, hinv2, _, _⟩ := BinaryHeap.deleteMin_spec h ih hne
      rw [hdel]
      exact hinv2
  | @dec h h2 ref k e _ he hk hdec ih =>
    obtain ⟨h2x, hdecx, hinv2, _, _⟩ := BinaryHeap.decreaseKey_spec h ref k e ih he hk
    rw [hdec] at hdecx
    injection hdecx with hx
    rw [hx]
    exact hinv2

theorem ReachableN.invN {h : BinomialHeap K D} (hr : ReachableN h) :
    ranksHeapOrd h.ranks ∧ ranksValid 0 h.ranks := by
  induction hr with
  | new =>
    exact ⟨fun i t ht => by simp at ht, fun i t ht => by simp at ht⟩
  | ins e _ ih =>
    exact ⟨BinomialHeap.insert_heapOrd ih.1, BinomialHeap.insert_valid ih.2⟩
  | @del h _ ih =>
    by_cases hne : h.entries = 0
    · rw [BinomialHeap.deleteMin_none h hne]
      exact ih
    · obtain ⟨e, h2, hdel, hord2, hvalid2, _, _⟩ :=
        BinomialHeap.deleteMin_specN h ih.1 ih.2 hne
      rw [hdel]
      exact ⟨hord2, hvalid2⟩
  | mrg _ _ ih1 ih2 =>
    exact ⟨BinomialHeap.merge_heapOrd ih1.1 ih2.1, BinomialHeap.merge_valid ih1.2 ih2.2⟩

theorem ReachableR.invR {h : RandomizedMeldableHeap K D} (hr : ReachableR h) :
    RMHeapOrd h := by
  induction hr with
  | new => exact True.intro
  | ins e s _ ih => exact RandomizedMeldableHeap.insert_heapOrdR ih
  | @del h s _ ih =>
    cases h with
    | empty => exact True.intro
    | node v l r => exact (RandomizedMeldableHeap.meld_heapOrd l r s ih.1 ih.2.1).1
  | mld s _ _ ih1 ih2 =>
    exact (RandomizedMeldableHeap.meld_heapOrd _ _ s ih1 ih2).1

end ReachableDefs

section PopsCountLemmas

variable {K : Type u} {D : Type v} [LinearOrder K]

theorem popsB_isSome : ∀ (n : Nat) (h : BinaryHeap K D), heapInv h.storage → ∀ i, i < n →
    ∃ o : Option (HeapEntry K D), (popsB n h)[i]? = some o ∧
      (o.isSome = true ↔ i < Multiset.card h.entries) := by
  intro n
  induction n with
  | zero =>
    intro h _ i hi
    omega
  | succ n ih =>
    intro h hinv i hi
    by_cases hne : h.storage = []
    · obtain ⟨st⟩ := h
      simp only at hne
      subst hne
      have hdel : BinaryHeap.deleteMin (K := K) (D := D) ⟨[]⟩ = (⟨[]⟩, none) := rfl
      have hcard : Multiset.card (BinaryHeap.entries (K := K) (D := D) ⟨[]⟩) = 0 := rfl
      cases i with
      | zero =>
        refine ⟨none, ?_, ?_⟩
        · rw [popsB, hdel]
          simp
        · rw [hcard]
          simp
      | succ i =>
        obtain ⟨o, ho, hiff⟩ := ih ⟨[]⟩ hinv i (by omega)
        refine ⟨o, ?_, ?_⟩
        · rw [popsB, hdel]
          simpa using ho
        · rw [hcard]
          rw [hiff]
          constructor <;> intro hc <;> omega
    · obtain ⟨e, h2, hdel, hinv2, hent, _⟩ := BinaryHeap.deleteMin_spec h hinv hne
      have hcard : Multiset.card h.entries = Multiset.card h2.entries + 1 := by
        have hc := congrArg Multiset.card hent
        rw [Multiset.card_cons] at hc
        omega
      cases i with
      | zero =>
        refine ⟨some e, ?_, ?_⟩
        · rw [popsB, hdel]
          simp
        · simp [hcard]
      | succ i =>
        obtain ⟨o, ho, hiff⟩ := ih h2 hinv2 i (by omega)
        refine ⟨o, ?_, ?_⟩
        · rw [popsB, hdel]
          simpa using ho
        · rw [hiff, hcard]
          constructor <;> intro hc <;> omega

theorem popsN_isSome : ∀ (n : Nat) (h : BinomialHeap K D),
    ranksHeapOrd h.ranks → ranksValid 0 h.ranks → ∀ i, i < n →
    ∃ o : Option (HeapEntry K D), (popsN n h)[i]? = some o ∧
      (o.isSome = true ↔ i < Multiset.card h.entries) := by
  intro n
  induction n with
  | zero =>
    intro h _ _ i hi
    omega
  | succ n ih =>
    intro h hord hvalid i hi
    by_cases hne : h.entries = 0
    · have hdel := BinomialHeap.deleteMin_none h hne
      have hcard : Multiset.card h.entries = 0 := by rw [hne]; rfl
      cases i with
      | zero =>
        refine ⟨none, ?_, ?_⟩
        · rw [popsN, hdel]
          simp
        · rw [hcard]
          simp
      | succ i =>
        obtain ⟨o, ho, hiff⟩ := ih h hord hvalid i (by omega)
        refine ⟨o, ?_, ?_⟩
        · rw [popsN, hdel]
          simpa using ho
        · rw [hiff, hcard]
          constructor <;> intro hc <;> omega
    · obtain ⟨e, h2, hdel, hord2, hvalid2, hent, _⟩ :=
        BinomialHeap.deleteMin_specN h hord hvalid hne
      have hcard : Multiset.card h.entries = Multiset.card h2.entries + 1 := by
        have hc := congrArg Multiset.card hent
        rw [Multiset.card_cons] at hc
        omega
      cases i with
      | zero =>
        refine ⟨some e, ?_, ?_⟩
        · rw [popsN, hdel]
          simp
        · simp [hcard]
      | succ i =>
        obtain ⟨o, ho, hiff⟩ := ih h2 hord2 hvalid2 i (by omega)
        refine ⟨o, ?_, ?_⟩
        · rw [popsN, hdel]
          simpa using ho
        · rw [hiff, hcard]
          constructor <;> intro hc <;> omega

theorem popsR_isSome : ∀ (n : Nat) (h : RandomizedMeldableHeap K D) (s : CoinStream),
    RMHeapOrd h → ∀ i, i < n →
    ∃ o : Option (HeapEntry K D), (popsR n h s)[i]? = some o ∧
      (o.isSome = true ↔ i < Multiset.card h.entries) := by
  intro n
  induction n with
  | zero =>
    intro h s _ i hi
    omega
  | succ n ih =>
    intro h s hord i hi
    by_cases hne : h.entries = 0
    · have hh : h = .empty := by
        cases h with
        | empty => rfl
        | node v l r =>
          exfalso
          rw [RandomizedMeldableHeap.entries] at hne
          exact Multiset.cons_ne_zero hne
      subst hh
      have hdel : RandomizedMeldableHeap.deleteMin (K := K) (D := D) .empty s
          = (.empty, s, none) := rfl
      cases i with
      | zero =>
        refine ⟨none, ?_, ?_⟩
        · rw [popsR, hdel]
          simp
        · show none.isSome = true ↔ 0 < Multiset.card (0 : Multiset (HeapEntry K D))
          simp
      | succ i =>
        obtain ⟨o, ho, hiff⟩ := ih .empty s hord i (by omega)
        refine ⟨o, ?_, ?_⟩
        · rw [popsR, hdel]
          simpa using ho
        · rw [hiff]
          have hcard0 : Multiset.card (RandomizedMeldableHeap.entries
              (RandomizedMeldableHeap.empty (K := K) (D := D))) = 0 := rfl
          rw [hcard0]
          constructor <;> intro hc <;> omega
    · obtain ⟨e, h2, s2, hdel, hord2, hent, _⟩ :=
        RandomizedMeldableHeap.deleteMin_specR h s hord hne
      have hcard : Multiset.card h.entries = Multiset.card h2.entries + 1 := by
        have hc := congrArg Multiset.card hent
        rw [Multiset.card_cons] at hc
        omega
      cases i with
      | zero =>
        refine ⟨some e, ?_, ?_⟩
        · rw [popsR, hdel]
          simp
        · simp [hcard]
      | succ i =>
        obtain ⟨o, ho, hiff⟩ := ih h2 s2 hord2 i (by omega)
        refine ⟨o, ?_, ?_⟩
        · rw [popsR, hdel]
          simpa using ho
        · rw [hiff, hcard]
          constructor <;> intro hc <;> omega

end PopsCountLemmas

section MapDataDefs

universe w2

variable {K : Type u} {D : Type v} {D2 : Type w2}

@[simp] theorem mapE_key (f : D → D2) (e : HeapEntry K D) : (mapE f e).key = e.key := rfl

theorem BinomialTree.mapData_mk (f : D → D2) (r : HeapEntry K D)
    (cs : List (BinomialTree K D)) :
    BinomialTree.mapData f (.mk r cs) = .mk (mapE f r) (cs.map (BinomialTree.mapData f)) := by
  rw [BinomialTree.mapData.eq_1]
  congr 1
  rw [List.attach_map_coe]

@[simp] theorem BinomialTree.mapData_root (f : D → D2) (t : BinomialTree K D) :
    (t.mapData f).root = mapE f t.root := by
  cases t with
  | mk r cs =>
    rw [BinomialTree.mapData_mk]
    rfl

end MapDataDefs

section SiftCaseEquations

variable {K : Type u} {D : Type v} [LinearOrder K]

theorem siftUp_zero (l : List (HeapEntry K D)) : siftUp l 0 = (l, 0) := by
  rw [siftUp.eq_def]
  simp

theorem siftUp_swap {l : List (HeapEntry K D)} {i : Nat} {ei ep : HeapEntry K D}
    (hi0 : i ≠ 0) (hei : l[i]? = some ei) (hep : l[(i - 1) / 2]? = some ep)
    (hlt : ei.key < ep.key) :
    siftUp l i = siftUp (listSwap l i ((i - 1) / 2)) ((i - 1) / 2) := by
  rw [siftUp.eq_def]
  simp only [dif_neg hi0]
  rw [hei, hep]
  simp only [if_pos hlt]

theorem siftUp_stop {l : List (HeapEntry K D)} {i : Nat} {ei ep : HeapEntry K D}
    (hi0 : i ≠ 0) (hei : l[i]? = some ei) (hep : l[(i - 1) / 2]? = some ep)
    (hge : ¬ ei.key < ep.key) : siftUp l i = (l, i) := by
  rw [siftUp.eq_def]
  simp only [dif_neg hi0]
  rw [hei, hep]
  simp only [if_neg hge]

theorem siftUp_oob {l : List (HeapEntry K D)} {i : Nat} (hi0 : i ≠ 0)
    (hnone : l[i]? = none ∨ l[(i - 1) / 2]? = none) : siftUp l i = (l, i) := by
  rw [siftUp.eq_def]
  simp only [dif_neg hi0]
  rcases hi : l[i]? with _ | ei <;> rcases hp : l[(i - 1) / 2]? with _ | ep
  · rfl
  · rfl
  · rfl
  · rcases hnone with h | h
    · rw [hi] at h
      cases h
    · rw [hp] at h
      cases h

theorem siftDown_swap {l : List (HeapEntry K D)} {i : Nat} {ei em : HeapEntry K D}
    (hc : 2 * i + 1 < l.length) (hiv : l[i]? = some ei)
    (hmv : l[swapTarget l i]? = some em) (hlt : em.key < ei.key) :
    siftDown l i = siftDown (listSwap l i (swapTarget l i)) (swapTarget l i) := by
  rw [siftDown.eq_def]
  simp only [dif_pos hc]
  rw [hiv, hmv]
  simp only [if_pos hlt]

theorem siftDown_stop {l : List (HeapEntry K D)} {i : Nat} {ei em : HeapEntry K D}
    (hc : 2 * i + 1 < l.length) (hiv : l[i]? = some ei)
    (hmv : l[swapTarget l i]? = some em) (hge : ¬ em.key < ei.key) :
    siftDown l i = l := by
  rw [siftDown.eq_def]
  simp only [dif_pos hc]
  rw [hiv, hmv]
  simp only [if_neg hge]

theorem siftDown_nochild {l : List (HeapEntry K D)} {i : Nat}
    (hc : ¬ 2 * i + 1 < l.length) : siftDown l i = l := by
  rw [siftDown.eq_def]
  simp only [dif_neg hc]

end SiftCaseEquations

section MapDataBinary

universe w2

variable {K : Type u} {D : Type v} {D2 : Type w2} [LinearOrder K]

theorem listSwap_map (f : D → D2) (l : List (HeapEntry K D)) (i j : Nat) :
    listSwap (l.map (mapE f)) i j = (listSwap l i j).map (mapE f) := by
  unfold listSwap
  rw [List.getElem?_map, List.getElem?_map]
  rcases hi : l[i]? with _ | a <;> rcases hj : l[j]? with _ | b <;> simp [List.map_set]

theorem getElem?_map_entry (f : D → D2) (l : List (HeapEntry K D)) (i : Nat) :
    (l.map (mapE f))[i]? = Option.map (mapE f) l[i]? :=
  List.getElem?_map ..

theorem siftUp_map (f : D → D2) : ∀ (i : Nat) (l : List (HeapEntry K D)),
    siftUp (l.map (mapE f)) i = ((siftUp l i).1.map (mapE f), (siftUp l i).2) := by
  intro i
  induction i using Nat.strong_induction_on with
  | _ i ih =>
    intro l
    by_cases hi0 : i = 0
    · subst hi0
      rw [siftUp_zero, siftUp_zero]
    · rcases hi : l[i]? with _ | ei
      · have hmi : (l.map (mapE f))[i]? = none := by
          rw [getElem?_map_entry, hi]
          rfl
        rw [siftUp_oob hi0 (Or.inl hi), siftUp_oob hi0 (Or.inl hmi)]
      · rcases hp : l[(i - 1) / 2]? with _ | ep
        · have hmp : (l.map (mapE f))[(i - 1) / 2]? = none := by
            rw [getElem?_map_entry, hp]
            rfl
          rw [siftUp_oob hi0 (Or.inr hp), siftUp_oob hi0 (Or.inr hmp)]
        · have hmi : (l.map (mapE f))[i]? = some (mapE f ei) := by
            rw [getElem?_map_entry, hi]
            rfl
          have hmp : (l.map (mapE f))[(i - 1) / 2]? = some (mapE f ep) := by
            rw [getElem?_map_entry, hp]
            rfl
          by_cases hlt : ei.key < ep.key
          · rw [siftUp_swap hi0 hmi hmp (by rw [mapE_key, mapE_key]; exact hlt),
              siftUp_swap hi0 hi hp hlt, listSwap_map]
            exact ih ((i - 1) / 2) (by omega) (listSwap l i ((i - 1) / 2))
          · rw [siftUp_stop hi0 hmi hmp (by rw [mapE_key, mapE_key]; exact hlt),
              siftUp_stop hi0 hi hp hlt]

theorem BinaryHeap.insert_map (f : D → D2) (h : BinaryHeap K D) (e : HeapEntry K D) :
    (h.mapData f).insert (mapE f e)
      = (((h.insert e).1).mapData f, (h.insert e).2) := by
  simp only [BinaryHeap.insert, BinaryHeap.mapData]
  have hmap : (h.storage.map (mapE f) ++ [mapE f e]) = (h.storage ++ [e]).map (mapE f) := by
    simp
  rw [hmap]
  have hlen : ((h.storage ++ [e]).map (mapE f)).length = (h.storage ++ [e]).length :=
    List.length_map ..
  rw [hlen, siftUp_map]

theorem minChildIndex_map (f : D → D2) (l : List (HeapEntry K D)) (c mc : Nat) :
    minChildIndex (l.map (mapE f)) c mc = minChildIndex l c mc := by
  unfold minChildIndex
  rw [List.getElem?_map, List.getElem?_map]
  rcases hc : l[c]? with _ | a <;> rcases hmc : l[mc]? with _ | b <;> simp

theorem swapTarget_map (f : D → D2) (l : List (HeapEntry K D)) (i : Nat) :
    swapTarget (l.map (mapE f)) i = swapTarget l i := by
  unfold swapTarget
  rw [List.length_map, minChildIndex_map]

theorem siftDown_map (f : D → D2) : ∀ (l : List (HeapEntry K D)) (i : Nat),
    siftDown (l.map (mapE f)) i = (siftDown l i).map (mapE f) := by
  intro l i
  induction l, i using siftDown.induct with
  | case1 l i hc ei em hmv hiv hlt ih =>
    have hmc : 2 * i + 1 < (l.map (mapE f)).length := by
      rw [List.length_map]
      exact hc
    have hmi : (l.map (mapE f))[i]? = some (mapE f ei) := by
      rw [getElem?_map_entry, hiv]
      rfl
    have hmm : (l.map (mapE f))[swapTarget (l.map (mapE f)) i]? = some (mapE f em) := by
      rw [swapTarget_map, getElem?_map_entry, hmv]
      rfl
    rw [siftDown_swap hmc hmi hmm (by rw [mapE_key, mapE_key]; exact hlt),
      siftDown_swap hc hiv hmv hlt, swapTarget_map, listSwap_map]
    exact ih
  | case2 l i hc ei em hmv hiv hge =>
    have hmc : 2 * i + 1 < (l.map (mapE f)).length := by
      rw [List.length_map]
      exact hc
    have hmi : (l.map (mapE f))[i]? = some (mapE f ei) := by
      rw [getElem?_map_entry, hiv]
      rfl
    have hmm : (l.map (mapE f))[swapTarget (l.map (mapE f)) i]? = some (mapE f em) := by
      rw [swapTarget_map, getElem?_map_entry, hmv]
      rfl
    rw [siftDown_stop hmc hmi hmm (by rw [mapE_key, mapE_key]; exact hge),
      siftDown_stop hc hiv hmv hge]
  | case3 l i hc habs =>
    exfalso
    have hilt : i < l.length := by omega
    have hm : swapTarget l i < l.length := swapTarget_lt_length l i hc
    exact habs l[i] l[swapTarget l i] (List.getElem?_eq_getElem hilt)
      (List.getElem?_eq_getElem hm)
  | case4 l i hc =>
    have hmc : ¬ 2 * i + 1 < (l.map (mapE f)).length := by
      rw [List.length_map]
      exact hc
    rw [siftDown_nochild hmc, siftDown_nochild hc]

theorem BinaryHeap.deleteMin_map (f : D → D2) (h : BinaryHeap K D) :
    (h.mapData f).deleteMin
      = (((h.deleteMin).1).mapData f, ((h.deleteMin).2).map (mapE f)) := by
  obtain ⟨st⟩ := h
  rcases st with _ | ⟨e0, _ | ⟨e1, rest⟩⟩
  · rfl
  · rfl
  · show (BinaryHeap.mk (siftDown (listSwap ((e0 :: e1 :: rest).map (mapE f)) 0
        (((e0 :: e1 :: rest).map (mapE f)).length - 1)).dropLast 0),
      (listSwap ((e0 :: e1 :: rest).map (mapE f)) 0
        (((e0 :: e1 :: rest).map (mapE f)).length - 1)).getLast?) = _
    rw [List.length_map, listSwap_map, List.getLast?_map, ← List.map_dropLast, siftDown_map]
    rfl

theorem BinaryHeap.decreaseKey_map (f : D → D2) (h : BinaryHeap K D) (ref : Nat) (k : K) :
    (h.mapData f).decreaseKey ref k
      = (h.decreaseKey ref k).map (BinaryHeap.mapData f) := by
  unfold BinaryHeap.decreaseKey
  show (match (h.storage.map (mapE f))[ref]? with
    | none => none
    | some e =>
      some (BinaryHeap.mk (siftUp ((h.storage.map (mapE f)).set ref ⟨k, e.data⟩) ref).1)) = _
  rw [getElem?_map_entry]
  rcases he : h.storage[ref]? with _ | e
  · rfl
  · show some (BinaryHeap.mk
        (siftUp ((h.storage.map (mapE f)).set ref ⟨k, (mapE f e).data⟩) ref).1) = _
    have hset : (h.storage.map (mapE f)).set ref ⟨k, (mapE f e).data⟩
        = (h.storage.set ref ⟨k, e.data⟩).map (mapE f) := by
      rw [List.map_set]
      rfl
    rw [hset, siftUp_map]
    rfl

end MapDataBinary

section MapDataBinomial

universe w2

variable {K : Type u} {D : Type v} {D2 : Type w2} [LinearOrder K]

theorem BinomialTree.merge_map_tree (f : D → D2) (t1 t2 : BinomialTree K D) :
    (t1.merge t2).mapData f = (t1.mapData f).merge (t2.mapData f) := by
  cases t1 with
  | mk r1 c1 =>
    cases t2 with
    | mk r2 c2 =>
      unfold BinomialTree.merge
      rw [BinomialTree.mapData_mk, BinomialTree.mapData_mk]
      simp only [BinomialTree.root_mk, BinomialTree.childs_mk, mapE_key]
      by_cases hgt : r1.key > r2.key
      · rw [if_pos hgt, if_pos hgt, BinomialTree.mapData_mk]
        simp [BinomialTree.mapData_mk]
      · rw [if_neg hgt, if_neg hgt, BinomialTree.mapData_mk]
        simp [BinomialTree.mapData_mk]

theorem carryLoop_none (l : List (Option (BinomialTree K D))) : carryLoop l none = l := by
  cases l with
  | nil => rfl
  | cons x rest => cases x <;> rfl

theorem carryLoop_nil_some (c : BinomialTree K D) : carryLoop [] (some c) = [some c] := rfl

theorem carryLoop_none_cons (rest : List (Option (BinomialTree K D))) (c : BinomialTree K D) :
    carryLoop (none :: rest) (some c) = some c :: rest := rfl

theorem carryLoop_some_cons (t : BinomialTree K D) (rest : List (Option (BinomialTree K D)))
    (c : BinomialTree K D) :
    carryLoop (some t :: rest) (some c) = none :: carryLoop rest (some (t.merge c)) := rfl

theorem carryLoop_map (f : D → D2) (l : List (Option (BinomialTree K D)))
    (c : Option (BinomialTree K D)) :
    carryLoop (l.map (Option.map (BinomialTree.mapData f)))
        (c.map (BinomialTree.mapData f))
      = (carryLoop l c).map (Option.map (BinomialTree.mapData f)) := by
  induction l, c using carryLoop.induct with
  | case1 ranks =>
    show carryLoop _ none = _
    rw [carryLoop_none, carryLoop_none]
  | case2 c =>
    show carryLoop [] (some (c.mapData f)) = _
    rw [carryLoop_nil_some, carryLoop_nil_some]
    rfl
  | case3 rest c =>
    show carryLoop (none :: rest.map (Option.map (BinomialTree.mapData f)))
        (some (c.mapData f)) = _
    rw [carryLoop_none_cons, carryLoop_none_cons]
    rfl
  | case4 t rest c ih =>
    show carryLoop (some (t.mapData f) :: rest.map (Option.map (BinomialTree.mapData f)))
        (some (c.mapData f)) = _
    rw [carryLoop_some_cons, carryLoop_some_cons]
    rw [← BinomialTree.merge_map_tree]
    exact congrArg (fun x => none :: x) ih

theorem mergeRanks_map (f : D → D2) :
    ∀ (self other : List (Option (BinomialTree K D))) (carry : Option (BinomialTree K D)),
    mergeRanks (self.map (Option.map (BinomialTree.mapData f)))
        (other.map (Option.map (BinomialTree.mapData f)))
        (carry.map (BinomialTree.mapData f))
      = (mergeRanks self other carry).map (Option.map (BinomialTree.mapData f)) := by
  intro self other carry
  induction self, other, carry using mergeRanks.induct with
  | case1 selfRanks carry =>
    simp only [List.map_nil]
    rw [mergeRanks, mergeRanks]
    exact carryLoop_map f selfRanks carry
  | case2 hd tl x =>
    simp only [List.map_nil, List.map_cons]
    rw [mergeRanks, mergeRanks]
    rfl
  | case3 s ss o os carry heq ih =>
    simp only [List.map_cons]
    have hmap3 : (Option.map (BinomialTree.mapData f) s).toList
        ++ (Option.map (BinomialTree.mapData f) o).toList
        ++ (Option.map (BinomialTree.mapData f) carry).toList
        = ([] : List (BinomialTree K D2)) := by
      have hbase : (Option.map (BinomialTree.mapData f) s).toList
          ++ (Option.map (BinomialTree.mapData f) o).toList
          ++ (Option.map (BinomialTree.mapData f) carry).toList
          = (s.toList ++ o.toList ++ carry.toList).map (BinomialTree.mapData f) := by
        cases s <;> cases o <;> cases carry <;> simp
      rw [hbase, heq]
      rfl
    have hstepM : mergeRanks (Option.map (BinomialTree.mapData f) s
          :: ss.map (Option.map (BinomialTree.mapData f)))
        (Option.map (BinomialTree.mapData f) o :: os.map (Option.map (BinomialTree.mapData f)))
        (Option.map (BinomialTree.mapData f) carry)
        = none :: mergeRanks (ss.map (Option.map (BinomialTree.mapData f)))
            (os.map (Option.map (BinomialTree.mapData f))) none := by
      rw [mergeRanks, hmap3]
    have hstep : mergeRanks (s :: ss) (o :: os) carry = none :: mergeRanks ss os none := by
      rw [mergeRanks, heq]
    rw [hstepM, hstep]
    simp only [List.map_cons, Option.map_none]
    rw [show (none : Option (BinomialTree K D)).map (BinomialTree.mapData f)
        = none from rfl] at ih
    rw [ih]
    rfl
  | case4 s ss o os carry t heq ih =>
    simp only [List.map_cons]
    have hmap3 : (Option.map (BinomialTree.mapData f) s).toList
        ++ (Option.map (BinomialTree.mapData f) o).toList
        ++ (Option.map (BinomialTree.mapData f) carry).toList
        = [t.mapData f] := by
      have hbase : (Option.map (BinomialTree.mapData f) s).toList
          ++ (Option.map (BinomialTree.mapData f) o).toList
          ++ (Option.map (BinomialTree.mapData f) carry).toList
          = (s.toList ++ o.toList ++ carry.toList).map (BinomialTree.mapData f) := by
        cases s <;> cases o <;> cases carry <;> simp
      rw [hbase, heq]
      rfl
    have hstepM : mergeRanks (Option.map (BinomialTree.mapData f) s
          :: ss.map (Option.map (BinomialTree.mapData f)))
        (Option.map (BinomialTree.mapData f) o :: os.map (Option.map (BinomialTree.mapData f)))
        (Option.map (BinomialTree.mapData f) carry)
        = some (t.mapData f) :: mergeRanks (ss.map (Option.map (BinomialTree.mapData f)))
            (os.map (Option.map (BinomialTree.mapData f))) none := by
      rw [mergeRanks, hmap3]
    have hstep : mergeRanks (s :: ss) (o :: os) carry = some t :: mergeRanks ss os none := by
      rw [mergeRanks, heq]
    rw [hstepM, hstep]
    simp only [List.map_cons, Option.map_some, Option.map_none]
    rw [show (none : Option (BinomialTree K D)).map (BinomialTree.mapData f)
        = none from rfl] at ih
    rw [ih]
    rfl
  | case5 s ss o os carry t1 t2 heq ih =>
    simp only [List.map_cons]
    have hmap3 : (Option.map (BinomialTree.mapData f) s).toList
        ++ (Option.map (BinomialTree.mapData f) o).toList
        ++ (Option.map (BinomialTree.mapData f) carry).toList
        = [t1.mapData f, t2.mapData f] := by
      have hbase : (Option.map (BinomialTree.mapData f) s).toList
          ++ (Option.map (BinomialTree.mapData f) o).toList
          ++ (Option.map (BinomialTree.mapData f) carry).toList
          = (s.toList ++ o.toList ++ carry.toList).map (BinomialTree.mapData f) := by
        cases s <;> cases o <;> cases carry <;> simp
      rw [hbase, heq]
      rfl
    have hstepM : mergeRanks (Option.map (BinomialTree.mapData f) s
          :: ss.map (Option.map (BinomialTree.mapData f)))
        (Option.map (BinomialTree.mapData f) o :: os.map (Option.map (BinomialTree.mapData f)))
        (Option.map (BinomialTree.mapData f) carry)
        = none :: mergeRanks (ss.map (Option.map (BinomialTree.mapData f)))
            (os.map (Option.map (BinomialTree.mapData f)))
            (some ((t1.mapData f).merge (t2.mapData f))) := by
      rw [mergeRanks, hmap3]
    have hstep : mergeRanks (s :: ss) (o :: os) carry
        = none :: mergeRanks ss os (some (t1.merge t2)) := by
      rw [mergeRanks, heq]
    rw [hstepM, hstep]
    simp only [List.map_cons, Option.map_none]
    rw [show (some (t1.merge t2)).map (BinomialTree.mapData f)
        = some ((t1.merge t2).mapData f) from rfl] at ih
    rw [BinomialTree.merge_map_tree] at ih
    rw [ih]
    rfl
  | case6 s ss o os carry t1 t2 t3 tail heq ih =>
    simp only [List.map_cons]
    have hmap3 : (Option.map (BinomialTree.mapData f) s).toList
        ++ (Option.map (BinomialTree.mapData f) o).toList
        ++ (Option.map (BinomialTree.mapData f) carry).toList
        = t1.mapData f :: t2.mapData f :: t3.mapData f :: tail.map (BinomialTree.mapData f) := by
      have hbase : (Option.map (BinomialTree.mapData f) s).toList
          ++ (Option.map (BinomialTree.mapData f) o).toList
          ++ (Option.map (BinomialTree.mapData f) carry).toList
          = (s.toList ++ o.toList ++ carry.toList).map (BinomialTree.mapData f) := by
        cases s <;> cases o <;> cases carry <;> simp
      rw [hbase, heq]
      rfl
    have hstepM : mergeRanks (Option.map (BinomialTree.mapData f) s
          :: ss.map (Option.map (BinomialTree.mapData f)))
        (Option.map (BinomialTree.mapData f) o :: os.map (Option.map (BinomialTree.mapData f)))
        (Option.map (BinomialTree.mapData f) carry)
        = some (t3.mapData f) :: mergeRanks (ss.map (Option.map (BinomialTree.mapData f)))
            (os.map (Option.map (BinomialTree.mapData f)))
            (some ((t1.mapData f).merge (t2.mapData f))) := by
      rw [mergeRanks, hmap3]
    have hstep : mergeRanks (s :: ss) (o :: os) carry
        = some t3 :: mergeRanks ss os (some (t1.merge t2)) := by
      rw [mergeRanks, heq]
    rw [hstepM, hstep]
    simp only [List.map_cons, Option.map_some]
    rw [show (some (t1.merge t2)).map (BinomialTree.mapData f)
        = some ((t1.merge t2).mapData f) from rfl] at ih
    rw [BinomialTree.merge_map_tree] at ih
    rw [ih]
    rfl

theorem BinomialHeap.merge_map (f : D → D2) (A B : BinomialHeap K D) :
    (A.merge B).mapData f = (A.mapData f).merge (B.mapData f) := by
  unfold BinomialHeap.merge BinomialHeap.mapData
  simp only [List.length_map]
  by_cases hlen : B.ranks.length > A.ranks.length
  · rw [if_pos hlen, if_pos hlen]
    show BinomialHeap.mk ((mergeRanks B.ranks A.ranks none).map _) = _
    rw [← mergeRanks_map]
    rfl
  · rw [if_neg hlen, if_neg hlen]
    show BinomialHeap.mk ((mergeRanks A.ranks B.ranks none).map _) = _
    rw [← mergeRanks_map]
    rfl

theorem BinomialHeap.insert_mapN (f : D → D2) (h : BinomialHeap K D) (e : HeapEntry K D) :
    (h.insert e).mapData f = (h.mapData f).insert (mapE f e) := by
  unfold BinomialHeap.insert
  rw [BinomialHeap.merge_map]
  congr 1
  show BinomialHeap.mk _ = BinomialHeap.mk _
  congr 1
  simp [BinomialHeap.mapData, BinomialTree.mapData_mk]

theorem selectMin_nil (idx : Nat) (best : Option (Nat × K)) :
    selectMin ([] : List (Option (BinomialTree K D))) idx best = best := rfl

theorem selectMin_cons_none (rest : List (Option (BinomialTree K D))) (idx : Nat)
    (best : Option (Nat × K)) :
    selectMin (none :: rest) idx best = selectMin rest (idx + 1) best := rfl

theorem selectMin_cons_some_none (t : BinomialTree K D)
    (rest : List (Option (BinomialTree K D))) (idx : Nat) :
    selectMin (some t :: rest) idx none
      = selectMin rest (idx + 1) (some (idx, t.root.key)) := rfl

theorem selectMin_cons_some_some (t : BinomialTree K D)
    (rest : List (Option (BinomialTree K D))) (idx j : Nat) (k : K) :
    selectMin (some t :: rest) idx (some (j, k))
      = selectMin rest (idx + 1)
          (if t.root.key < k then some (idx, t.root.key) else some (j, k)) := rfl

theorem selectMin_map (f : D → D2) :
    ∀ (l : List (Option (BinomialTree K D))) (idx : Nat) (best : Option (Nat × K)),
    selectMin (l.map (Option.map (BinomialTree.mapData f))) idx best
      = selectMin l idx best := by
  intro l
  induction l with
  | nil =>
    intro idx best
    rfl
  | cons x rest ih =>
    intro idx best
    cases x with
    | none =>
      show selectMin (none :: rest.map (Option.map (BinomialTree.mapData f))) idx best = _
      rw [selectMin_cons_none, selectMin_cons_none]
      exact ih (idx + 1) best
    | some t =>
      show selectMin (some (t.mapData f) :: rest.map (Option.map (BinomialTree.mapData f)))
          idx best = _
      cases best with
      | none =>
        rw [selectMin_cons_some_none, selectMin_cons_some_none]
        simp only [BinomialTree.mapData_root, mapE_key]
        exact ih (idx + 1) _
      | some p =>
        rcases p with ⟨j, k⟩
        rw [selectMin_cons_some_some, selectMin_cons_some_some]
        simp only [BinomialTree.mapData_root, mapE_key]
        exact ih (idx + 1) _

theorem BinomialHeap.deleteMin_mapN (f : D → D2) (h : BinomialHeap K D) :
    (h.mapData f).deleteMin
      = (((h.deleteMin).1).mapData f, ((h.deleteMin).2).map (mapE f)) := by
  unfold BinomialHeap.deleteMin
  show (match selectMin (h.ranks.map (Option.map (BinomialTree.mapData f))) 0 none with
    | none => (h.mapData f, none)
    | some (minRank, _) =>
      match (h.ranks.map (Option.map (BinomialTree.mapData f)))[minRank]? with
      | some (some t) =>
        (BinomialHeap.merge ⟨(h.ranks.map (Option.map (BinomialTree.mapData f))).set minRank none⟩
          ⟨t.childs.map some⟩, some t.root)
      | _ => (h.mapData f, none)) = _
  rw [selectMin_map]
  rcases hsel : selectMin h.ranks 0 none with _ | ⟨r, k⟩
  · rfl
  · dsimp only
    rw [List.getElem?_map]
    rcases hr : h.ranks[r]? with _ | x
    · rfl
    · cases x with
      | none => rfl
      | some t =>
        show (BinomialHeap.merge
            ⟨(h.ranks.map (Option.map (BinomialTree.mapData f))).set r none⟩
            ⟨(t.mapData f).childs.map some⟩, some (t.mapData f).root)
          = _
        rw [BinomialHeap.merge_map]
        have hset : (h.ranks.map (Option.map (BinomialTree.mapData f))).set r none
            = (h.ranks.set r none).map (Option.map (BinomialTree.mapData f)) := by
          rw [List.map_set]
          rfl
        have hchilds : (t.mapData f).childs.map some
            = (t.childs.map some).map (Option.map (BinomialTree.mapData f)) := by
          cases t with
          | mk rt cs =>
            rw [BinomialTree.mapData_mk]
            simp
        rw [hset, hchilds, BinomialTree.mapData_root]
        rfl

end MapDataBinomial

section MapDataRandomized

universe w2

variable {K : Type u} {D : Type v} {D2 : Type w2} [LinearOrder K]

theorem meld_empty_left (other : RandomizedMeldableHeap K D) (s : CoinStream) :
    RandomizedMeldableHeap.meld .empty other s = (other, s) := by
  rw [RandomizedMeldableHeap.meld]

theorem meld_empty_right (v : HeapEntry K D) (l r : RandomizedMeldableHeap K D)
    (s : CoinStream) :
    (RandomizedMeldableHeap.node v l r).meld .empty s = (.node v l r, s) := by
  rw [RandomizedMeldableHeap.meld]

theorem meld_swap_right {v w : HeapEntry K D} {l r l2 r2 : RandomizedMeldableHeap K D}
    {s : CoinStream} (hgt : v.key > w.key) (hcoin : s 0 = true) :
    (RandomizedMeldableHeap.node v l r).meld (.node w l2 r2) s
      = (.node w l2 ((RandomizedMeldableHeap.meld r2 (.node v l r) (fun n => s (n + 1))).1),
         (RandomizedMeldableHeap.meld r2 (.node v l r) (fun n => s (n + 1))).2) := by
  rw [RandomizedMeldableHeap.meld, if_pos hgt, if_pos hcoin]

theorem meld_swap_left {v w : HeapEntry K D} {l r l2 r2 : RandomizedMeldableHeap K D}
    {s : CoinStream} (hgt : v.key > w.key) (hcoin : ¬ s 0 = true) :
    (RandomizedMeldableHeap.node v l r).meld (.node w l2 r2) s
      = (.node w ((RandomizedMeldableHeap.meld l2 (.node v l r) (fun n => s (n + 1))).1) r2,
         (RandomizedMeldableHeap.meld l2 (.node v l r) (fun n => s (n + 1))).2) := by
  rw [RandomizedMeldableHeap.meld, if_pos hgt, if_neg hcoin]

theorem meld_noswap_right {v w : HeapEntry K D} {l r l2 r2 : RandomizedMeldableHeap K D}
    {s : CoinStream} (hgt : ¬ v.key > w.key) (hcoin : s 0 = true) :
    (RandomizedMeldableHeap.node v l r).meld (.node w l2 r2) s
      = (.node v l ((RandomizedMeldableHeap.meld r (.node w l2 r2) (fun n => s (n + 1))).1),
         (RandomizedMeldableHeap.meld r (.node w l2 r2) (fun n => s (n + 1))).2) := by
  rw [RandomizedMeldableHeap.meld, if_neg hgt, if_pos hcoin]

theorem meld_noswap_left {v w : HeapEntry K D} {l r l2 r2 : RandomizedMeldableHeap K D}
    {s : CoinStream} (hgt : ¬ v.key > w.key) (hcoin : ¬ s 0 = true) :
    (RandomizedMeldableHeap.node v l r).meld (.node w l2 r2) s
      = (.node v ((RandomizedMeldableHeap.meld l (.node w l2 r2) (fun n => s (n + 1))).1) r,
         (RandomizedMeldableHeap.meld l (.node w l2 r2) (fun n => s (n + 1))).2) := by
  rw [RandomizedMeldableHeap.meld, if_neg hgt, if_neg hcoin]

theorem RandomizedMeldableHeap.meld_map (f : D → D2)
    (a b : RandomizedMeldableHeap K D) (s : CoinStream) :
    (a.mapData f).meld (b.mapData f) s
      = ((a.meld b s).1.mapData f, (a.meld b s).2) := by
  induction a, b, s using RandomizedMeldableHeap.meld.induct with
  | case1 other s =>
    show RandomizedMeldableHeap.meld .empty (other.mapData f) s = _
    rw [meld_empty_left, meld_empty_left]
  | case2 v l r s =>
    show RandomizedMeldableHeap.meld (.node (mapE f v) (l.mapData f) (r.mapData f)) .empty s = _
    rw [meld_empty_right, meld_empty_right]
    rfl
  | case3 v l r w l2 r2 s hgt hcoin ih =>
    show RandomizedMeldableHeap.meld (.node (mapE f v) (l.mapData f) (r.mapData f))
        (.node (mapE f w) (l2.mapData f) (r2.mapData f)) s = _
    rw [meld_swap_right (by rw [mapE_key, mapE_key]; exact hgt) hcoin,
      meld_swap_right hgt hcoin]
    rw [show RandomizedMeldableHeap.node (mapE f v) (l.mapData f) (r.mapData f)
        = (RandomizedMeldableHeap.node v l r).mapData f from rfl]
    rw [ih]
    rfl
  | case4 v l r w l2 r2 s hgt hcoin ih =>
    show RandomizedMeldableHeap.meld (.node (mapE f v) (l.mapData f) (r.mapData f))
        (.node (mapE f w) (l2.mapData f) (r2.mapData f)) s = _
    rw [meld_swap_left (by rw [mapE_key, mapE_key]; exact hgt) hcoin,
      meld_swap_left hgt hcoin]
    rw [show RandomizedMeldableHeap.node (mapE f v) (l.mapData f) (r.mapData f)
        = (RandomizedMeldableHeap.node v l r).mapData f from rfl]
    rw [ih]
    rfl
  | case5 v l r w l2 r2 s hgt hcoin ih =>
    show RandomizedMeldableHeap.meld (.node (mapE f v) (l.mapData f) (r.mapData f))
        (.node (mapE f w) (l2.mapData f) (r2.mapData f)) s = _
    rw [meld_noswap_right (by rw [mapE_key, mapE_key]; exact hgt) hcoin,
      meld_noswap_right hgt hcoin]
    rw [show RandomizedMeldableHeap.node (mapE f w) (l2.mapData f) (r2.mapData f)
        = (RandomizedMeldableHeap.node w l2 r2).mapData f from rfl]
    rw [ih]
    rfl
  | case6 v l r w l2 r2 s hgt hcoin ih =>
    show RandomizedMeldableHeap.meld (.node (mapE f v) (l.mapData f) (r.mapData f))
        (.node (mapE f w) (l2.mapData f) (r2.mapData f)) s = _
    rw [meld_noswap_left (by rw [mapE_key, mapE_key]; exact hgt) hcoin,
      meld_noswap_left hgt hcoin]
    rw [show RandomizedMeldableHeap.node (mapE f w) (l2.mapData f) (r2.mapData f)
        = (RandomizedMeldableHeap.node w l2 r2).mapData f from rfl]
    rw [ih]
    rfl

theorem RandomizedMeldableHeap.insert_mapR (f : D → D2) (h : RandomizedMeldableHeap K D)
    (e : HeapEntry K D) (s : CoinStream) :
    (h.mapData f).insert (mapE f e) s
      = ((h.insert e s).1.mapData f, (h.insert e s).2) := by
  unfold RandomizedMeldableHeap.insert
  rw [show RandomizedMeldableHeap.node (mapE f e) .empty .empty
      = (RandomizedMeldableHeap.node e .empty .empty).mapData f from rfl]
  exact RandomizedMeldableHeap.meld_map f h (.node e .empty .empty) s

theorem RandomizedMeldableHeap.deleteMin_mapR (f : D → D2)
    (h : RandomizedMeldableHeap K D) (s : CoinStream) :
    (h.mapData f).deleteMin s
      = ((h.deleteMin s).1.mapData f, (h.deleteMin s).2.1,
         (h.deleteMin s).2.2.map (mapE f)) := by
  cases h with
  | empty => rfl
  | node v l r =>
    show ((RandomizedMeldableHeap.meld (l.mapData f) (r.mapData f) s).1,
        (RandomizedMeldableHeap.meld (l.mapData f) (r.mapData f) s).2,
        some (mapE f v)) = _
    rw [RandomizedMeldableHeap.meld_map]
    rfl

end MapDataRandomized

section AccessSafety

variable {K : Type u} {D : Type v} [LinearOrder K]

theorem siftUpAccessesOK_of_lt : ∀ (i : Nat) (l : List (HeapEntry K D)), i < l.length →
    siftUpAccessesOK l i := by
  intro i
  induction i using Nat.strong_induction_on with
  | _ i ih =>
    intro l hi
    rw [siftUpAccessesOK.eq_def]
    split
    · trivial
    next hi0 =>
      refine ⟨hi, by omega, ?_⟩
      split
      next ei ep hei hep =>
        split
        · refine ih ((i - 1) / 2) (by omega) _ ?_
          rw [listSwap_length]
          omega
        · trivial
      · trivial

end AccessSafety

section ClaimHelpers

variable {K : Type u} {D : Type v} [LinearOrder K]

theorem BinaryHeap.deleteMin_inv (h : BinaryHeap K D) (hinv : heapInv h.storage) :
    heapInv ((h.deleteMin).1).storage := by
  by_cases hne : h.storage = []
  · obtain ⟨st⟩ := h
    simp only at hne
    subst hne
    intro i hi _
    simp [BinaryHeap.deleteMin] at hi
  · obtain ⟨e, h2, hdel, hinv2, _, _⟩ := BinaryHeap.deleteMin_spec h hinv hne
    rw [hdel]
    exact hinv2

theorem BinaryHeap.deleteMin_min (h : BinaryHeap K D) (hinv : heapInv h.storage)
    (e2 : HeapEntry K D) (h2 : BinaryHeap K D) (hdel : h.deleteMin = (h2, some e2)) :
    ∀ x ∈ h.entries, e2.key ≤ x.key := by
  by_cases hne : h.storage = []
  · obtain ⟨st⟩ := h
    simp only at hne
    subst hne
    have hemp : BinaryHeap.deleteMin (K := K) (D := D) ⟨[]⟩ = (⟨[]⟩, none) := rfl
    rw [hemp] at hdel
    simp at hdel
  · obtain ⟨e, h2x, hdelx, _, _, hmin⟩ := BinaryHeap.deleteMin_spec h hinv hne
    rw [hdel] at hdelx
    have he : some e2 = some e := congrArg Prod.snd hdelx
    injection he with he
    rw [he]
    exact hmin

theorem BinomialHeap.deleteMin_heapOrd (h : BinomialHeap K D)
    (hord : ranksHeapOrd h.ranks) : ranksHeapOrd (((h.deleteMin).1)).ranks := by
  unfold BinomialHeap.deleteMin
  rcases hsel : selectMin h.ranks 0 none with _ | ⟨r, k⟩
  · exact hord
  · dsimp only
    rcases hr : h.ranks[r]? with _ | x
    · exact hord
    · rcases x with _ | t
      · exact hord
      · exact BinomialHeap.merge_heapOrd (ranksHeapOrd_set_none hord)
          (childsRanks_heapOrd (hord r t hr))

theorem BinomialHeap.deleteMin_minN (h : BinomialHeap K D) (hord : ranksHeapOrd h.ranks)
    (e2 : HeapEntry K D) (h2 : BinomialHeap K D) (hdel : h.deleteMin = (h2, some e2)) :
    ∀ x ∈ h.entries, e2.key ≤ x.key := by
  unfold BinomialHeap.deleteMin at hdel
  rcases hsel : selectMin h.ranks 0 none with _ | ⟨r, k⟩
  · rw [hsel] at hdel
    simp at hdel
  · rw [hsel] at hdel
    dsimp only at hdel
    obtain ⟨hb, _, h3⟩ := selectMin_result h.ranks 0 none (r, k) hsel
    rcases hb with hb | ⟨i, t2, hit2, hq⟩
    · cases hb
    · rcases hr : h.ranks[r]? with _ | x
      · rw [hr] at hdel
        simp at hdel
      · rcases x with _ | t
        · rw [hr] at hdel
          simp at hdel
        · rw [hr] at hdel
          dsimp only at hdel
          have hri : r = i ∧ k = t2.root.key := by
            rw [Prod.mk.injEq] at hq
            exact ⟨by omega, hq.2⟩
          obtain ⟨hri, hkq⟩ := hri
          subst hri
          rw [hr] at hit2
          injection hit2 with hit2
          injection hit2 with hit2
          have he : some t.root = some e2 := congrArg Prod.snd hdel
          injection he with he
          intro x hx
          obtain ⟨j, t3, hjt3, hxt3⟩ := mem_ranksEntries hx
          have h1 : k ≤ t3.root.key := h3 j t3 hjt3
          have h2x : t3.root.key ≤ x.key := (hord j t3 hjt3).root_le.2 x hxt3
          rw [← he, hit2, ← hkq]
          exact le_trans h1 h2x

theorem RandomizedMeldableHeap.deleteMin_heapOrdR (h : RandomizedMeldableHeap K D)
    (s : CoinStream) (hord : RMHeapOrd h) : RMHeapOrd ((h.deleteMin s).1) := by
  cases h with
  | empty => exact True.intro
  | node v l r => exact (RandomizedMeldableHeap.meld_heapOrd l r s hord.1 hord.2.1).1

theorem RandomizedMeldableHeap.deleteMin_minR (h : RandomizedMeldableHeap K D)
    (s : CoinStream) (hord : RMHeapOrd h) (e2 : HeapEntry K D)
    (h2 : RandomizedMeldableHeap K D) (s2 : CoinStream)
    (hdel : h.deleteMin s = (h2, s2, some e2)) :
    ∀ x ∈ h.entries, e2.key ≤ x.key := by
  cases h with
  | empty => simp [RandomizedMeldableHeap.deleteMin] at hdel
  | node v l r =>
    have hv : some v = some e2 := congrArg (fun p => p.2.2) hdel
    injection hv with hv
    intro x hx
    rw [← hv]
    exact RMHeapOrd.le_of_mem (RandomizedMeldableHeap.node v l r) hord x hx v.key (le_refl _)

end ClaimHelpers

section ScenarioHelpers

unseal siftUp siftDown in
theorem decreaseKey_scenario :
    Option.map (fun h2 => popKeys (popsB 2 ((h2.insert ⟨1, ()⟩).1)))
      (((BinaryHeap.mk ([] : List (HeapEntry Nat Unit))).insert ⟨10, ()⟩).1.decreaseKey
        (((BinaryHeap.mk ([] : List (HeapEntry Nat Unit))).insert ⟨10, ()⟩).2) 2)
    = some [1, 2] := by decide

end ScenarioHelpers

section ClaimTheorems

universe w2

variable {K : Type u} {D : Type v} {D2 : Type w2} [LinearOrder K]

/-- Claim C4: on the binary heap, decreasing the key of a live entry (reference
`ref` holding entry `e`, new key `k ≤ e.key`) succeeds, preserves the heap-order
invariant, replaces exactly that entry by one with the new key and the same
payload (which remains stored and retrievable), and when the new key is strictly
below every other stored key, the next `delete_min` returns exactly that entry.
Moreover, the concrete scenario insert 10 / decrease to 2 / insert 1 extracts
keys 1 then 2. -/
theorem spec_C4_decrease_key (h : BinaryHeap K D) (ref : Nat) (k : K)
    (e : HeapEntry K D) (hinv : heapInv h.storage)
    (he : h.storage[ref]? = some e) (hk : k ≤ e.key) :
    (∃ h2 : BinaryHeap K D, h.decreaseKey ref k = some h2 ∧
      heapInv h2.storage ∧
      e ::ₘ h2.entries = (⟨k, e.data⟩ : HeapEntry K D) ::ₘ h.entries ∧
      (⟨k, e.data⟩ : HeapEntry K D) ∈ h2.entries ∧
      ((∀ x ∈ h2.entries, x = (⟨k, e.data⟩ : HeapEntry K D) ∨ k < x.key) →
        ((h2.deleteMin).2) = some (⟨k, e.data⟩ : HeapEntry K D))) ∧
    Option.map (fun h2 => popKeys (popsB 2 ((h2.insert ⟨1, ()⟩).1)))
      (((BinaryHeap.mk ([] : List (HeapEntry Nat Unit))).insert ⟨10, ()⟩).1.decreaseKey
        (((BinaryHeap.mk ([] : List (HeapEntry Nat Unit))).insert ⟨10, ()⟩).2) 2)
    = some [1, 2] := by
  refine ⟨?_, decreaseKey_scenario⟩
  obtain ⟨h2, hdec, hinv2, hent, r, hrlen, hrv⟩ :=
    BinaryHeap.decreaseKey_spec h ref k e hinv he hk
  have hmem : (⟨k, e.data⟩ : HeapEntry K D) ∈ h2.entries :=
    Multiset.mem_coe.mpr (List.getElem?_mem hrv)
  refine ⟨h2, hdec, hinv2, hent, hmem, ?_⟩
  intro hstrict
  have hne : h2.storage ≠ [] := by
    intro hc
    rw [show h2.entries = (↑h2.storage : Multiset (HeapEntry K D)) from rfl, hc] at hmem
    cases hmem
  obtain ⟨e2, h3, hdel, _, hent3, hmin⟩ := BinaryHeap.deleteMin_spec h2 hinv2 hne
  have hmem2 : e2 ∈ h2.entries := by
    rw [← hent3]
    exact Multiset.mem_cons_self _ _
  have heq : e2 = (⟨k, e.data⟩ : HeapEntry K D) := by
    rcases hstrict e2 hmem2 with hq | hlt
    · exact hq
    · exact absurd (hmin _ hmem) (by simp only [not_le]; exact hlt)
  rw [hdel, heq]

/-- Claim C6: in the binary heap sift-down, when the current node has two
children with equal keys, the swap candidate (`max_index` in the source) is
the child at the lower array index. -/
theorem spec_C6_tie_lower_index (l : List (HeapEntry K D)) (i : Nat)
    (c1 c2 : HeapEntry K D) (h1 : l[2 * i + 1]? = some c1)
    (h2 : l[2 * i + 1 + 1]? = some c2) (hlen : 2 * i + 1 + 1 < l.length)
    (heq : c1.key = c2.key) :
    swapTarget l i = 2 * i + 1 := by
  unfold swapTarget
  rw [if_pos hlen]
  unfold minChildIndex
  rw [if_neg (by omega), h1, h2]
  dsimp only
  rw [if_neg (by rw [heq]; exact lt_irrefl _)]

/-- Claim C7: `BinaryHeap::insert` appends the entry and sifts it up by
strict-key swaps only: the entry is stored at the returned index, the entry
multiset grows by exactly that entry, the parent of a non-root resting index
has key at most the inserted key, and when the appended entry's parent
already has key at most the new key (in particular on key ties) the entry
does not move: the returned index is the appended position. -/
theorem spec_C7_insert_resting_index (h : BinaryHeap K D) (e : HeapEntry K D)
    (hinv : heapInv h.storage) :
    (h.insert e).1.storage[(h.insert e).2]? = some e ∧
    (h.insert e).1.entries = e ::ₘ h.entries ∧
    ((h.insert e).2 ≠ 0 →
      ∃ ep : HeapEntry K D,
        (h.insert e).1.storage[((h.insert e).2 - 1) / 2]? = some ep ∧ ep.key ≤ e.key) ∧
    (∀ ep : HeapEntry K D, h.storage[(h.storage.length - 1) / 2]? = some ep →
      ep.key ≤ e.key → (h.insert e).2 = h.storage.length) := by
  obtain ⟨hinv2, hent, hsv, hlt⟩ := BinaryHeap.insert_spec h e hinv
  refine ⟨hsv, hent, ?_, ?_⟩
  · intro h0
    obtain ⟨ep, hep⟩ : ∃ ep, (h.insert e).1.storage[((h.insert e).2 - 1) / 2]? = some ep :=
      ⟨_, List.getElem?_eq_getElem (by omega)⟩
    refine ⟨ep, hep, ?_⟩
    have := hinv2 (h.insert e).2 hlt h0
    rw [hep, hsv] at this
    exact this
  · intro ep hep hk
    show (BinaryHeap.insert h e).2 = h.storage.length
    unfold BinaryHeap.insert
    dsimp only
    have hlen : (h.storage ++ [e]).length - 1 = h.storage.length := by simp
    rw [hlen]
    by_cases hn0 : h.storage.length = 0
    · rw [hn0, siftUp_zero]
    · have he2 : (h.storage ++ [e])[h.storage.length]? = some e :=
        List.getElem?_concat_length h.storage e
      have hp2 : (h.storage ++ [e])[(h.storage.length - 1) / 2]? = some ep := by
        rw [List.getElem?_append_left (by omega)]
        exact hep
      rw [siftUp_stop hn0 he2 hp2 (not_lt.mpr hk)]

/-- Claim C8: extract-min on an empty heap of any variant (in particular a
freshly constructed one, and for the randomized variant under any coin
stream) returns `none` and leaves the heap unchanged. -/
theorem spec_C8_empty_extract (s : CoinStream) :
    BinaryHeap.deleteMin (K := K) (D := D) ⟨[]⟩ = (⟨[]⟩, none) ∧
    BinomialHeap.deleteMin (K := K) (D := D) ⟨[]⟩ = (⟨[]⟩, none) ∧
    RandomizedMeldableHeap.deleteMin (K := K) (D := D) .empty s = (.empty, s, none) ∧
    (∀ h : BinaryHeap K D, h.entries = 0 → h.deleteMin = (h, none)) ∧
    (∀ h : BinomialHeap K D, h.entries = 0 → h.deleteMin = (h, none)) := by
  refine ⟨rfl, rfl, rfl, ?_, ?_⟩
  · intro h hz
    obtain ⟨st⟩ := h
    have hnil : st = [] := by
      have hcz : ((st : List (HeapEntry K D)) : Multiset (HeapEntry K D)) = 0 := hz
      rwa [Multiset.coe_eq_zero] at hcz
    subst hnil
    rfl
  · intro h hz
    exact BinomialHeap.deleteMin_none h hz

/-- Claim C9: no operation of any variant inspects the payload: relabelling
all payloads by an arbitrary function `f` commutes with every operation of
every variant — the relabelled run produces the relabelled structure (entries
in identical positions with identical keys), the same returned reference, and
extracted entries carrying the relabelled original payloads. -/
theorem spec_C9_payload_opaque (f : D → D2) (h : BinaryHeap K D)
    (e : HeapEntry K D) (ref : Nat) (k : K) (nh nh2 : BinomialHeap K D)
    (rh rh2 : RandomizedMeldableHeap K D) (s : CoinStream) :
    ((h.mapData f).insert (mapE f e) = (((h.insert e).1).mapData f, (h.insert e).2)) ∧
    ((h.mapData f).deleteMin
      = (((h.deleteMin).1).mapData f, ((h.deleteMin).2).map (mapE f))) ∧
    ((h.mapData f).decreaseKey ref k = (h.decreaseKey ref k).map (BinaryHeap.mapData f)) ∧
    ((nh.insert e).mapData f = (nh.mapData f).insert (mapE f e)) ∧
    ((nh.merge nh2).mapData f = (nh.mapData f).merge (nh2.mapData f)) ∧
    ((nh.mapData f).deleteMin
      = (((nh.deleteMin).1).mapData f, ((nh.deleteMin).2).map (mapE f))) ∧
    ((rh.mapData f).insert (mapE f e) s
      = ((rh.insert e s).1.mapData f, (rh.insert e s).2)) ∧
    ((rh.mapData f).meld (rh2.mapData f) s
      = ((rh.meld rh2 s).1.mapData f, (rh.meld rh2 s).2)) ∧
    ((rh.mapData f).deleteMin s
      = ((rh.deleteMin s).1.mapData f, (rh.deleteMin s).2.1,
         (rh.deleteMin s).2.2.map (mapE f))) :=
  ⟨BinaryHeap.insert_map f h e, BinaryHeap.deleteMin_map f h,
   BinaryHeap.decreaseKey_map f h ref k, BinomialHeap.insert_mapN f nh e,
   BinomialHeap.merge_map f nh nh2, BinomialHeap.deleteMin_mapN f nh,
   RandomizedMeldableHeap.insert_mapR f rh e s,
   RandomizedMeldableHeap.meld_map f rh rh2 s,
   RandomizedMeldableHeap.deleteMin_mapR f rh s⟩

/-- Claim C10: `BinaryHeap::decrease_key` writes through the given index
unchecked: on a live index every array access of the whole operation
(including every parent index visited by the sift-up) is in bounds and the
operation succeeds, while an out-of-bounds index faults on the very first
access, before any mutation (modelled by `none` with the heap unchanged). -/
theorem spec_C10_decrease_key_bounds (h : BinaryHeap K D) (ref : Nat) (k : K) :
    (∀ e : HeapEntry K D, h.storage[ref]? = some e →
      (h.decreaseKey ref k).isSome = true ∧
      siftUpAccessesOK (h.storage.set ref ⟨k, e.data⟩) ref) ∧
    (h.storage.length ≤ ref → h.decreaseKey ref k = none) := by
  constructor
  · intro e he
    constructor
    · unfold BinaryHeap.decreaseKey
      rw [he]
      rfl
    · refine siftUpAccessesOK_of_lt ref _ ?_
      rw [List.length_set]
      exact lt_length_of_getElem? he
  · intro hle
    unfold BinaryHeap.decreaseKey
    rw [List.getElem?_eq_none hle]

end ClaimTheorems

section ClaimTheorems2

variable {K : Type u} {D : Type v} [LinearOrder K]

/-- Claim C2: every operation of every variant preserves that variant's
min-heap order invariant (binary array parent order, binomial tree order,
randomized meldable node-vs-children order, the latter two for every tree
in the structure and every coin outcome), decrease-key under its
`new_key ≤ current key` precondition included; consequently no stored key is
smaller than the key returned by extract-min. -/
theorem spec_C2_invariants_preserved (bh : BinaryHeap K D) (e : HeapEntry K D)
    (ref : Nat) (k : K) (nh nh2 : BinomialHeap K D)
    (rh rh2 : RandomizedMeldableHeap K D) (s : CoinStream)
    (hb : heapInv bh.storage) (hn : ranksHeapOrd nh.ranks)
    (hn2 : ranksHeapOrd nh2.ranks) (hr : RMHeapOrd rh) (hr2 : RMHeapOrd rh2) :
    heapInv (bh.insert e).1.storage ∧
    heapInv ((bh.deleteMin).1).storage ∧
    (∀ e0 : HeapEntry K D, bh.storage[ref]? = some e0 → k ≤ e0.key →
      ∀ bh2 : BinaryHeap K D, bh.decreaseKey ref k = some bh2 → heapInv bh2.storage) ∧
    ranksHeapOrd ((nh.insert e)).ranks ∧
    ranksHeapOrd (((nh.deleteMin).1)).ranks ∧
    ranksHeapOrd ((nh.merge nh2)).ranks ∧
    RMHeapOrd ((rh.insert e s).1) ∧
    RMHeapOrd ((rh.deleteMin s).1) ∧
    RMHeapOrd ((rh.meld rh2 s).1) ∧
    (∀ (eb : HeapEntry K D) (bh2 : BinaryHeap K D), bh.deleteMin = (bh2, some eb) →
      ∀ x ∈ bh.entries, eb.key ≤ x.key) ∧
    (∀ (en : HeapEntry K D) (nh3 : BinomialHeap K D), nh.deleteMin = (nh3, some en) →
      ∀ x ∈ nh.entries, en.key ≤ x.key) ∧
    (∀ (er : HeapEntry K D) (rh3 : RandomizedMeldableHeap K D) (s2 : CoinStream),
      rh.deleteMin s = (rh3, s2, some er) → ∀ x ∈ rh.entries, er.key ≤ x.key) := by
  refine ⟨(BinaryHeap.insert_spec bh e hb).1, BinaryHeap.deleteMin_inv bh hb, ?_,
    BinomialHeap.insert_heapOrd hn, BinomialHeap.deleteMin_heapOrd nh hn,
    BinomialHeap.merge_heapOrd hn hn2,
    RandomizedMeldableHeap.insert_heapOrdR hr,
    RandomizedMeldableHeap.deleteMin_heapOrdR rh s hr,
    (RandomizedMeldableHeap.meld_heapOrd rh rh2 s hr hr2).1,
    ?_, ?_, ?_⟩
  · intro e0 he0 hk0 bh2 hdec
    obtain ⟨bh2x, hdecx, hinv2, _, _⟩ := BinaryHeap.decreaseKey_spec bh ref k e0 hb he0 hk0
    rw [hdec] at hdecx
    injection hdecx with hx
    rw [hx]
    exact hinv2
  · intro eb bh2 hdel
    exact BinaryHeap.deleteMin_min bh hb eb bh2 hdel
  · intro en nh3 hdel
    exact BinomialHeap.deleteMin_minN nh hn en nh3 hdel
  · intro er rh3 s2 hdel
    exact RandomizedMeldableHeap.deleteMin_minR rh s hr er rh3 s2 hdel

/-- Claim C3: merging two valid binomial heaps (heap-ordered trees, the slot
at rank `r` holding only trees of rank `r`, hence of `2^r` nodes each)
yields a valid binomial heap whose entry count is the sum `a + b` of the two
entry counts, whose minimum root key is `min` of the two minima when both
heaps are non-empty, and whose occupied ranks are exactly the set bits of
the binary representation of `a + b` (carries propagated through and past
the ends of both rank sequences). -/
theorem spec_C3_binomial_merge (A B : BinomialHeap K D)
    (hAo : ranksHeapOrd A.ranks) (hAv : ranksValid 0 A.ranks)
    (hBo : ranksHeapOrd B.ranks) (hBv : ranksValid 0 B.ranks) :
    ranksHeapOrd ((A.merge B)).ranks ∧
    ranksValid 0 ((A.merge B)).ranks ∧
    Multiset.card (A.merge B).entries
      = Multiset.card A.entries + Multiset.card B.entries ∧
    (∀ kA kB : K, isMinRootKey A kA → isMinRootKey B kB →
      isMinRootKey (A.merge B) (min kA kB)) ∧
    (∀ i : Nat, (∃ t : BinomialTree K D, ((A.merge B)).ranks[i]? = some (some t))
      ↔ (Multiset.card A.entries + Multiset.card B.entries).testBit i) := by
  have hord := BinomialHeap.merge_heapOrd hAo hBo
  have hvalid := BinomialHeap.merge_valid hAv hBv
  have hent := BinomialHeap.merge_entries A B
  have hcard : Multiset.card (A.merge B).entries
      = Multiset.card A.entries + Multiset.card B.entries := by
    rw [hent, Multiset.card_add]
  refine ⟨hord, hvalid, hcard, ?_, ?_⟩
  · intro kA kB hkA hkB
    rw [isMinRootKey_iff_isMinKey hord]
    rw [isMinRootKey_iff_isMinKey hAo] at hkA
    rw [isMinRootKey_iff_isMinKey hBo] at hkB
    obtain ⟨hAm, hAmin⟩ := hkA
    obtain ⟨hBm, hBmin⟩ := hkB
    have hmap : (A.merge B).entries.map HeapEntry.key
        = A.entries.map HeapEntry.key + B.entries.map HeapEntry.key := by
      rw [hent, Multiset.map_add]
    constructor
    · rw [hmap, Multiset.mem_add]
      rcases le_total kA kB with hle | hle
      · rw [min_eq_left hle]
        exact Or.inl hAm
      · rw [min_eq_right hle]
        exact Or.inr hBm
    · intro x hx
      rw [hmap, Multiset.mem_add] at hx
      rcases hx with hx | hx
      · exact le_trans (min_le_left kA kB) (hAmin x hx)
      · exact le_trans (min_le_right kA kB) (hBmin x hx)
  · intro i
    rw [← hcard]
    exact ranksValid_occupancy (A.merge B).ranks hvalid i

/-- Claim C5: for every list of entries and every variant (and, for the
randomized variant, every coin stream used for building and every coin
stream used for popping), inserting the `n` entries into a fresh heap and
then calling extract-min `n + 1` times yields `some` on each of the first
`n` calls and `none` on the last. -/
theorem spec_C5_size_conservation (es1 es2 es3 : List (HeapEntry K D))
    (sB sP : CoinStream) :
    (∀ i, i < es1.length →
      ∃ e : HeapEntry K D, (popsB (es1.length + 1) (buildB es1))[i]? = some (some e)) ∧
    (popsB (es1.length + 1) (buildB es1))[es1.length]? = some none ∧
    (∀ i, i < es2.length →
      ∃ e : HeapEntry K D, (popsN (es2.length + 1) (buildN es2))[i]? = some (some e)) ∧
    (popsN (es2.length + 1) (buildN es2))[es2.length]? = some none ∧
    (∀ i, i < es3.length →
      ∃ e : HeapEntry K D,
        (popsR (es3.length + 1) (buildR es3 sB).1 sP)[i]? = some (some e)) ∧
    (popsR (es3.length + 1) (buildR es3 sB).1 sP)[es3.length]? = some none := by
  obtain ⟨hBinv, hBent⟩ := buildB_spec es1
  obtain ⟨hNord, hNvalid, hNent⟩ := buildN_spec es2
  obtain ⟨hRord, hRent⟩ := buildR_spec es3 sB
  have hBcard : Multiset.card (buildB es1).entries = es1.length := by
    rw [hBent]
    exact Multiset.coe_card es1
  have hNcard : Multiset.card (buildN es2).entries = es2.length := by
    rw [hNent]
    exact Multiset.coe_card es2
  have hRcard : Multiset.card (buildR es3 sB).1.entries = es3.length := by
    rw [hRent]
    exact Multiset.coe_card es3
  refine ⟨?_, ?_, ?_, ?_, ?_, ?_⟩
  · intro i hi
    obtain ⟨o, ho, hiff⟩ := popsB_isSome (es1.length + 1) (buildB es1) hBinv i (by omega)
    obtain ⟨e, he⟩ := Option.isSome_iff_exists.mp (hiff.mpr (by omega))
    exact ⟨e, by rw [ho, he]⟩
  · obtain ⟨o, ho, hiff⟩ :=
      popsB_isSome (es1.length + 1) (buildB es1) hBinv es1.length (by omega)
    have hno : o = none := by
      rcases o with _ | e
      · rfl
      · exact absurd (hiff.mp rfl) (by omega)
    rw [ho, hno]
  · intro i hi
    obtain ⟨o, ho, hiff⟩ :=
      popsN_isSome (es2.length + 1) (buildN es2) hNord hNvalid i (by omega)
    obtain ⟨e, he⟩ := Option.isSome_iff_exists.mp (hiff.mpr (by omega))
    exact ⟨e, by rw [ho, he]⟩
  · obtain ⟨o, ho, hiff⟩ :=
      popsN_isSome (es2.length + 1) (buildN es2) hNord hNvalid es2.length (by omega)
    have hno : o = none := by
      rcases o with _ | e
      · rfl
      · exact absurd (hiff.mp rfl) (by omega)
    rw [ho, hno]
  · intro i hi
    obtain ⟨o, ho, hiff⟩ :=
      popsR_isSome (es3.length + 1) (buildR es3 sB).1 sP hRord i (by omega)
    obtain ⟨e, he⟩ := Option.isSome_iff_exists.mp (hiff.mpr (by omega))
    exact ⟨e, by rw [ho, he]⟩
  · obtain ⟨o, ho, hiff⟩ :=
      popsR_isSome (es3.length + 1) (buildR es3 sB).1 sP hRord es3.length (by omega)
    have hno : o = none := by
      rcases o with _ | e
      · rfl
      · exact absurd (hiff.mp rfl) (by omega)
    rw [ho, hno]

end ClaimTheorems2

section ClaimTheorem1

variable {K : Type u} {D : Type v} [LinearOrder K]

/-- Claim C1: on every reachable non-empty heap of each of the three variants
(quantified over every coin stream for the randomized one), extract-min
returns `some` stored entry whose key is at most every stored key and leaves
exactly the previous entry multiset minus that entry; and for entry lists
with equal key multisets, building each variant by insertion and repeatedly
extracting yields one and the same non-decreasing key sequence from all
three variants. -/
theorem spec_C1_extract_min_correct (bh : BinaryHeap K D) (nh : BinomialHeap K D)
    (rh : RandomizedMeldableHeap K D) (sDel : CoinStream)
    (hbr : ReachableB bh) (hnr : ReachableN nh) (hrr : ReachableR rh)
    (hbne : bh.entries ≠ 0) (hnne : nh.entries ≠ 0) (hrne : rh.entries ≠ 0)
    (es1 es2 es3 : List (HeapEntry K D)) (sBuild sPop : CoinStream)
    (hk12 : ((es1.map HeapEntry.key : List K) : Multiset K) = ↑(es2.map HeapEntry.key))
    (hk13 : ((es1.map HeapEntry.key : List K) : Multiset K) = ↑(es3.map HeapEntry.key)) :
    (∃ (e : HeapEntry K D) (bh2 : BinaryHeap K D), bh.deleteMin = (bh2, some e) ∧
      e ∈ bh.entries ∧ (∀ x ∈ bh.entries, e.key ≤ x.key) ∧
      e ::ₘ bh2.entries = bh.entries) ∧
    (∃ (e : HeapEntry K D) (nh2 : BinomialHeap K D), nh.deleteMin = (nh2, some e) ∧
      e ∈ nh.entries ∧ (∀ x ∈ nh.entries, e.key ≤ x.key) ∧
      e ::ₘ nh2.entries = nh.entries) ∧
    (∃ (e : HeapEntry K D) (rh2 : RandomizedMeldableHeap K D) (s2 : CoinStream),
      rh.deleteMin sDel = (rh2, s2, some e) ∧
      e ∈ rh.entries ∧ (∀ x ∈ rh.entries, e.key ≤ x.key) ∧
      e ::ₘ rh2.entries = rh.entries) ∧
    (popKeys (popsB es1.length (buildB es1))).Sorted (· ≤ ·) ∧
    popKeys (popsB es1.length (buildB es1)) = popKeys (popsN es2.length (buildN es2)) ∧
    popKeys (popsB es1.length (buildB es1))
      = popKeys (popsR es3.length (buildR es3 sBuild).1 sPop) := by
  obtain ⟨hNord, hNvalid⟩ := hnr.invN
  obtain ⟨hB1inv, hB1ent⟩ := buildB_spec es1
  obtain ⟨hN1ord, hN1valid, hN1ent⟩ := buildN_spec es2
  obtain ⟨hR1ord, hR1ent⟩ := buildR_spec es3 sBuild
  obtain ⟨hsB, hpB⟩ := popsB_sorted_perm es1.length (buildB es1) hB1inv
    (by rw [hB1ent, Multiset.coe_card])
  obtain ⟨hsN, hpN⟩ := popsN_sorted_perm es2.length (buildN es2) hN1ord hN1valid
    (by rw [hN1ent, Multiset.coe_card])
  obtain ⟨hsR, hpR⟩ := popsR_sorted_perm es3.length (buildR es3 sBuild).1 sPop hR1ord
    (by rw [hR1ent, Multiset.coe_card])
  rw [hB1ent, Multiset.map_coe] at hpB
  rw [hN1ent, Multiset.map_coe] at hpN
  rw [hR1ent, Multiset.map_coe] at hpR
  refine ⟨?_, ?_, ?_, hsB, ?_, ?_⟩
  · have hne : bh.storage ≠ [] := by
      intro hc
      refine hbne ?_
      show ((bh.storage : List (HeapEntry K D)) : Multiset (HeapEntry K D)) = 0
      rw [hc]
      rfl
    obtain ⟨e, h2, hdel, _, hent, hmin⟩ := BinaryHeap.deleteMin_spec bh hbr.invB hne
    refine ⟨e, h2, hdel, ?_, hmin, hent⟩
    rw [← hent]
    exact Multiset.mem_cons_self _ _
  · obtain ⟨e, h2, hdel, _, _, hent, hmin⟩ :=
      BinomialHeap.deleteMin_specN nh hNord hNvalid hnne
    refine ⟨e, h2, hdel, ?_, hmin, hent⟩
    rw [← hent]
    exact Multiset.mem_cons_self _ _
  · obtain ⟨e, h2, s2, hdel, _, hent, hmin⟩ :=
      RandomizedMeldableHeap.deleteMin_specR rh sDel hrr.invR hrne
    refine ⟨e, h2, s2, hdel, ?_, hmin, hent⟩
    rw [← hent]
    exact Multiset.mem_cons_self _ _
  · refine List.eq_of_perm_of_sorted (Multiset.coe_eq_coe.mp ?_) hsB hsN
    rw [hpB, hpN]
    exact hk12
  · refine List.eq_of_perm_of_sorted (Multiset.coe_eq_coe.mp ?_) hsB hsR
    rw [hpB, hpR]
    exact hk13

end ClaimTheorem1

section ClaimWitnesses

unseal siftUp BinomialTree.entries RandomizedMeldableHeap.meld in
theorem spec_C1_extract_min_correct_witness :
    popKeys (popsB [(⟨1, ()⟩ : HeapEntry Nat Unit)].length (buildB [⟨1, ()⟩]))
      = popKeys (popsN [(⟨1, ()⟩ : HeapEntry Nat Unit)].length (buildN [⟨1, ()⟩])) :=
  (spec_C1_extract_min_correct
    (BinaryHeap.insert (K := Nat) (D := Unit) ⟨[]⟩ ⟨1, ()⟩).1
    (BinomialHeap.insert ⟨[]⟩ ⟨1, ()⟩)
    (RandomizedMeldableHeap.insert .empty ⟨1, ()⟩ (fun _ => true)).1
    (fun _ => true)
    (ReachableB.ins ⟨1, ()⟩ ReachableB.new)
    (ReachableN.ins ⟨1, ()⟩ ReachableN.new)
    (ReachableR.ins ⟨1, ()⟩ (fun _ => true) ReachableR.new)
    (by decide) (by decide) (by decide)
    [⟨1, ()⟩] [⟨1, ()⟩] [⟨1, ()⟩] (fun _ => true) (fun _ => true)
    rfl rfl).2.2.2.2.1

theorem spec_C2_invariants_preserved_witness :
    heapInv ((BinaryHeap.mk [(⟨1, ()⟩ : HeapEntry Nat Unit), ⟨2, ()⟩]).insert
      ⟨0, ()⟩).1.storage :=
  (spec_C2_invariants_preserved ⟨[⟨1, ()⟩, ⟨2, ()⟩]⟩ ⟨0, ()⟩ 0 0
    (buildN [⟨1, ()⟩]) (buildN [⟨2, ()⟩])
    (buildR [⟨1, ()⟩] (fun _ => true)).1 (buildR [⟨2, ()⟩] (fun _ => true)).1
    (fun _ => true)
    (by decide)
    (buildN_spec [⟨1, ()⟩]).1 (buildN_spec [⟨2, ()⟩]).1
    (buildR_spec [⟨1, ()⟩] (fun _ => true)).1
    (buildR_spec [⟨2, ()⟩] (fun _ => true)).1).1

theorem spec_C3_binomial_merge_witness :
    Multiset.card ((buildN [(⟨1, ()⟩ : HeapEntry Nat Unit), ⟨2, ()⟩]).merge
        (buildN [⟨3, ()⟩])).entries
      = Multiset.card (buildN [(⟨1, ()⟩ : HeapEntry Nat Unit), ⟨2, ()⟩]).entries
        + Multiset.card (buildN [(⟨3, ()⟩ : HeapEntry Nat Unit)]).entries :=
  (spec_C3_binomial_merge (buildN [⟨1, ()⟩, ⟨2, ()⟩]) (buildN [⟨3, ()⟩])
    (buildN_spec [⟨1, ()⟩, ⟨2, ()⟩]).1 (buildN_spec [⟨1, ()⟩, ⟨2, ()⟩]).2.1
    (buildN_spec [⟨3, ()⟩]).1 (buildN_spec [⟨3, ()⟩]).2.1).2.2.1

theorem spec_C4_decrease_key_witness :
    ∃ h2 : BinaryHeap Nat Unit,
      (BinaryHeap.mk [(⟨5, ()⟩ : HeapEntry Nat Unit)]).decreaseKey 0 3 = some h2 ∧
      heapInv h2.storage ∧
      (⟨5, ()⟩ : HeapEntry Nat Unit) ::ₘ h2.entries
        = (⟨3, ()⟩ : HeapEntry Nat Unit) ::ₘ
            (BinaryHeap.mk [(⟨5, ()⟩ : HeapEntry Nat Unit)]).entries ∧
      (⟨3, ()⟩ : HeapEntry Nat Unit) ∈ h2.entries ∧
      ((∀ x ∈ h2.entries, x = (⟨3, ()⟩ : HeapEntry Nat Unit) ∨ 3 < x.key) →
        ((h2.deleteMin).2) = some (⟨3, ()⟩ : HeapEntry Nat Unit)) :=
  (spec_C4_decrease_key ⟨[⟨5, ()⟩]⟩ 0 3 ⟨5, ()⟩ (by decide) (by decide) (by decide)).1

theorem spec_C6_tie_lower_index_witness :
    swapTarget [(⟨0, ()⟩ : HeapEntry Nat Unit), ⟨5, ()⟩, ⟨5, ()⟩] 0 = 2 * 0 + 1 :=
  spec_C6_tie_lower_index [⟨0, ()⟩, ⟨5, ()⟩, ⟨5, ()⟩] 0 ⟨5, ()⟩ ⟨5, ()⟩
    (by decide) (by decide) (by decide) rfl

theorem spec_C7_insert_resting_index_witness :
    ((BinaryHeap.mk [(⟨1, ()⟩ : HeapEntry Nat Unit)]).insert ⟨2, ()⟩).1.storage[
        ((BinaryHeap.mk [(⟨1, ()⟩ : HeapEntry Nat Unit)]).insert ⟨2, ()⟩).2]?
      = some ⟨2, ()⟩ :=
  (spec_C7_insert_resting_index ⟨[⟨1, ()⟩]⟩ ⟨2, ()⟩ (by decide)).1

end ClaimWitnesses
